import Mathlib

/-!
# OpenSTL `vector`: a shallow embedding of the storage engine

The development follows `include/OpenSTL/vector.h` and `include/OpenSTL/memory.h`.

* A `T*` data member is a `pointer T`: `none` is `nullptr`, `some cells` is a live
  array obtained from `new T[count]`, holding exactly the listed cells.
* `new T[count]` does not initialise the cells of a scalar type: cell `i` of the
  fresh array holds `element_type.indeterminate count i`, about which nothing is
  known in the general theorems (the evaluations at `int` fix a bit pattern), so a
  cell holds `value_type()` only where a loop of the code has assigned it.
* Reading or writing a cell that the allocation does not have is undefined
  behaviour in C++; the embedding reports it as `none` in the `Option` monad, so a
  result `some _` says that every access of the run was inside the buffer.
* `size_type` values and the `size_type` loop counters are natural numbers.
  Increments and `m_size * 2` do not wrap, a buffer having far fewer cells than a
  counter can represent; the decrements of `m_size` wrap below zero as in
  `size_type_sub`.
* The one `int` counter, in the fill loop of `re_allocate`, is a 32-bit two's
  complement number: `int i = m_size` keeps the low 32 bits (`int_of_size_type`),
  `i++` at `INT_MAX` continues at `INT_MIN` as the machine increment does
  (`int_succ`), and in `i < new_capacity` a negative `i` is converted to a
  `size_type` above every capacity (`int_lt_size_type`), which ends the loop.
* A reference parameter (`const T&`, `T&&`, `Args&&...`) is an `argument`: an object
  outside the buffer, or a cell of the vector itself. It is read where the code
  reads it; reading a cell of a buffer that the call has released by then is
  undefined behaviour.
* Every loop runs with the number of steps it needs at most, so `none` never comes
  from the step budget.
* `value_type()` is `default`; `open_stl::move` is the cast `(T&&)val`, and
  assigning from it to another object copies the value for the value types
  considered here. Assigning an element to itself, which `erase(first, last)` does
  for `first == last`, gives `element_type.self_move_assign`: the same value for a
  scalar, the empty vector for an element that is an `open_stl::vector`.
* `delete[] p` and `allocator<T>::deallocate(p)` on a null pointer or on a live
  array leave nothing to observe and are not shown; releasing an array and then
  reading or releasing it again is undefined behaviour (see `copy_assign`).
* An iterator is a `T*` into the buffer of the vector it was taken from and is
  represented by its offset from `m_data`: `begin()` is `0`, `end()` is `m_size`.
* The base of a reverse iterator is such a position too, as an integer, since
  `rend()` is built from `&m_data[-1]`. Addresses are computed modulo `2 ^ 64`, so
  `&m_data[i]` for a `size_type` index `i` above `PTRDIFF_MAX` is a position below
  the buffer (`position_of_index`); positions of one buffer are compared as
  integers.
* `include/OpenSTL/algorithm.h` and `include/OpenSTL/internal/reverse_iterator.h`
  are embedded as well; a range is a pointer with a begin and an end offset.
* `new T[count]` succeeds in the definitions above. The definitions whose name ends
  in `_alloc` repeat the operations that allocate, with a flag `heap_ok` saying
  whether the one allocation of the call succeeds; when it does not,
  `std::bad_alloc` leaves the call and the outcome records the vector as it is at
  that moment (`result.threw`).
* `include/OpenSTL/array.h`: `array<T, N>` is its `N` cells; the specialisation
  `array<T, 0>` is the case `N = 0`.
-/

namespace open_stl

/-- Storage behind a `T*`: `none` for `nullptr`, `some cells` for a live array. -/
abbrev pointer (T : Type) := Option (List T)

/-- The rvalue `p[i]`; `none` when the allocation has no cell `i`. -/
def load {T : Type} (p : pointer T) (i : Nat) : Option T :=
  match p with
  | some cells => cells[i]?
  | none => none

/-- The assignment `p[i] = x`; `none` when the allocation has no cell `i`. -/
def store {T : Type} (p : pointer T) (i : Nat) (x : T) : Option (pointer T) :=
  match p with
  | some cells => if i < cells.length then some (some (cells.set i x)) else none
  | none => none

/-- The loop `for (i = lo; i < hi; i++) body(i)` over a state `σ`, run with `fuel`
steps available; `none` when the body fails or the fuel ends before the guard. -/
def for_loop {σ : Type} (body : Nat → σ → Option σ) (hi : Nat) : Nat → Nat → σ → Option σ
  | 0, i, s => if i < hi then none else some s
  | fuel + 1, i, s => if i < hi then (body i s).bind (for_loop body hi fuel (i + 1)) else some s

/-- The loop `while (cond) body` over a state `σ`, run with `fuel` steps available;
`none` when the body fails or the fuel ends before the guard turns false. -/
def while_loop {σ : Type} (cond : σ → Bool) (body : σ → Option σ) : Nat → σ → Option σ
  | 0, s => if cond s then none else some s
  | fuel + 1, s => if cond s then (body s).bind (while_loop cond body fuel) else some s

/-- The largest `std::size_t`. -/
def SIZE_MAX : Nat := 2 ^ 64 - 1

/-- Subtraction of `size_type` values: it wraps modulo `2 ^ 64` below zero. -/
def size_type_sub (a b : Nat) : Nat :=
  if b ≤ a then a - b else a + 2 ^ 64 - b

/-- Conversion of a `size_type` value to `int`: the low 32 bits, read as a two's
complement number. -/
def int_of_size_type (n : Nat) : Int :=
  if n % 2 ^ 32 < 2 ^ 31 then ((n % 2 ^ 32 : Nat) : Int) else ((n % 2 ^ 32 : Nat) : Int) - 2 ^ 32

/-- The increment `i++` of an `int`: at `INT_MAX` the counter continues at `INT_MIN`. -/
def int_succ (i : Int) : Int :=
  if i = 2 ^ 31 - 1 then -(2 ^ 31) else i + 1

/-- The comparison `i < n` of an `int` `i` with a `size_type` `n`: `i` is converted to
`size_type`, which turns a negative `i` into a value of at least `2 ^ 64 - 2 ^ 31`,
above every capacity; a non-negative `i` keeps its value. -/
def int_lt_size_type (i : Int) (n : Nat) : Bool :=
  decide (0 ≤ i ∧ i < (n : Int))

/-- What the storage engine uses of the element type `T` besides `value_type()`:
`indeterminate count i` is what cell `i` of the array returned by `new T[count]`
holds before anything is assigned to it (an indeterminate value for a scalar type,
a default-constructed object for a class type), and `self_move_assign x` is the
value of an object holding `x` after the assignment `x = (T&&)x` to itself. -/
class element_type (T : Type) where
  indeterminate : Nat → Nat → T
  self_move_assign : T → T

/-- Elements of type `int`, as natural numbers: the fresh cells of the evaluations
hold the pattern `0xCDCDCDCD` (any other would do), and assigning a scalar to itself
changes nothing. -/
instance : element_type Nat where
  indeterminate := fun _ _ => 3452816845
  self_move_assign := fun x => x

/-- Elements of type `int`, as integers. -/
instance : element_type Int where
  indeterminate := fun _ _ => 3452816845
  self_move_assign := fun x => x

/-- `allocator<T>::allocate(count)`: `new T[count]`, an array of `count` cells that
nothing has been assigned to. -/
def allocator.allocate {T : Type} [element_type T] (count : Nat) : pointer T :=
  some ((List.range count).map (element_type.indeterminate count))

/-- What a reference parameter (`const T&`, `T&&`, `Args&&...`) of a member function
is bound to: an object outside the buffer of the vector, holding `x` during the
call, or the cell `m_data[i]` of the vector itself, as in `v.push_back(v[0])`. -/
inductive argument (T : Type) where
  | object (x : T)
  | element (i : Nat)

/-- The value read through a reference parameter at a moment of the call when the
data member is `m_data`; `released` says that the buffer the vector had at the
start of the call has been released by then, so that a reference into it dangles
and reading through it is undefined. -/
def argument.read {T : Type} (a : argument T) (m_data : pointer T) (released : Bool) :
    Option T :=
  match a with
  | argument.object x => some x
  | argument.element i => if released then none else load m_data i

/-- The data members of `open_stl::vector<T>`. -/
structure vector (T : Type) where
  m_data : pointer T
  m_size : Nat
  m_capacity : Nat
  deriving DecidableEq

/-- The exception thrown by `vector::at`. -/
inductive exception where
  | out_of_range
  deriving DecidableEq

namespace vector

variable {T : Type}

/-- `vector()`: null data, size 0, capacity 0. -/
def default_ctor : vector T :=
  { m_data := none, m_size := 0, m_capacity := 0 }

/-- `vector(const std::initializer_list<T>& values)`: allocate `values.size()` cells
and assign the values in order. -/
def initializer_list_ctor [element_type T] (values : List T) : Option (vector T) := do
  let data ← for_loop (fun i d => (values[i]?).bind (store d i)) values.length values.length 0
    (allocator.allocate values.length)
  pure { m_data := data, m_size := values.length, m_capacity := values.length }

/-- `size()`. -/
def size (v : vector T) : Nat := v.m_size

/-- `capacity()`. -/
def capacity (v : vector T) : Nat := v.m_capacity

/-- `empty()`. -/
def empty (v : vector T) : Bool := v.m_size == 0

/-- `begin()`: `&m_data[0]`, offset 0. -/
def begin (_v : vector T) : Nat := 0

/-- `end()`: `&m_data[m_size]`. -/
def «end» (v : vector T) : Nat := v.m_size

/-- `operator[](position)`: `m_data[position]`, unchecked. -/
def subscript (v : vector T) (position : Nat) : Option T :=
  load v.m_data position

/-- `at(off)`: throws `out_of_range` when `off < 0 || off >= m_size`, otherwise
returns `m_data[off]`. The body assigns to no member. -/
def «at» (v : vector T) (off : Nat) : Except exception (Option T) :=
  if off < 0 ∨ off ≥ v.m_size then
    Except.error exception.out_of_range
  else
    Except.ok (load v.m_data off)

/-- `re_allocate(new_capacity)`: allocate, move the `m_size` live cells across with a
`size_type` counter, assign `value_type()` in the loop
`for (int i = m_size; i < new_capacity; i++)`, whose counter is an `int`, release
the old buffer and take the new one. -/
def re_allocate [Inhabited T] [element_type T] (v : vector T) (new_capacity : Nat) :
    Option (vector T) := do
  let new_data : pointer T := allocator.allocate new_capacity
  let new_data ← for_loop (fun i d => (load v.m_data i).bind (store d i))
    v.m_size v.m_size 0 new_data
  let (_, new_data) ← while_loop
    (fun s : Int × pointer T => int_lt_size_type s.1 new_capacity)
    (fun s => do
      let d ← store s.2 s.1.toNat default
      pure (int_succ s.1, d))
    new_capacity (int_of_size_type v.m_size, new_data)
  pure { m_data := new_data, m_size := v.m_size, m_capacity := new_capacity }

/-- `expand_capacity()`: when the buffer is full, reallocate to 1 cell if the
vector is empty and to twice the size otherwise. -/
def expand_capacity [Inhabited T] [element_type T] (v : vector T) : Option (vector T) :=
  if v.m_size = v.m_capacity then
    if v.m_size = 0 then re_allocate v 1 else re_allocate v (v.m_size * 2)
  else
    pure v

/-- Whether `expand_capacity()` releases the buffer the vector had: it does so in
`re_allocate`, in either branch under `m_size == m_capacity`. -/
def expand_capacity_releases (v : vector T) : Bool :=
  if v.m_size = v.m_capacity then
    if v.m_size = 0 then true else true
  else false

/-- `clear()`. -/
def clear [Inhabited T] (v : vector T) : Option (vector T) := do
  let data ← for_loop (fun i d => store d i default) v.m_size v.m_size 0 v.m_data
  pure { v with m_data := data, m_size := 0 }

/-- `reserve(count)`. -/
def reserve [Inhabited T] [element_type T] (v : vector T) (count : Nat) : Option (vector T) :=
  if count > v.m_capacity then re_allocate v count else pure v

/-- `resize(new_size)`. -/
def resize [Inhabited T] [element_type T] (v : vector T) (new_size : Nat) : Option (vector T) :=
  if v.m_size = new_size then pure v
  else do
    let v ←
      if new_size < v.m_size then do
        let data ← for_loop (fun i d => store d i default)
          v.m_size (v.m_size - new_size) new_size v.m_data
        pure { v with m_data := data }
      else if new_size > v.m_capacity then re_allocate v new_size
      else pure v
    pure { v with m_size := new_size }

/-- `shrink_to_fit()`. -/
def shrink_to_fit [Inhabited T] [element_type T] (v : vector T) : Option (vector T) :=
  if v.m_capacity > v.m_size then re_allocate v v.m_size else pure v

/-- `push_back(val)` (the copy and the move overload have the same body): `val` is a
reference, read in `m_data[m_size] = val` after `expand_capacity()`. -/
def push_back [Inhabited T] [element_type T] (v : vector T) (val : argument T) :
    Option (vector T) := do
  let released := expand_capacity_releases v
  let v ← expand_capacity v
  let x ← val.read v.m_data released
  let data ← store v.m_data v.m_size x
  pure { v with m_data := data, m_size := v.m_size + 1 }

/-- `pop_back()`. -/
def pop_back [Inhabited T] (v : vector T) : Option (vector T) := do
  let v := { v with m_size := size_type_sub v.m_size 1 }
  let data ← store v.m_data v.m_size default
  pure { v with m_data := data }

/-- `emplace_back(args...)` with one argument: `args` is a reference, read in
`m_data[m_size] = value_type(args...)` after `expand_capacity()`. -/
def emplace_back [Inhabited T] [element_type T] (v : vector T) (args : argument T) :
    Option (vector T) := do
  let released := expand_capacity_releases v
  let v ← expand_capacity v
  let x ← args.read v.m_data released
  let data ← store v.m_data v.m_size x
  pure { v with m_data := data, m_size := v.m_size + 1 }

/-- `emplace(position, args...)` with one argument: `args` is a reference, read in
`value_type(args...)` after `re_allocate(1)` in the empty branch and after the shift
loop in the other one; the result is the vector afterwards and the returned
iterator. -/
def emplace [Inhabited T] [element_type T] (v : vector T) (position : Nat)
    (args : argument T) : Option (vector T × Nat) :=
  if v.m_size = 0 then do
    let v ← re_allocate v 1
    let x ← args.read v.m_data true
    let data ← store v.m_data 0 x
    let v := { v with m_data := data, m_size := v.m_size + 1 }
    pure (v, v.begin)
  else do
    let off := position - v.begin
    let temp ← load v.m_data (v.m_size - 1)
    let it := v.end - 1
    let (it, data) ← while_loop (fun s : Nat × pointer T => decide (s.1 > position))
      (fun s => do
        let prev ← load s.2 (s.1 - 1)
        let d ← store s.2 s.1 prev
        pure (s.1 - 1, d))
      v.m_size (it, v.m_data)
    let x ← args.read data false
    let data ← store data it x
    let v := { v with m_data := data }
    let v ← if v.m_size = v.m_capacity then re_allocate v (v.m_size + 1) else pure v
    let data ← store v.m_data v.m_size temp
    let v := { v with m_data := data, m_size := v.m_size + 1 }
    pure (v, off)

/-- `erase(position)`; the result is the vector afterwards and the returned
iterator. -/
def erase [Inhabited T] (v : vector T) (position : Nat) : Option (vector T × Nat) := do
  let it := v.begin
  let it ← while_loop (fun it : Nat => decide (it ≤ position)) (fun it => pure (it + 1))
    (position + 1) it
  let it := it - 1
  let copy_it := it
  let it := it + 1
  let (_, data) ← while_loop (fun s : Nat × pointer T => decide (s.1 < v.end))
    (fun s => do
      let next ← load s.2 s.1
      let d ← store s.2 (s.1 - 1) next
      pure (s.1 + 1, d))
    v.m_size (it, v.m_data)
  pure ({ v with m_data := data, m_size := size_type_sub v.m_size 1 }, copy_it)

/-- `erase(first, last)`; the result is the vector afterwards and the returned
iterator. When `first == last` the two iterators of the last loop point to the same
cell and `*first_iter = (value_type&&)*last_iter` assigns the element to itself. -/
def erase_range [element_type T] (v : vector T) (first last : Nat) :
    Option (vector T × Nat) := do
  let first_iter := v.begin
  let first_iter ← while_loop (fun it : Nat => decide (it < first)) (fun it => pure (it + 1))
    first first_iter
  let last_iter := first_iter
  let last_iter ← while_loop (fun it : Nat => decide (it < last)) (fun it => pure (it + 1))
    last last_iter
  let copy_first_iter := first_iter
  let (first_iter, last_iter, data) ←
    while_loop (fun s : Nat × Nat × pointer T => decide (s.2.1 < v.end))
      (fun s => do
        let moved ← load s.2.2 s.2.1
        let d ← store s.2.2 s.1
          (if s.1 = s.2.1 then element_type.self_move_assign moved else moved)
        pure (s.1 + 1, s.2.1 + 1, d))
      v.m_size (first_iter, last_iter, v.m_data)
  pure ({ v with m_data := data, m_size := size_type_sub v.m_size (last_iter - first_iter) },
    copy_first_iter)

/-- `back()`: `m_data[m_size - 1]`, unchecked. -/
def back (v : vector T) : Option T :=
  load v.m_data (size_type_sub v.m_size 1)

/-- `vector(const vector& right)`: allocate `right.m_size` cells and assign
`right[i]` to cell `i`; size and capacity are both `right.m_size`. The source is
taken by const reference and is not written. -/
def copy_ctor [element_type T] (right : vector T) : Option (vector T) := do
  let data ← for_loop (fun i d => (right.subscript i).bind (store d i))
    right.m_size right.m_size 0 (allocator.allocate right.m_size)
  pure { m_data := data, m_size := right.m_size, m_capacity := right.m_size }

/-- `vector(vector&& right)`: take the three members of `right` and reset `right`
to null data, size 0, capacity 0. The result is the new vector and `right`
afterwards. -/
def move_ctor (right : vector T) : vector T × vector T :=
  ({ m_data := right.m_data, m_size := right.m_size, m_capacity := right.m_capacity },
   { right with m_data := none, m_size := 0, m_capacity := 0 })

/-- `operator=(const vector& right)` on a vector that is not `right` itself.
`delete[] m_data` releases the buffer and leaves `m_data` dangling unless it was
null; `re_allocate` then reads `m_data[i]` for `i < m_size` and passes `m_data` to
`alloc.deallocate`, a second `delete[]` of the released array: undefined behaviour,
shown as `none`. On a null `m_data` both deletes do nothing, and the body goes on:
`re_allocate(right.m_size)`, the copy loop, `m_size = right.m_size`,
`m_capacity = right.m_capacity`. -/
def copy_assign [Inhabited T] [element_type T] (v right : vector T) : Option (vector T) :=
  match v.m_data with
  | some _ => none
  | none => do
    let v ← re_allocate v right.m_size
    let data ← for_loop (fun i d => (right.subscript i).bind (store d i))
      right.m_size right.m_size 0 v.m_data
    let v := { v with m_data := data }
    let v := { v with m_size := right.m_size }
    pure { v with m_capacity := right.m_capacity }

/-- `operator=(vector&& right)` on a vector that is not `right` itself:
`delete[] m_data` releases the old buffer (or does nothing on null), the three
members of `right` are taken and `right` is reset. The result is the assigned
vector and `right` afterwards. -/
def move_assign (_v right : vector T) : vector T × vector T :=
  ({ m_data := right.m_data, m_size := right.m_size, m_capacity := right.m_capacity },
   { right with m_data := none, m_size := 0, m_capacity := 0 })

/-- `operator=(vector&& right)` with `right` being the vector itself:
`delete[] m_data` releases the buffer, the three members are assigned to themselves
and then reset through `right`. -/
def self_move_assign (_v : vector T) : vector T :=
  { m_data := none, m_size := 0, m_capacity := 0 }

/-- The loop of `operator==`: `false` at the first index below `hi` whose cells
differ, `true` when there is none. -/
def equal_loop [DecidableEq T] (a b : pointer T) (hi : Nat) : Nat → Nat → Option Bool
  | 0, i => if i < hi then none else some true
  | fuel + 1, i =>
    if i < hi then
      (load a i).bind fun x => (load b i).bind fun y =>
        if x ≠ y then some false else equal_loop a b hi fuel (i + 1)
    else some true

/-- `operator==(right)`: `false` when the sizes differ, otherwise the outcome of the
element loop. -/
def operator_eq [DecidableEq T] (v right : vector T) : Option Bool :=
  if v.m_size ≠ right.m_size then some false
  else equal_loop v.m_data right.m_data v.m_size v.m_size 0

/-- The buffer cells of a vector (none for a null pointer). -/
def cells (v : vector T) : List T := v.m_data.getD []

/-- The live elements `v[0], ..., v[size - 1]` in order. -/
def toList (v : vector T) : List T := (cells v).take v.m_size

end vector

/-- `value_type()` for an element type that is itself a vector: `vector()`. -/
instance {T : Type} : Inhabited (vector T) := ⟨vector.default_ctor⟩

/-- Elements that are vectors themselves: `new T[count]` runs `vector()` on every
cell, and the assignment of an element to itself is `vector.self_move_assign`. -/
instance {T : Type} : element_type (vector T) where
  indeterminate := fun _ _ => vector.default_ctor
  self_move_assign := vector.self_move_assign

/-- The loop and the final test of `lexicographical_compare` on the ranges
`[lhs_begin, lhs_end)` of `lhs` and `[rhs_begin, rhs_end)` of `rhs`: `true` at the
first position whose left element is smaller, `false` at the first whose left
element is greater; when a range ends, `true` exactly if the left one ended and the
right one did not. -/
def lexicographical_compare_loop {T : Type} [LT T] [DecidableRel (fun a b : T => a < b)]
    (lhs rhs : pointer T) (lhs_end rhs_end : Nat) : Nat → Nat → Nat → Option Bool
  | 0, lhs_begin, rhs_begin =>
    if lhs_begin ≠ lhs_end ∧ rhs_begin ≠ rhs_end then none
    else some (decide (lhs_begin = lhs_end ∧ rhs_begin ≠ rhs_end))
  | fuel + 1, lhs_begin, rhs_begin =>
    if lhs_begin ≠ lhs_end ∧ rhs_begin ≠ rhs_end then
      (load lhs lhs_begin).bind fun x => (load rhs rhs_begin).bind fun y =>
        if x < y then some true
        else if x > y then some false
        else lexicographical_compare_loop lhs rhs lhs_end rhs_end fuel
          (lhs_begin + 1) (rhs_begin + 1)
    else some (decide (lhs_begin = lhs_end ∧ rhs_begin ≠ rhs_end))

/-- `lexicographical_compare(lhs_begin, lhs_end, rhs_begin, rhs_end)`, the iterators
being offsets into `lhs` and `rhs`. The loop ends after at most as many steps as the
longer range has elements. -/
def lexicographical_compare {T : Type} [LT T] [DecidableRel (fun a b : T => a < b)]
    (lhs : pointer T) (lhs_begin lhs_end : Nat) (rhs : pointer T) (rhs_begin rhs_end : Nat) :
    Option Bool :=
  lexicographical_compare_loop lhs rhs lhs_end rhs_end
    (max (lhs_end - lhs_begin) (rhs_end - rhs_begin)) lhs_begin rhs_begin

/-- The position of `&m_data[i]` for a `size_type` index `i`: the address wraps
modulo `2 ^ 64`, so an index from `2 ^ 63` on is a position below the buffer. -/
def position_of_index (i : Nat) : Int :=
  if i < 2 ^ 63 then (i : Int) else (i : Int) - 2 ^ 64

/-- The element `*it` at an integer position of a buffer; `none` outside it. -/
def load_at {T : Type} (p : pointer T) (position : Int) : Option T :=
  if 0 ≤ position then load p position.toNat else none

namespace internal

/-- The data member of `reverse_iterator<RandomIterator>` for a pointer iterator:
the position the base iterator points to. -/
structure reverse_iterator where
  m_iterator : Int
  deriving DecidableEq

namespace reverse_iterator

/-- `base()`. -/
def base (r : reverse_iterator) : Int := r.m_iterator

/-- `operator*()`: `*m_iterator`, read from the buffer the base points into. -/
def deref {T : Type} (r : reverse_iterator) (p : pointer T) : Option T :=
  load_at p r.m_iterator

/-- `operator+(off)`: `reverse_iterator(m_iterator - off)`. -/
def operator_plus (r : reverse_iterator) (off : Int) : reverse_iterator :=
  { m_iterator := r.m_iterator - off }

/-- Prefix `operator++()`: `m_iterator--; return *this`. -/
def pre_increment (r : reverse_iterator) : reverse_iterator :=
  { r with m_iterator := r.m_iterator - 1 }

/-- Postfix `operator++(int)`: the returned copy of the old iterator, and the
iterator afterwards. -/
def post_increment (r : reverse_iterator) : reverse_iterator × reverse_iterator :=
  let it := r
  (it, pre_increment r)

/-- `operator+=(off)`: `m_iterator = m_iterator - off; return *this`. -/
def operator_plus_assign (r : reverse_iterator) (off : Int) : reverse_iterator :=
  { r with m_iterator := r.m_iterator - off }

/-- `operator-(off)`: `reverse_iterator(m_iterator + off)`. -/
def operator_minus (r : reverse_iterator) (off : Int) : reverse_iterator :=
  { m_iterator := r.m_iterator + off }

/-- Prefix `operator--()`: `m_iterator++; return *this`. -/
def pre_decrement (r : reverse_iterator) : reverse_iterator :=
  { r with m_iterator := r.m_iterator + 1 }

/-- Postfix `operator--(int)`: the returned copy of the old iterator, and the
iterator afterwards. -/
def post_decrement (r : reverse_iterator) : reverse_iterator × reverse_iterator :=
  let it := r
  (it, pre_decrement r)

/-- `operator-=(off)`: `m_iterator = m_iterator + off; return *this`. -/
def operator_minus_assign (r : reverse_iterator) (off : Int) : reverse_iterator :=
  { r with m_iterator := r.m_iterator + off }

/-- `operator==(right)`: `m_iterator == right.m_iterator`. -/
def operator_eq (r right : reverse_iterator) : Bool :=
  decide (r.m_iterator = right.m_iterator)

/-- `operator!=(right)`: `m_iterator != right.m_iterator`. -/
def operator_ne (r right : reverse_iterator) : Bool :=
  decide (r.m_iterator ≠ right.m_iterator)

/-- `operator<(right)`: `m_iterator > right.m_iterator`. -/
def operator_lt (r right : reverse_iterator) : Bool :=
  decide (r.m_iterator > right.m_iterator)

/-- `operator<=(right)`: `m_iterator >= right.m_iterator`. -/
def operator_le (r right : reverse_iterator) : Bool :=
  decide (r.m_iterator ≥ right.m_iterator)

/-- `operator>(right)`: `m_iterator < right.m_iterator`. -/
def operator_gt (r right : reverse_iterator) : Bool :=
  decide (r.m_iterator < right.m_iterator)

/-- `operator>=(right)`: `m_iterator <= right.m_iterator`. -/
def operator_ge (r right : reverse_iterator) : Bool :=
  decide (r.m_iterator ≤ right.m_iterator)

end reverse_iterator

end internal

namespace vector

variable {T : Type}

/-- `vector(size_type count)`: allocate `count` cells and assign `value_type()` to
each. -/
def count_ctor [Inhabited T] [element_type T] (count : Nat) : Option (vector T) := do
  let data ← for_loop (fun i d => store d i default) count count 0
    (allocator.allocate count)
  pure { m_data := data, m_size := count, m_capacity := count }

/-- `vector(size_type count, const_reference value)`: allocate `count` cells and
assign `value` to each. -/
def fill_ctor [element_type T] (count : Nat) (value : T) : Option (vector T) := do
  let data ← for_loop (fun i d => store d i value) count count 0
    (allocator.allocate count)
  pure { m_data := data, m_size := count, m_capacity := count }

/-- `cbegin()`: `&m_data[0]`. -/
def cbegin (_v : vector T) : Nat := 0

/-- `cend()`: `&m_data[m_size]`. -/
def cend (v : vector T) : Nat := v.m_size

/-- `rbegin()`: `reverse_iterator(&m_data[m_size - 1])`. -/
def rbegin (v : vector T) : internal.reverse_iterator :=
  { m_iterator := position_of_index (size_type_sub v.m_size 1) }

/-- `crbegin()`: `const_reverse_iterator(&m_data[m_size - 1])`. -/
def crbegin (v : vector T) : internal.reverse_iterator :=
  { m_iterator := position_of_index (size_type_sub v.m_size 1) }

/-- `rend()`: `reverse_iterator(&m_data[-1])`. -/
def rend (_v : vector T) : internal.reverse_iterator :=
  { m_iterator := -1 }

/-- `crend()`: `const_reverse_iterator(&m_data[-1])`. -/
def crend (_v : vector T) : internal.reverse_iterator :=
  { m_iterator := -1 }

/-- `operator!=(right)`: `!(*this == right)`. -/
def operator_ne [DecidableEq T] (v right : vector T) : Option Bool :=
  (operator_eq v right).map fun b => !b

/-- `operator<(right)`. -/
def operator_lt [LT T] [DecidableRel (fun a b : T => a < b)] (v right : vector T) :
    Option Bool :=
  lexicographical_compare v.m_data v.cbegin v.cend right.m_data right.cbegin right.cend

/-- `operator<=(right)`: the lexicographic comparison, and `*this == right` when it
is false. -/
def operator_le [LT T] [DecidableRel (fun a b : T => a < b)] [DecidableEq T]
    (v right : vector T) : Option Bool :=
  (lexicographical_compare v.m_data v.cbegin v.cend right.m_data right.cbegin right.cend).bind
    fun less => if less then some true else operator_eq v right

/-- `operator>(right)`. -/
def operator_gt [LT T] [DecidableRel (fun a b : T => a < b)] (v right : vector T) :
    Option Bool :=
  lexicographical_compare right.m_data right.cbegin right.cend v.m_data v.cbegin v.cend

/-- `operator>=(right)`: the lexicographic comparison of `right` with `*this`, and
`*this == right` when it is false. -/
def operator_ge [LT T] [DecidableRel (fun a b : T => a < b)] [DecidableEq T]
    (v right : vector T) : Option Bool :=
  (lexicographical_compare right.m_data right.cbegin right.cend v.m_data v.cbegin v.cend).bind
    fun less => if less then some true else operator_eq v right

/-- The number of calls of `re_allocate` that `expand_capacity()` makes: one in
either branch under `m_size == m_capacity`, none otherwise. -/
def expand_capacity_calls (v : vector T) : Nat :=
  if v.m_size = v.m_capacity then
    if v.m_size = 0 then 1 else 1
  else 0

/-- Sequential `push_back` of the listed values; the result is the vector
afterwards and the number of `re_allocate` calls made on the way (`push_back` calls
`re_allocate` only through `expand_capacity`). -/
def push_back_all [Inhabited T] [element_type T] (v : vector T) :
    List T → Option (vector T × Nat)
  | [] => some (v, 0)
  | x :: xs =>
    (push_back v (argument.object x)).bind fun v1 =>
      (push_back_all v1 xs).map fun r => (r.1, expand_capacity_calls v + r.2)

end vector

/-- The outcome of a member function when `new T[count]` may fail: a normal return,
`std::bad_alloc` leaving the call with the vector in the recorded state, or
undefined behaviour. -/
inductive result (T : Type) (α : Type) where
  | returned (a : α)
  | threw (v : vector T)
  | undefined
  deriving DecidableEq

namespace result

/-- Sequencing: an exception or undefined behaviour ends the run. -/
def bind {T α β : Type} (r : result T α) (f : α → result T β) : result T β :=
  match r with
  | returned a => f a
  | threw v => threw v
  | undefined => undefined

/-- A run without allocation: it returns, or is undefined. -/
def of_option {T α : Type} (o : Option α) : result T α :=
  match o with
  | some a => returned a
  | none => undefined

end result

/-- The members of `open_stl::array<T, N>`: the `N` cells of `m_data`. -/
structure array (T : Type) (N : Nat) where
  m_data : List T
  m_data_length : m_data.length = N

namespace array

/-- `operator[](off)`: `m_data[off]`, unchecked (`*data()` with `data()` null in
`array<T, 0>`). -/
def subscript {T : Type} {N : Nat} (a : array T N) (off : Nat) : Option T :=
  a.m_data[off]?

/-- `at(off)`: in `array<T, 0>` it always throws; otherwise it throws `out_of_range`
when `off < 0 || off >= N` and returns `m_data[off]` when not. -/
def «at» {T : Type} {N : Nat} (a : array T N) (off : Nat) : Except exception (Option T) :=
  if N = 0 then
    Except.error exception.out_of_range
  else if off < 0 ∨ off ≥ N then
    Except.error exception.out_of_range
  else
    Except.ok a.m_data[off]?

end array

namespace vector

variable {T : Type}

/-- `re_allocate(new_capacity)` when the allocation may fail: `alloc.allocate` is
the first statement, so on `std::bad_alloc` no member has been assigned; otherwise
the body runs as in `re_allocate`. -/
def re_allocate_alloc [Inhabited T] [element_type T] (heap_ok : Bool) (v : vector T) (new_capacity : Nat) :
    result T (vector T) :=
  if heap_ok then result.of_option (re_allocate v new_capacity) else result.threw v

/-- `expand_capacity()` when the allocation may fail. -/
def expand_capacity_alloc [Inhabited T] [element_type T] (heap_ok : Bool) (v : vector T) :
    result T (vector T) :=
  if v.m_size = v.m_capacity then
    if v.m_size = 0 then re_allocate_alloc heap_ok v 1
    else re_allocate_alloc heap_ok v (v.m_size * 2)
  else
    result.returned v

/-- `reserve(count)` when the allocation may fail. -/
def reserve_alloc [Inhabited T] [element_type T] (heap_ok : Bool) (v : vector T) (count : Nat) :
    result T (vector T) :=
  if count > v.m_capacity then re_allocate_alloc heap_ok v count else result.returned v

/-- `resize(new_size)` when the allocation may fail. -/
def resize_alloc [Inhabited T] [element_type T] (heap_ok : Bool) (v : vector T) (new_size : Nat) :
    result T (vector T) :=
  if v.m_size = new_size then result.returned v
  else
    (if new_size < v.m_size then
        result.of_option
          ((for_loop (fun i d => store d i default)
            v.m_size (v.m_size - new_size) new_size v.m_data).map
              fun data => { v with m_data := data })
      else if new_size > v.m_capacity then re_allocate_alloc heap_ok v new_size
      else result.returned v).bind
      fun v => result.returned { v with m_size := new_size }

/-- `shrink_to_fit()` when the allocation may fail. -/
def shrink_to_fit_alloc [Inhabited T] [element_type T] (heap_ok : Bool) (v : vector T) :
    result T (vector T) :=
  if v.m_capacity > v.m_size then re_allocate_alloc heap_ok v v.m_size
  else result.returned v

/-- `push_back(val)` when the allocation may fail. -/
def push_back_alloc [Inhabited T] [element_type T] (heap_ok : Bool) (v : vector T)
    (val : argument T) : result T (vector T) :=
  let released := expand_capacity_releases v
  (expand_capacity_alloc heap_ok v).bind fun v =>
    result.of_option
      ((val.read v.m_data released).bind fun x =>
        (store v.m_data v.m_size x).map
          fun data => { v with m_data := data, m_size := v.m_size + 1 })

/-- `emplace_back(args...)` when the allocation may fail. -/
def emplace_back_alloc [Inhabited T] [element_type T] (heap_ok : Bool) (v : vector T)
    (args : argument T) : result T (vector T) :=
  let released := expand_capacity_releases v
  (expand_capacity_alloc heap_ok v).bind fun v =>
    result.of_option
      ((args.read v.m_data released).bind fun x =>
        (store v.m_data v.m_size x).map
          fun data => { v with m_data := data, m_size := v.m_size + 1 })

/-- The statements of the non-empty branch of `emplace` before the growth test:
save the last element in `temp`, shift the cells from `position` on one slot to the
right, store the new value. The result is `temp` and the vector at that moment. -/
def emplace_shift_phase (v : vector T) (position : Nat) (args : argument T) :
    Option (T × vector T) := do
  let temp ← load v.m_data (v.m_size - 1)
  let it := v.end - 1
  let (it, data) ← while_loop (fun s : Nat × pointer T => decide (s.1 > position))
    (fun s => do
      let prev ← load s.2 (s.1 - 1)
      let d ← store s.2 s.1 prev
      pure (s.1 - 1, d))
    v.m_size (it, v.m_data)
  let x ← args.read data false
  let data ← store data it x
  pure (temp, { v with m_data := data })

/-- `emplace(position, args...)` when the allocation may fail: in the non-empty
branch `re_allocate(m_size + 1)` is called after the shift and the store. -/
def emplace_alloc [Inhabited T] [element_type T] (heap_ok : Bool) (v : vector T)
    (position : Nat) (args : argument T) : result T (vector T × Nat) :=
  if v.m_size = 0 then
    (re_allocate_alloc heap_ok v 1).bind fun v =>
      result.of_option
        ((args.read v.m_data true).bind fun x =>
          (store v.m_data 0 x).map fun data =>
            (({ v with m_data := data, m_size := v.m_size + 1 } : vector T), v.begin))
  else
    let off := position - v.begin
    (result.of_option (emplace_shift_phase v position args)).bind fun tv =>
      (if tv.2.m_size = tv.2.m_capacity then re_allocate_alloc heap_ok tv.2 (tv.2.m_size + 1)
        else result.returned tv.2).bind fun v =>
        result.of_option
          ((store v.m_data v.m_size tv.1).map fun data =>
            (({ v with m_data := data, m_size := v.m_size + 1 } : vector T), off))

/-- The argument of the `re_allocate` call that `reserve(count)` makes, if any. -/
def reserve_request (v : vector T) (count : Nat) : Option Nat :=
  if count > v.m_capacity then some count else none

/-- The argument of the `re_allocate` call that `resize(new_size)` makes, if any. -/
def resize_request (v : vector T) (new_size : Nat) : Option Nat :=
  if v.m_size = new_size then none
  else if new_size < v.m_size then none
  else if new_size > v.m_capacity then some new_size
  else none

/-- The argument of the `re_allocate` call that `shrink_to_fit()` makes, if any. -/
def shrink_to_fit_request (v : vector T) : Option Nat :=
  if v.m_capacity > v.m_size then some v.m_size else none

/-- The argument of the `re_allocate` call that `expand_capacity()` makes, if any
(for `push_back` and `emplace_back`). -/
def expand_capacity_request (v : vector T) : Option Nat :=
  if v.m_size = v.m_capacity then
    if v.m_size = 0 then some 1 else some (v.m_size * 2)
  else none

/-- The argument of the `re_allocate` call that `emplace` makes, if any; `m_size` is
not assigned before the call. -/
def emplace_request (v : vector T) : Option Nat :=
  if v.m_size = 0 then some 1
  else if v.m_size = v.m_capacity then some (v.m_size + 1)
  else none

/-- The argument of the `re_allocate` call that `operator=(const vector& right)`
makes; `m_size` is still the size of the destination at the call. -/
def copy_assign_request (_v right : vector T) : Option Nat :=
  some right.m_size

/-- The cells of the buffer from `m_size` up to `m_capacity` hold `value_type()`. -/
def spare_cells_default [Inhabited T] (v : vector T) : Prop :=
  ∀ j, v.m_size ≤ j → j < v.m_capacity → (cells v)[j]? = some default

/-- The buffer invariant: `size <= capacity`, the buffer has `capacity` cells, and
the cells at indices in `[size, capacity)` hold `value_type()`. -/
def buffer_invariant [Inhabited T] (v : vector T) : Prop :=
  v.m_size ≤ v.m_capacity ∧ (cells v).length = v.m_capacity ∧ spare_cells_default v

end vector

end open_stl

/-! ## Buffer primitives and loops -/

namespace open_stl

variable {T : Type}

theorem load_eq_getElem? (p : pointer T) (i : Nat) : load p i = (p.getD [])[i]? := by
  cases p <;> simp [load]

theorem store_some_of_lt (cs : List T) (i : Nat) (x : T) (h : i < cs.length) :
    store (some cs) i x = some (some (cs.set i x)) := by
  simp [store, h]

/-- A counting loop whose guard is already false returns its state. -/
theorem for_loop_done {σ : Type} (body : Nat → σ → Option σ) (hi fuel i : Nat) (s : σ)
    (h : hi ≤ i) : for_loop body hi fuel i s = some s := by
  cases fuel <;> simp [for_loop, Nat.not_lt.mpr h]

/-- The loop `for (i = lo; i < hi; i++) p[i] = f(i)` assigns the cells `lo .. hi - 1`
and leaves every other cell as it was. -/
theorem for_loop_store (f : Nat → Option T) (hi : Nat)
    (hf : ∀ i, i < hi → ∃ x, f i = some x) :
    ∀ (fuel i : Nat) (cs : List T), hi ≤ cs.length → hi - i ≤ fuel →
      ∃ r, for_loop (fun i d => (f i).bind (store d i)) hi fuel i (some cs) = some (some r) ∧
        r.length = cs.length ∧
        ∀ j, r[j]? = if i ≤ j ∧ j < hi then f j else cs[j]? := by
  intro fuel
  induction fuel with
  | zero =>
    intro i cs _ hfuel
    have hle : hi ≤ i := by omega
    refine ⟨cs, for_loop_done _ _ _ _ _ hle, rfl, ?_⟩
    intro j
    have : ¬ (i ≤ j ∧ j < hi) := by omega
    simp [this]
  | succ fuel ih =>
    intro i cs hlen hfuel
    by_cases hi' : i < hi
    · obtain ⟨x, hx⟩ := hf i hi'
      have hst : store (some cs) i x = some (some (cs.set i x)) :=
        store_some_of_lt cs i x (by omega)
      obtain ⟨r, hr, hrl, hrj⟩ := ih (i + 1) (cs.set i x) (by simpa using hlen) (by omega)
      refine ⟨r, ?_, by simpa using hrl, ?_⟩
      · simp only [for_loop, hi', if_true, hx, Option.some_bind, hst]
        exact hr
      · intro j
        rw [hrj j, List.getElem?_set]
        by_cases hji : i = j
        · subst hji
          have h1 : ¬ (i + 1 ≤ i ∧ i < hi) := by omega
          have h2 : i ≤ i ∧ i < hi := ⟨le_refl _, hi'⟩
          have h3 : i < cs.length := by omega
          simp [h1, h2, h3, hx]
        · by_cases hc : i + 1 ≤ j ∧ j < hi
          · have h2 : i ≤ j ∧ j < hi := ⟨by omega, hc.2⟩
            simp [hc, h2]
          · have h2 : ¬ (i ≤ j ∧ j < hi) := by omega
            simp [hc, h2, hji]
    · have hle : hi ≤ i := by omega
      refine ⟨cs, for_loop_done _ _ _ _ _ hle, rfl, ?_⟩
      intro j
      have : ¬ (i ≤ j ∧ j < hi) := by omega
      simp [this]

namespace vector

/-- The fill loop of `re_allocate` does nothing when its counter starts negative. -/
theorem fill_loop_negative [Inhabited T] (c fuel : Nat) (i : Int) (d : pointer T) (hi : i < 0) :
    while_loop (fun s : Int × pointer T => int_lt_size_type s.1 c)
      (fun s => (store s.2 s.1.toNat default).bind fun d => some (int_succ s.1, d))
      fuel (i, d) = some (i, d) := by
  have hc : int_lt_size_type i c = false := by
    simp only [int_lt_size_type, decide_eq_false_iff_not]
    omega
  cases fuel <;> simp [while_loop, hc]

/-- The fill loop of `re_allocate`, started at a counter `k` in the range of `int`:
it assigns `value_type()` to the cells from `k` up to the capacity, and no further
than cell `2 ^ 31 - 1`, where the counter leaves the non-negative numbers. -/
theorem fill_loop_spec [Inhabited T] (c : Nat) :
    ∀ (fuel k : Nat) (cs : List T), cs.length = c → k < 2 ^ 31 → min c (2 ^ 31) - k ≤ fuel →
      ∃ i r, while_loop (fun s : Int × pointer T => int_lt_size_type s.1 c)
          (fun s => (store s.2 s.1.toNat default).bind fun d => some (int_succ s.1, d))
          fuel ((k : Int), some cs) = some (i, some r) ∧
        r.length = c ∧
        ∀ j, r[j]? = if k ≤ j ∧ j < min c (2 ^ 31) then some default else cs[j]? := by
  intro fuel
  induction fuel with
  | zero =>
    intro k cs hlen hk hfuel
    have hc : int_lt_size_type (k : Int) c = false := by
      simp only [int_lt_size_type, decide_eq_false_iff_not]
      omega
    refine ⟨k, cs, by simp [while_loop, hc], hlen, ?_⟩
    intro j
    have : ¬ (k ≤ j ∧ j < min c (2 ^ 31)) := by omega
    rw [if_neg this]
  | succ fuel ih =>
    intro k cs hlen hk hfuel
    by_cases hkc : k < c
    · have hc : int_lt_size_type (k : Int) c = true := by
        simp only [int_lt_size_type, decide_eq_true_eq]
        omega
      have hst : store (some cs) (k : Int).toNat (default : T)
          = some (some (cs.set k default)) := by
        rw [Int.toNat_ofNat]
        exact store_some_of_lt cs k default (by omega)
      by_cases hlast : k = 2 ^ 31 - 1
      · have hs : int_succ (k : Int) = -(2 ^ 31) := by
          simp only [int_succ]
          rw [if_pos (by omega)]
        refine ⟨-(2 ^ 31), cs.set k default, ?_, by rw [List.length_set]; exact hlen, ?_⟩
        · simp only [while_loop, hc, if_true, hst, Option.some_bind, Option.pure_def, hs]
          exact fill_loop_negative c fuel _ _ (by omega)
        · intro j
          rw [List.getElem?_set]
          by_cases hj : k = j
          · subst hj
            rw [if_pos rfl, if_pos (by omega), if_pos ⟨le_refl _, by omega⟩]
          · rw [if_neg hj, if_neg (by omega)]
      · have hs : int_succ (k : Int) = ((k + 1 : Nat) : Int) := by
          simp only [int_succ]
          rw [if_neg (by omega)]
          omega
        obtain ⟨i, r, hr, hrl, hrj⟩ := ih (k + 1) (cs.set k default)
          (by rw [List.length_set]; exact hlen) (by omega) (by omega)
        refine ⟨i, r, ?_, hrl, ?_⟩
        · simp only [while_loop, hc, if_true, hst, Option.some_bind, Option.pure_def, hs]
          exact hr
        · intro j
          rw [hrj j, List.getElem?_set]
          by_cases hj : k = j
          · subst hj
            rw [if_neg (by omega), if_pos rfl, if_pos (by omega), if_pos ⟨le_refl _, by omega⟩]
          · by_cases h2 : k + 1 ≤ j ∧ j < min c (2 ^ 31)
            · rw [if_pos h2, if_pos ⟨by omega, h2.2⟩]
            · rw [if_neg h2, if_neg hj, if_neg (by omega)]
    · have hc : int_lt_size_type (k : Int) c = false := by
        simp only [int_lt_size_type, decide_eq_false_iff_not]
        omega
      refine ⟨k, cs, by simp [while_loop, hc], hlen, ?_⟩
      intro j
      have : ¬ (k ≤ j ∧ j < min c (2 ^ 31)) := by omega
      rw [if_neg this]

/-- The conversion to `int` of a size in the range of `int` keeps the value. -/
theorem int_of_size_type_of_lt (n : Nat) (h : n < 2 ^ 31) : int_of_size_type n = (n : Int) := by
  simp only [int_of_size_type]
  have h1 : n % 2 ^ 32 = n := Nat.mod_eq_of_lt (by omega)
  rw [h1, if_pos h]

/-- The conversion to `int` of a size from `2 ^ 31` up to `2 ^ 32 - 1` is negative. -/
theorem int_of_size_type_neg (n : Nat) (h1 : 2 ^ 31 ≤ n) (h2 : n < 2 ^ 32) :
    int_of_size_type n < 0 := by
  simp only [int_of_size_type]
  have h3 : n % 2 ^ 32 = n := Nat.mod_eq_of_lt h2
  rw [h3, if_neg (by omega)]
  omega

/-- The cells of a fresh array. -/
theorem allocate_getElem? [element_type T] (c j : Nat) :
    ((List.range c).map (element_type.indeterminate c : Nat → T))[j]?
      = if j < c then some (element_type.indeterminate c j) else none := by
  rw [List.getElem?_map]
  by_cases h : j < c
  · rw [List.getElem?_range h, if_pos h]
    rfl
  · rw [List.getElem?_eq_none (by simpa using h), if_neg h]
    rfl

/-- The result of `re_allocate`, cell by cell: the fill loop has assigned
`value_type()` from the `int` value of `m_size` on, as far as its counter stays
non-negative and below the capacity; of the other cells, those below `m_size` hold
the old elements and the remaining ones are as `new T[count]` left them. -/
theorem re_allocate_cells [Inhabited T] [element_type T] (v : vector T) (c : Nat)
    (h1 : v.m_size ≤ (cells v).length) (h2 : v.m_size ≤ c) :
    ∃ r, re_allocate v c = some ⟨some r, v.m_size, c⟩ ∧
      r.length = c ∧
      ∀ j, r[j]? =
        if 0 ≤ int_of_size_type v.m_size ∧ (int_of_size_type v.m_size).toNat ≤ j ∧
            j < min c (2 ^ 31) then some default
        else if j < v.m_size then (cells v)[j]?
        else if j < c then some (element_type.indeterminate c j) else none := by
  have h1' : v.m_size ≤ (v.m_data.getD []).length := h1
  have hf1 : ∀ i, i < v.m_size → ∃ x, load v.m_data i = some x := by
    intro i hi
    rw [load_eq_getElem?]
    exact ⟨(v.m_data.getD [])[i], List.getElem?_eq_getElem (by omega)⟩
  obtain ⟨r1, hr1, hl1, hj1⟩ := for_loop_store (fun i => load v.m_data i) v.m_size hf1
    v.m_size 0 ((List.range c).map (element_type.indeterminate c)) (by simpa using h2)
    (by omega)
  have hl1' : r1.length = c := by rw [hl1]; simp
  have hj1' : ∀ j, r1[j]? = if j < v.m_size then (cells v)[j]?
      else if j < c then some (element_type.indeterminate c j) else none := by
    intro j
    rw [hj1 j, allocate_getElem?, load_eq_getElem?]
    by_cases hj : j < v.m_size
    · rw [if_pos ⟨Nat.zero_le _, hj⟩, if_pos hj]
      rfl
    · rw [if_neg (fun h => hj h.2), if_neg hj]
  by_cases hneg : int_of_size_type v.m_size < 0
  · refine ⟨r1, ?_, hl1', ?_⟩
    · simp only [re_allocate, allocator.allocate, Option.bind_eq_bind, Option.pure_def]
      rw [hr1, Option.some_bind, fill_loop_negative c c _ _ hneg]
      rfl
    · intro j
      rw [if_neg (by omega)]
      exact hj1' j
  · obtain ⟨k, hk⟩ : ∃ k : Nat, int_of_size_type v.m_size = (k : Int) :=
      ⟨(int_of_size_type v.m_size).toNat, (Int.toNat_of_nonneg (by omega)).symm⟩
    have hk31 : k < 2 ^ 31 := by
      have : int_of_size_type v.m_size < 2 ^ 31 := by
        simp only [int_of_size_type]
        split_ifs <;> omega
      omega
    obtain ⟨i, r, hr, hrl, hrj⟩ := fill_loop_spec c c k r1 hl1' hk31 (by omega)
    refine ⟨r, ?_, hrl, ?_⟩
    · simp only [re_allocate, allocator.allocate, Option.bind_eq_bind, Option.pure_def]
      rw [hr1, Option.some_bind, hk, hr]
      rfl
    · intro j
      rw [hrj j, hk, Int.toNat_ofNat, hj1' j]
      by_cases hw : k ≤ j ∧ j < min c (2 ^ 31)
      · have hw' : 0 ≤ (k : Int) ∧ k ≤ j ∧ j < min c (2 ^ 31) := ⟨by omega, hw.1, hw.2⟩
        rw [if_pos hw, if_pos hw']
      · have hw' : ¬ (0 ≤ (k : Int) ∧ k ≤ j ∧ j < min c (2 ^ 31)) :=
          fun h => hw ⟨h.2.1, h.2.2⟩
        rw [if_neg hw, if_neg hw']

/-- Closed form of `re_allocate` for a capacity in the range of the `int` counter:
the live cells are kept and the new ones hold `value_type()`. -/
theorem re_allocate_eq [Inhabited T] [element_type T] (v : vector T) (c : Nat)
    (h1 : v.m_size ≤ (cells v).length) (h2 : v.m_size ≤ c) (hint : c ≤ 2 ^ 31) :
    re_allocate v c = some
      { m_data := some ((cells v).take v.m_size ++ List.replicate (c - v.m_size) default),
        m_size := v.m_size, m_capacity := c } := by
  obtain ⟨r, hr, hrl, hrj⟩ := re_allocate_cells v c h1 h2
  have hcond : ∀ j, (0 ≤ int_of_size_type v.m_size ∧ (int_of_size_type v.m_size).toNat ≤ j ∧
      j < min c (2 ^ 31)) ↔ (v.m_size ≤ j ∧ j < c) := by
    intro j
    by_cases hlt : v.m_size < 2 ^ 31
    · rw [int_of_size_type_of_lt _ hlt, Int.toNat_ofNat]
      constructor
      · rintro ⟨_, h3, h4⟩
        exact ⟨h3, by omega⟩
      · rintro ⟨h3, h4⟩
        exact ⟨by omega, h3, by omega⟩
    · have hneg := int_of_size_type_neg v.m_size (by omega) (by omega)
      constructor
      · rintro ⟨h3, _, _⟩
        omega
      · rintro ⟨h3, h4⟩
        omega
  have hrr : r = (cells v).take v.m_size ++ List.replicate (c - v.m_size) default := by
    apply List.ext_getElem?
    intro j
    have hmin : min v.m_size (cells v).length = v.m_size := by omega
    rw [hrj j, List.getElem?_append, List.length_take, hmin, List.getElem?_take,
      List.getElem?_replicate]
    by_cases hw : v.m_size ≤ j ∧ j < c
    · rw [if_pos ((hcond j).mpr hw), if_neg (by omega), if_pos (by omega)]
    · rw [if_neg (fun h => hw ((hcond j).mp h))]
      by_cases hj : j < v.m_size
      · rw [if_pos hj, if_pos hj, if_pos hj]
      · rw [if_neg hj, if_neg (by omega), if_neg hj, if_neg (by omega)]
  rw [hr, hrr]


/-- Closed form of `expand_capacity` on a full buffer. -/
theorem expand_capacity_full [Inhabited T] [element_type T] (v : vector T)
    (hfull : v.m_size = v.m_capacity) (hbuf : v.m_size ≤ (cells v).length)
    (hint : 2 * v.m_size ≤ 2 ^ 31) :
    expand_capacity v = some
      { m_data := some ((cells v).take v.m_size ++
          List.replicate (max 1 (2 * v.m_size) - v.m_size) default),
        m_size := v.m_size, m_capacity := max 1 (2 * v.m_size) } := by
  by_cases h0 : v.m_size = 0
  · have hm : max 1 (2 * v.m_size) = 1 := by simp [h0]
    rw [hm]
    simp only [expand_capacity, hfull.symm, if_true, h0]
    have := re_allocate_eq v 1 hbuf (by omega) (by omega)
    simpa [h0] using this
  · have hm : max 1 (2 * v.m_size) = v.m_size * 2 := by omega
    rw [hm]
    simp only [expand_capacity, hfull.symm, if_true, h0, if_false]
    exact re_allocate_eq v (v.m_size * 2) hbuf (by omega) (by omega)

/-- Whatever the sizes, `expand_capacity` returns, keeps the size, takes the
capacity `max(1, 2 * size)` when the buffer is full and leaves the vector alone when
it is not; the buffer it returns has as many cells as the capacity says, and the
live cells are those of before unless the `int` counter of `re_allocate` has
overwritten them. -/
theorem expand_capacity_props [Inhabited T] [element_type T] (v : vector T)
    (hbuf : (cells v).length = v.m_capacity) :
    ∃ w, expand_capacity v = some w ∧ w.m_size = v.m_size ∧
      w.m_capacity = (if v.m_size = v.m_capacity then max 1 (2 * v.m_size)
        else v.m_capacity) ∧
      (cells w).length = w.m_capacity ∧
      (v.m_size ≠ v.m_capacity → w = v) := by
  by_cases hfull : v.m_size = v.m_capacity
  · by_cases h0 : v.m_size = 0
    · obtain ⟨r, hr, hrl, _⟩ := re_allocate_cells v 1 (by omega) (by omega)
      refine ⟨⟨some r, v.m_size, 1⟩, ?_, rfl, ?_, hrl, fun h => absurd hfull h⟩
      · simp only [expand_capacity, if_pos hfull, if_pos h0]
        exact hr
      · show 1 = _
        rw [if_pos hfull]
        omega
    · obtain ⟨r, hr, hrl, _⟩ := re_allocate_cells v (v.m_size * 2) (by omega) (by omega)
      refine ⟨⟨some r, v.m_size, v.m_size * 2⟩, ?_, rfl, ?_, hrl, fun h => absurd hfull h⟩
      · simp only [expand_capacity, if_pos hfull, if_neg h0]
        exact hr
      · show v.m_size * 2 = _
        rw [if_pos hfull]
        omega
  · refine ⟨v, ?_, rfl, ?_, hbuf, fun _ => rfl⟩
    · simp only [expand_capacity, if_neg hfull]
      rfl
    · rw [if_neg hfull]

/-- An argument that is an object outside the buffer is read as its value. -/
theorem argument.read_object (x : T) (d : pointer T) (released : Bool) :
    (argument.object x).read d released = some x := rfl

/-- Closed form of `push_back`, in terms of the capacity chosen by
`expand_capacity`. -/
theorem push_back_eq [Inhabited T] [element_type T] (v : vector T) (x : T)
    (hsc : v.m_size ≤ v.m_capacity) (hbuf : (cells v).length = v.m_capacity)
    (hint : v.m_size = v.m_capacity → 2 * v.m_size ≤ 2 ^ 31) :
    push_back v (argument.object x) = some
      { m_data := some ((cells v).take v.m_size ++ x ::
          (if v.m_size = v.m_capacity
            then List.replicate (max 1 (2 * v.m_size) - v.m_size - 1) default
            else (cells v).drop (v.m_size + 1))),
        m_size := v.m_size + 1,
        m_capacity := if v.m_size = v.m_capacity then max 1 (2 * v.m_size) else v.m_capacity } := by
  by_cases hfull : v.m_size = v.m_capacity
  · have hlen : ((cells v).take v.m_size).length = v.m_size := by
      rw [List.length_take]; omega
    have hpos : 0 < max 1 (2 * v.m_size) - v.m_size := by omega
    obtain ⟨k, hk⟩ : ∃ k, max 1 (2 * v.m_size) - v.m_size = k + 1 := ⟨_, (Nat.succ_pred_eq_of_pos hpos).symm⟩
    simp only [push_back, expand_capacity_full v hfull (by omega) (hint hfull),
      Option.bind_eq_bind, Option.some_bind, Option.pure_def, hfull, if_true,
      argument.read_object]
    rw [← hfull, hk, List.replicate_succ]
    rw [store_some_of_lt _ _ _ (by simp [hlen])]
    simp only [Option.some_bind]
    have hset : ((cells v).take v.m_size ++ default :: List.replicate k default).set v.m_size x
        = (cells v).take v.m_size ++ x :: List.replicate k default := by
      rw [List.set_append_right _ _ (by omega), hlen]
      simp
    simp [hset]
  · obtain ⟨cs, hcs⟩ : ∃ cs, v.m_data = some cs := by
      cases hd : v.m_data with
      | none => simp [cells, hd] at hbuf; omega
      | some cs => exact ⟨cs, rfl⟩
    have hc : cells v = cs := by simp [cells, hcs]
    have hlt : v.m_size < cs.length := by rw [← hc]; omega
    simp only [push_back, expand_capacity, hfull, if_false, Option.bind_eq_bind,
      Option.pure_def, Option.some_bind, hcs, hc, argument.read_object]
    rw [store_some_of_lt _ _ _ hlt]
    simp only [Option.some_bind]
    congr 3
    apply List.ext_getElem?
    intro j
    simp only [List.getElem?_set, List.getElem?_append, List.length_take, List.getElem?_take]
    have hmin : min v.m_size cs.length = v.m_size := by omega
    rw [hmin]
    by_cases h1 : j < v.m_size
    · have : v.m_size ≠ j := by omega
      simp [h1, this]
    · by_cases h2 : v.m_size = j
      · subst h2
        simp [hlt]
      · have h3 : j - v.m_size = (j - v.m_size - 1) + 1 := by omega
        rw [h3]
        simp only [h1, h2, if_false, List.getElem?_cons_succ, List.getElem?_drop]
        congr 1
        omega

/-- The loop `while (it <= position) ++it` stops at `position + 1`. -/
theorem while_loop_advance_le (position : Nat) : ∀ (fuel it : Nat), position + 1 - it ≤ fuel →
    while_loop (fun it : Nat => decide (it ≤ position)) (fun it => pure (it + 1)) fuel it
      = some (max it (position + 1)) := by
  intro fuel
  induction fuel with
  | zero =>
    intro it h
    have h1 : ¬ it ≤ position := by omega
    have h2 : max it (position + 1) = it := by omega
    simp [while_loop, h1, h2]
  | succ fuel ih =>
    intro it h
    by_cases h1 : it ≤ position
    · have h2 : max it (position + 1) = max (it + 1) (position + 1) := by omega
      simp only [while_loop, h1, decide_True, if_true, Option.pure_def, Option.some_bind, h2]
      exact ih (it + 1) (by omega)
    · have h2 : max it (position + 1) = it := by omega
      simp [while_loop, h1, h2]

/-- The loop `while (it < bound) ++it` stops at `bound`. -/
theorem while_loop_advance_lt (bound : Nat) : ∀ (fuel it : Nat), bound - it ≤ fuel →
    while_loop (fun it : Nat => decide (it < bound)) (fun it => pure (it + 1)) fuel it
      = some (max it bound) := by
  intro fuel
  induction fuel with
  | zero =>
    intro it h
    have h1 : ¬ it < bound := by omega
    have h2 : max it bound = it := by omega
    simp [while_loop, h1, h2]
  | succ fuel ih =>
    intro it h
    by_cases h1 : it < bound
    · have h2 : max it bound = max (it + 1) bound := by omega
      simp only [while_loop, h1, decide_True, if_true, Option.pure_def, Option.some_bind, h2]
      exact ih (it + 1) (by omega)
    · have h2 : max it bound = it := by omega
      simp [while_loop, h1, h2]

/-- The shifting loop of `erase(position)`: started at `it`, it moves every cell
`it .. e - 1` one slot to the left and leaves the other cells as they were. -/
theorem erase_shift (e : Nat) : ∀ (fuel it : Nat) (cs : List T),
    1 ≤ it → e ≤ cs.length → e - it ≤ fuel →
    ∃ it' r, while_loop (fun s : Nat × pointer T => decide (s.1 < e))
        (fun s => do
          let next ← load s.2 s.1
          let d ← store s.2 (s.1 - 1) next
          pure (s.1 + 1, d))
        fuel (it, some cs) = some (it', some r) ∧
      r.length = cs.length ∧
      ∀ j, r[j]? = if it ≤ j + 1 ∧ j + 1 < e then cs[j + 1]? else cs[j]? := by
  intro fuel
  induction fuel with
  | zero =>
    intro it cs _ _ hfuel
    have h1 : ¬ it < e := by omega
    refine ⟨it, cs, by simp [while_loop, h1], rfl, ?_⟩
    intro j
    have : ¬ (it ≤ j + 1 ∧ j + 1 < e) := by omega
    simp [this]
  | succ fuel ih =>
    intro it cs hit hlen hfuel
    by_cases h1 : it < e
    · obtain ⟨k, rfl⟩ : ∃ k, it = k + 1 := ⟨it - 1, by omega⟩
      have hlt : k + 1 < cs.length := by omega
      obtain ⟨it', r, hr, hrl, hrj⟩ := ih (k + 1 + 1) (cs.set k cs[k + 1]) (by omega)
        (by simpa using hlen) (by omega)
      refine ⟨it', r, ?_, by simpa using hrl, ?_⟩
      · simp only [while_loop, h1, decide_True, if_true, Option.bind_eq_bind, Option.pure_def,
          load, List.getElem?_eq_getElem hlt, Option.some_bind, Nat.add_sub_cancel]
        rw [store_some_of_lt _ _ _ (by omega)]
        simp only [Option.some_bind]
        exact hr
      · intro j
        rw [hrj j]
        simp only [List.getElem?_set]
        by_cases hj : k = j
        · subst hj
          split_ifs <;> first | rfl | omega | simp [List.getElem?_eq_getElem hlt]
        · split_ifs <;> first | rfl | omega
    · refine ⟨it, cs, by simp [while_loop, h1], rfl, ?_⟩
      intro j
      have : ¬ (it ≤ j + 1 ∧ j + 1 < e) := by omega
      simp [this]

/-- A vector with a live element has a non-null buffer. -/
theorem m_data_eq_some_of_pos (v : vector T) (hpos : 0 < v.m_size)
    (hbuf : v.m_size ≤ (cells v).length) : ∃ cs, v.m_data = some cs ∧ cells v = cs := by
  cases hd : v.m_data with
  | none => simp [cells, hd] at hbuf; omega
  | some cs => exact ⟨cs, rfl, by simp [cells, hd]⟩

/-- Closed form of `erase(position)` for a position inside the live range. -/
theorem erase_eq [Inhabited T] (v : vector T) (p : Nat) (hp : p < v.m_size)
    (hbuf : v.m_size ≤ (cells v).length) :
    ∃ r, erase v p = some ((⟨some r, v.m_size - 1, v.m_capacity⟩ : vector T), p) ∧
      r.length = (cells v).length ∧
      ∀ j, r[j]? = if p ≤ j ∧ j + 1 < v.m_size then (cells v)[j + 1]? else (cells v)[j]? := by
  obtain ⟨cs, hcs, hc⟩ := m_data_eq_some_of_pos v (by omega) hbuf
  rw [hc] at hbuf ⊢
  obtain ⟨it', r, hr, hrl, hrj⟩ := erase_shift v.m_size v.m_size (p + 1) cs (by omega) hbuf
    (by omega)
  refine ⟨r, ?_, hrl, ?_⟩
  · have hadv := while_loop_advance_le p (p + 1) 0 (by omega)
    have hsub : size_type_sub v.m_size 1 = v.m_size - 1 := by
      have : 1 ≤ v.m_size := by omega
      simp [size_type_sub, this]
    simp only [Option.bind_eq_bind, Option.pure_def, Nat.zero_max] at hadv hr
    simp only [erase, vector.begin, vector.«end», Option.bind_eq_bind, Option.pure_def,
      hadv, Option.some_bind, hcs, hsub, Nat.add_sub_cancel, hr]
  · intro j
    rw [hrj j]
    split_ifs <;> first | rfl | omega

/-- The moving loop of `erase(first, last)` with the iterators `g` cells apart: it
assigns cell `j + g` to cell `j` for every `j` from the start on with `j + g` below
the end; with `g = 0` each of these cells is assigned to itself. -/
theorem erase_range_shift [element_type T] (e g : Nat) : ∀ (fuel a : Nat) (cs : List T),
    e ≤ cs.length → e - (a + g) ≤ fuel →
    ∃ a' r, while_loop (fun s : Nat × Nat × pointer T => decide (s.2.1 < e))
        (fun s => (load s.2.2 s.2.1).bind fun moved =>
          (store s.2.2 s.1
            (if s.1 = s.2.1 then element_type.self_move_assign moved else moved)).bind
            fun d => some (s.1 + 1, s.2.1 + 1, d))
        fuel (a, a + g, some cs) = some (a', a' + g, some r) ∧
      r.length = cs.length ∧
      ∀ j, r[j]? = if a ≤ j ∧ j + g < e then
          (cs[j + g]?).map fun x => if g = 0 then element_type.self_move_assign x else x
        else cs[j]? := by
  intro fuel
  induction fuel with
  | zero =>
    intro a cs _ hfuel
    have h1 : ¬ a + g < e := by omega
    refine ⟨a, cs, by simp [while_loop, h1], rfl, ?_⟩
    intro j
    have : ¬ (a ≤ j ∧ j + g < e) := by omega
    simp [this]
  | succ fuel ih =>
    intro a cs hlen hfuel
    by_cases h1 : a + g < e
    · have hlt : a + g < cs.length := by omega
      have hcond : (a = a + g) = (g = 0) := by
        apply propext
        constructor <;> intro h <;> omega
      obtain ⟨a', r, hr, hrl, hrj⟩ := ih (a + 1)
        (cs.set a (if g = 0 then element_type.self_move_assign cs[a + g] else cs[a + g]))
        (by simpa using hlen) (by omega)
      have e1 : a + 1 + g = a + g + 1 := by omega
      rw [e1] at hr
      refine ⟨a', r, ?_, by simpa using hrl, ?_⟩
      · simp only [while_loop, h1, decide_True, if_true,
          load, List.getElem?_eq_getElem hlt, Option.some_bind, hcond]
        rw [store_some_of_lt _ _ _ (by omega)]
        simp only [Option.some_bind]
        exact hr
      · intro j
        rw [hrj j]
        simp only [List.getElem?_set]
        by_cases hj : a = j
        · subst hj
          have h2 : ¬ (a + 1 ≤ a ∧ a + g < e) := by omega
          have h5 : a ≤ a ∧ a + g < e := ⟨le_refl _, h1⟩
          have h6 : a < cs.length := by omega
          rw [if_neg h2, if_pos h5, List.getElem?_eq_getElem hlt]
          simp only [List.getElem?_set, if_true, h6, Option.map_some']
        · by_cases h2 : a + 1 ≤ j ∧ j + g < e
          · have h5 : a ≤ j ∧ j + g < e := ⟨by omega, h2.2⟩
            have h3 : ¬ a = j + g := by omega
            rw [if_pos h2, if_pos h5]
            simp only [List.getElem?_set, h3, if_false]
          · have h4 : ¬ (a ≤ j ∧ j + g < e) := by omega
            rw [if_neg h2, if_neg h4]
            simp only [List.getElem?_set, hj, if_false]
    · refine ⟨a, cs, by simp [while_loop, h1], rfl, ?_⟩
      intro j
      have : ¬ (a ≤ j ∧ j + g < e) := by omega
      simp [this]

/-- Closed form of `erase(first, last)` for a range inside the live range; with
`first == last` the cells from `first` on have been assigned to themselves. -/
theorem erase_range_eq [element_type T] (v : vector T) (f l : Nat) (hfl : f ≤ l)
    (hl : l ≤ v.m_size) (hbuf : v.m_size ≤ (cells v).length) :
    ∃ d, erase_range v f l
        = some ((⟨d, v.m_size - (l - f), v.m_capacity⟩ : vector T), f) ∧
      d.isSome = v.m_data.isSome ∧
      (d.getD []).length = (cells v).length ∧
      ∀ j, (d.getD [])[j]? =
        if f ≤ j ∧ j + (l - f) < v.m_size then
          ((cells v)[j + (l - f)]?).map fun x =>
            if l - f = 0 then element_type.self_move_assign x else x
        else (cells v)[j]? := by
  have hadv1 := while_loop_advance_lt f f 0 (by omega)
  have hadv2 := while_loop_advance_lt l l f (by omega)
  have hmax : max f l = f + (l - f) := by omega
  simp only [Option.pure_def, Nat.zero_max, hmax] at hadv1 hadv2
  cases hd : v.m_data with
  | none =>
    have hs : v.m_size = 0 := by simp [cells, hd] at hbuf; exact hbuf
    have hl0 : l = 0 := by omega
    have hf0 : f = 0 := by omega
    subst hl0 hf0
    refine ⟨none, ?_, rfl, by simp [cells, hd], ?_⟩
    · simp [erase_range, vector.begin, vector.«end», while_loop, hs, hd, size_type_sub]
    · intro j
      simp [cells, hd]
  | some cs =>
    have hc : cells v = cs := by simp [cells, hd]
    rw [hc] at hbuf ⊢
    obtain ⟨a', r, hr, hrl, hrj⟩ := erase_range_shift v.m_size (l - f) v.m_size f cs hbuf
      (by omega)
    have hsub : size_type_sub v.m_size (l - f) = v.m_size - (l - f) := by
      have : l - f ≤ v.m_size := by omega
      simp [size_type_sub, this]
    refine ⟨some r, ?_, rfl, hrl, hrj⟩
    simp only [erase_range, vector.begin, vector.«end», Option.bind_eq_bind, Option.pure_def,
      hadv1, hadv2, Option.some_bind, hd, hr, Nat.add_sub_cancel_left, hsub]

/-- Closed form of `erase(first, last)` when the element type keeps its value under
self-assignment, or the range is not empty: the cells after the range move down. -/
theorem erase_range_eq_of_copy [element_type T] (v : vector T) (f l : Nat) (hfl : f ≤ l)
    (hl : l ≤ v.m_size) (hbuf : v.m_size ≤ (cells v).length)
    (hself : f = l → ∀ x : T, element_type.self_move_assign x = x) :
    ∃ d, erase_range v f l
        = some ((⟨d, v.m_size - (l - f), v.m_capacity⟩ : vector T), f) ∧
      d.isSome = v.m_data.isSome ∧
      (d.getD []).length = (cells v).length ∧
      ∀ j, (d.getD [])[j]? =
        if f ≤ j ∧ j + (l - f) < v.m_size then (cells v)[j + (l - f)]? else (cells v)[j]? := by
  obtain ⟨d, hd, hsome, hlen, hj⟩ := erase_range_eq v f l hfl hl hbuf
  refine ⟨d, hd, hsome, hlen, ?_⟩
  intro j
  rw [hj j]
  by_cases h : f ≤ j ∧ j + (l - f) < v.m_size
  · rw [if_pos h, if_pos h]
    by_cases hg : l - f = 0
    · have hfl' : f = l := by omega
      simp only [hg, if_true, hself hfl']
      cases (cells v)[j + 0]? <;> rfl
    · simp only [hg, if_false]
      cases (cells v)[j + (l - f)]? <;> rfl
  · rw [if_neg h, if_neg h]

/-- The shifting loop of `emplace`: started at `it`, it moves every cell
`position .. it - 1` one slot to the right, stops at `position` and leaves the
other cells as they were; it does nothing when `it <= position`. -/
theorem emplace_shift (position : Nat) : ∀ (fuel it : Nat) (cs : List T),
    it < cs.length → it - position ≤ fuel →
    ∃ r, while_loop (fun s : Nat × pointer T => decide (s.1 > position))
        (fun s => do
          let prev ← load s.2 (s.1 - 1)
          let d ← store s.2 s.1 prev
          pure (s.1 - 1, d))
        fuel (it, some cs) = some (min it position, some r) ∧
      r.length = cs.length ∧
      ∀ j, r[j]? = if position < j ∧ j ≤ it then cs[j - 1]? else cs[j]? := by
  intro fuel
  induction fuel with
  | zero =>
    intro it cs _ hfuel
    have h1 : ¬ it > position := by omega
    have h2 : min it position = it := by omega
    refine ⟨cs, by simp [while_loop, h1, h2], rfl, ?_⟩
    intro j
    have : ¬ (position < j ∧ j ≤ it) := by omega
    simp [this]
  | succ fuel ih =>
    intro it cs hlen hfuel
    by_cases h1 : it > position
    · obtain ⟨k, rfl⟩ : ∃ k, it = k + 1 := ⟨it - 1, by omega⟩
      have hk : k < cs.length := by omega
      obtain ⟨r, hr, hrl, hrj⟩ := ih k (cs.set (k + 1) cs[k]) (by simpa using hk) (by omega)
      have h2 : min (k + 1) position = min k position := by omega
      refine ⟨r, ?_, by simpa using hrl, ?_⟩
      · simp only [while_loop, h1, decide_True, if_true, Option.bind_eq_bind, Option.pure_def,
          load, List.getElem?_eq_getElem hk, Option.some_bind, Nat.add_sub_cancel, h2]
        rw [store_some_of_lt _ _ _ hlen]
        simp only [Option.some_bind]
        simp only [Option.bind_eq_bind, Option.pure_def] at hr
        exact hr
      · intro j
        rw [hrj j]
        simp only [List.getElem?_set]
        by_cases hj : k + 1 = j
        · subst hj
          split_ifs <;> first | rfl | omega | simp [List.getElem?_eq_getElem hk]
        · split_ifs <;> first | rfl | omega
    · have h2 : min it position = it := by omega
      refine ⟨cs, by simp [while_loop, h1, h2], rfl, ?_⟩
      intro j
      have : ¬ (position < j ∧ j ≤ it) := by omega
      simp [this]

/-- Closed form of `emplace` on an empty vector. -/
theorem emplace_eq_of_empty [Inhabited T] [element_type T] (v : vector T) (position : Nat) (x : T)
    (h0 : v.m_size = 0) :
    emplace v position (argument.object x) = some ((⟨some [x], 1, 1⟩ : vector T), 0) := by
  have hre := re_allocate_eq v 1 (by omega) (by omega) (by omega)
  simp only [h0, List.take_zero, List.nil_append] at hre
  simp only [emplace, h0, if_true, Option.bind_eq_bind, Option.pure_def, hre,
    Option.some_bind, argument.read_object]
  simp [store, vector.begin]

/-- Closed form of `emplace` at a position inside the live range of a non-empty
vector: cell by cell, the new buffer holds the old cells below `p`, the new value at
`p`, the old cells `p .. size - 1` one slot up, and the old spare cells. -/
theorem emplace_eq [Inhabited T] [element_type T] (v : vector T) (p : Nat) (x : T)
    (hp : p < v.m_size) (hsc : v.m_size ≤ v.m_capacity)
    (hbuf : (cells v).length = v.m_capacity)
    (hint : v.m_size = v.m_capacity → v.m_size < 2 ^ 31) :
    ∃ r, emplace v p (argument.object x) = some ((⟨some r, v.m_size + 1,
          if v.m_size = v.m_capacity then v.m_size + 1 else v.m_capacity⟩ : vector T), p) ∧
      r.length = (if v.m_size = v.m_capacity then v.m_size + 1 else v.m_capacity) ∧
      ∀ j, r[j]? = if j < p then (cells v)[j]? else if j = p then some x
        else if j ≤ v.m_size then (cells v)[j - 1]? else (cells v)[j]? := by
  obtain ⟨cs, hcs, hc⟩ := m_data_eq_some_of_pos v (by omega) (by omega)
  rw [hc] at hbuf ⊢
  have hne : v.m_size ≠ 0 := by omega
  have hlast : v.m_size - 1 < cs.length := by omega
  obtain ⟨r1, hr1, hl1, hj1⟩ := emplace_shift p v.m_size (v.m_size - 1) cs hlast (by omega)
  simp only [Option.bind_eq_bind, Option.pure_def] at hr1
  have hmin : min (v.m_size - 1) p = p := by omega
  rw [hmin] at hr1
  have hst1 : store (some r1) p x = some (some (r1.set p x)) :=
    store_some_of_lt _ _ _ (by omega)
  have hload : load (some cs) (v.m_size - 1) = some cs[v.m_size - 1] := by
    simp [load, List.getElem?_eq_getElem hlast]
  by_cases hfull : v.m_size = v.m_capacity
  · have hre := re_allocate_eq (⟨some (r1.set p x), v.m_size, v.m_capacity⟩ : vector T)
      (v.m_size + 1) (by simp [cells, hl1]; omega) (by simp)
      (by have := hint hfull; show v.m_size + 1 ≤ 2 ^ 31; omega)
    simp only [cells, Option.getD_some, Nat.add_sub_cancel_left, List.replicate_one] at hre
    have hlen2 : ((r1.set p x).take v.m_size ++ [default]).length = v.m_size + 1 := by
      simp [hl1]; omega
    refine ⟨((r1.set p x).take v.m_size ++ [default]).set v.m_size cs[v.m_size - 1], ?_,
      by simp [hfull, hl1]; omega, ?_⟩
    · simp only [emplace, hne, if_false, vector.begin, vector.«end», Option.bind_eq_bind,
        Option.pure_def, hcs, hload, Option.some_bind, hr1, hst1, if_pos hfull, Nat.sub_zero,
        hre, argument.read_object]
      rw [store_some_of_lt _ _ _ (by omega)]
      simp
    · intro j
      have hm : min v.m_size cs.length = v.m_size := by omega
      simp only [List.getElem?_set, List.getElem?_append, List.length_take, List.getElem?_take,
        List.length_set, hl1, List.length_append, List.length_singleton, hj1, hm]
      by_cases hjs : v.m_size = j
      · subst hjs
        split_ifs <;> first | rfl | omega | simp [List.getElem?_eq_getElem hlast]
      · by_cases hjp : p = j
        · subst hjp
          split_ifs <;> first | rfl | omega
        · by_cases hjl : j < v.m_size
          · split_ifs <;> first | rfl | omega
          · have h1 : cs[j]? = none := List.getElem?_eq_none (by omega)
            have h2 : ([default] : List T)[j - v.m_size]? = none :=
              List.getElem?_eq_none (by simp; omega)
            rw [h1, h2]
            split_ifs <;> first | rfl | omega
  · have hlt : v.m_size < cs.length := by omega
    refine ⟨(r1.set p x).set v.m_size cs[v.m_size - 1], ?_, by simp [hfull, hl1, hbuf], ?_⟩
    · simp only [emplace, hne, if_false, vector.begin, vector.«end», Option.bind_eq_bind,
        Option.pure_def, hcs, hload, Option.some_bind, hr1, hst1, if_neg hfull, Nat.sub_zero,
        argument.read_object]
      rw [store_some_of_lt _ _ _ (by simp [hl1]; omega)]
      simp
    · intro j
      simp only [List.getElem?_set, List.length_set, hl1, hj1]
      by_cases hjs : v.m_size = j
      · subst hjs
        split_ifs <;> first | rfl | omega | simp [List.getElem?_eq_getElem hlast]
      · by_cases hjp : p = j
        · subst hjp
          split_ifs <;> first | rfl | omega
        · split_ifs <;> first | rfl | omega

/-- Closed form of a shrinking `resize`: the cells `n .. size - 1` are reset to the
default value and the other cells are as they were. -/
theorem resize_shrink_eq [Inhabited T] [element_type T] (v : vector T) (n : Nat) (hn : n < v.m_size)
    (hbuf : v.m_size ≤ (cells v).length) :
    ∃ r, resize v n = some (⟨some r, n, v.m_capacity⟩ : vector T) ∧
      r.length = (cells v).length ∧
      ∀ j, r[j]? = if n ≤ j ∧ j < v.m_size then some default else (cells v)[j]? := by
  obtain ⟨cs, hcs, hc⟩ := m_data_eq_some_of_pos v (by omega) hbuf
  rw [hc] at hbuf ⊢
  have hf : ∀ i, i < v.m_size → ∃ x, (fun _ : Nat => some (default : T)) i = some x :=
    fun _ _ => ⟨default, rfl⟩
  obtain ⟨r, hr, hrl, hrj⟩ := for_loop_store (fun _ => some (default : T)) v.m_size hf
    (v.m_size - n) n cs hbuf (by omega)
  simp only [Option.some_bind] at hr
  have hne : v.m_size ≠ n := by omega
  refine ⟨r, ?_, hrl, hrj⟩
  simp only [resize, hne, if_false, hn, if_true, Option.bind_eq_bind, Option.pure_def, hcs, hr,
    Option.some_bind]

/-- Closed form of `pop_back` on a non-empty vector: the last live cell is reset to
the default value. -/
theorem pop_back_eq [Inhabited T] (v : vector T) (hpos : 0 < v.m_size)
    (hbuf : v.m_size ≤ (cells v).length) :
    pop_back v = some (⟨some ((cells v).set (v.m_size - 1) default), v.m_size - 1,
      v.m_capacity⟩ : vector T) := by
  obtain ⟨cs, hcs, hc⟩ := m_data_eq_some_of_pos v hpos hbuf
  rw [hc] at hbuf ⊢
  have hsub : size_type_sub v.m_size 1 = v.m_size - 1 := by
    have : 1 ≤ v.m_size := hpos
    simp [size_type_sub, this]
  simp only [pop_back, hsub, hcs, Option.bind_eq_bind, Option.pure_def]
  rw [store_some_of_lt _ _ _ (by omega)]
  rfl

/-- Closed form of `clear`: the live cells are reset to the default value and the
other cells are as they were. -/
theorem clear_eq [Inhabited T] (v : vector T) (hbuf : v.m_size ≤ (cells v).length) :
    ∃ d, clear v = some (⟨d, 0, v.m_capacity⟩ : vector T) ∧
      (d.getD []).length = (cells v).length ∧
      ∀ j, (d.getD [])[j]? = if j < v.m_size then some default else (cells v)[j]? := by
  cases hd : v.m_data with
  | none =>
    have hs : v.m_size = 0 := by simp [cells, hd] at hbuf; exact hbuf
    refine ⟨none, ?_, by simp [cells, hd], ?_⟩
    · simp [clear, hs, hd, for_loop]
    · intro j
      simp [hs, cells, hd]
  | some cs =>
    have hc : cells v = cs := by simp [cells, hd]
    rw [hc] at hbuf ⊢
    have hf : ∀ i, i < v.m_size → ∃ x, (fun _ : Nat => some (default : T)) i = some x :=
      fun _ _ => ⟨default, rfl⟩
    obtain ⟨r, hr, hrl, hrj⟩ := for_loop_store (fun _ => some (default : T)) v.m_size hf
      v.m_size 0 cs hbuf (by omega)
    simp only [Option.some_bind] at hr
    refine ⟨some r, ?_, hrl, ?_⟩
    · simp only [clear, hd, hr, Option.bind_eq_bind, Option.pure_def, Option.some_bind]
    · intro j
      simp only [Option.getD_some]
      rw [hrj j]
      split_ifs <;> first | rfl | omega

/-- The copy loop `for (i = 0; i < s.m_size; i++) p[i] = s[i]` writes the live
elements of `s` over the first cells of `p`. -/
theorem copy_loop_eq (s : vector T) (hbuf : s.m_size ≤ (cells s).length) (cs : List T)
    (hcs : s.m_size ≤ cs.length) :
    for_loop (fun i d => (s.subscript i).bind (store d i)) s.m_size s.m_size 0 (some cs)
      = some (some (toList s ++ cs.drop s.m_size)) := by
  have hbuf' : s.m_size ≤ (s.m_data.getD []).length := hbuf
  have hf : ∀ i, i < s.m_size → ∃ x, s.subscript i = some x := by
    intro i hi
    rw [subscript, load_eq_getElem?]
    exact ⟨(s.m_data.getD [])[i], List.getElem?_eq_getElem (by omega)⟩
  obtain ⟨r, hr, hrl, hrj⟩ := for_loop_store (fun i => s.subscript i) s.m_size hf
    s.m_size 0 cs hcs (by omega)
  have : r = toList s ++ cs.drop s.m_size := by
    apply List.ext_getElem?
    intro j
    have hmin : min s.m_size (s.m_data.getD []).length = s.m_size := by omega
    rw [hrj j]
    simp only [toList, cells, List.getElem?_append, List.length_take, List.getElem?_take,
      List.getElem?_drop, hmin, subscript, load_eq_getElem?]
    split_ifs <;> first | rfl | omega | (congr 1; omega)
  rw [← this]
  exact hr

/-- Closed form of the copy constructor: the new buffer holds exactly the live
elements of the source. -/
theorem copy_ctor_eq [element_type T] (s : vector T)
    (hbuf : s.m_size ≤ (cells s).length) :
    copy_ctor s = some (⟨some (toList s), s.m_size, s.m_size⟩ : vector T) := by
  have h := copy_loop_eq s hbuf
    ((List.range s.m_size).map (element_type.indeterminate s.m_size)) (by simp)
  have hdrop : ((List.range s.m_size).map
      (element_type.indeterminate s.m_size : Nat → T)).drop s.m_size = [] :=
    List.drop_eq_nil_of_le (by simp)
  rw [hdrop, List.append_nil] at h
  simp only [copy_ctor, allocator.allocate, Option.bind_eq_bind, Option.pure_def, h,
    Option.some_bind]

/-- Closed form of the copy assignment to a vector with null data and size 0: the
new buffer holds exactly the live elements of the source, and the capacity member
is the capacity of the source. -/
theorem copy_assign_eq_of_null [Inhabited T] [element_type T] (v right : vector T) (hd : v.m_data = none)
    (hs : v.m_size = 0) (hbuf : right.m_size ≤ (cells right).length) :
    copy_assign v right
      = some (⟨some (toList right), right.m_size, right.m_capacity⟩ : vector T) := by
  obtain ⟨r, hre, hrl, _⟩ := re_allocate_cells v right.m_size (by omega) (by omega)
  rw [hs] at hre
  have h := copy_loop_eq right hbuf r (by omega)
  have hdrop : r.drop right.m_size = [] := List.drop_eq_nil_of_le (by omega)
  rw [hdrop, List.append_nil] at h
  simp only [copy_assign, hd, hre, Option.bind_eq_bind, Option.pure_def, Option.some_bind, h]

/-- The loop of `operator==` returns `true` when the two buffers hold equal cells
at every index below the bound. -/
theorem equal_loop_true [DecidableEq T] (a b : pointer T) (hi : Nat)
    (h : ∀ i, i < hi → ∃ x, load a i = some x ∧ load b i = some x) :
    ∀ (fuel i : Nat), hi - i ≤ fuel → equal_loop a b hi fuel i = some true := by
  intro fuel
  induction fuel with
  | zero =>
    intro i hfuel
    have : ¬ i < hi := by omega
    simp [equal_loop, this]
  | succ fuel ih =>
    intro i hfuel
    by_cases hlt : i < hi
    · obtain ⟨x, hx, hy⟩ := h i hlt
      simp only [equal_loop, hlt, if_true, hx, hy, Option.some_bind, ne_eq, not_true_eq_false,
        if_false]
      exact ih (i + 1) (by omega)
    · simp [equal_loop, hlt]

/-- What `push_back` gives on a vector with `size <= capacity` whose buffer has
`capacity` cells, member by member. -/
theorem push_back_props [Inhabited T] [element_type T] (v : vector T) (x : T)
    (hsc : v.m_size ≤ v.m_capacity) (hbuf : (cells v).length = v.m_capacity)
    (hint : v.m_size = v.m_capacity → 2 * v.m_size ≤ 2 ^ 31) :
    ∃ v', push_back v (argument.object x) = some v' ∧
      v'.m_size = v.m_size + 1 ∧
      v'.m_capacity = (if v.m_size = v.m_capacity then max 1 (2 * v.m_size) else v.m_capacity) ∧
      v.m_size + 1 ≤ (cells v').length ∧
      ∀ i, i < v.m_size → (cells v')[i]? = (cells v)[i]? := by
  have hlen : ((cells v).take v.m_size).length = v.m_size := by
    rw [List.length_take]; omega
  refine ⟨_, push_back_eq v x hsc hbuf hint, rfl, rfl, ?_, ?_⟩
  · simp only [cells, Option.getD_some, List.length_append, List.length_cons]
    simp only [cells] at hlen
    omega
  · intro i hi
    simp only [cells, Option.getD_some]
    simp only [cells] at hlen
    rw [List.getElem?_append_left (by omega), List.getElem?_take_of_lt hi]

/-- The loop of `operator==` on two buffers that both hold the cells below the
bound: it returns, and the outcome is `true` exactly when the buffers agree at every
index from the start index up to the bound. -/
theorem equal_loop_spec [DecidableEq T] (a b : pointer T) (hi : Nat)
    (ha : hi ≤ (a.getD []).length) (hb : hi ≤ (b.getD []).length) :
    ∀ (fuel i : Nat), hi - i ≤ fuel →
      ∃ r, equal_loop a b hi fuel i = some r ∧
        (r = true ↔ ∀ j, i ≤ j → j < hi → (a.getD [])[j]? = (b.getD [])[j]?) := by
  intro fuel
  induction fuel with
  | zero =>
    intro i hfuel
    have hn : ¬ i < hi := by omega
    refine ⟨true, by simp [equal_loop, hn], ?_⟩
    simp only [true_iff]
    intro j h1 h2
    omega
  | succ fuel ih =>
    intro i hfuel
    by_cases hlt : i < hi
    · have hxa : (a.getD [])[i]? = some (a.getD [])[i] := List.getElem?_eq_getElem (by omega)
      have hxb : (b.getD [])[i]? = some (b.getD [])[i] := List.getElem?_eq_getElem (by omega)
      by_cases hxy : (a.getD [])[i] = (b.getD [])[i]
      · obtain ⟨r, hr, hiff⟩ := ih (i + 1) (by omega)
        refine ⟨r, ?_, ?_⟩
        · simp only [equal_loop, hlt, if_true, load_eq_getElem?, hxa, hxb, Option.some_bind,
            ne_eq, hxy, not_true_eq_false, if_false]
          exact hr
        · rw [hiff]
          constructor
          · intro h j h1 h2
            by_cases hji : j = i
            · subst hji
              rw [hxa, hxb, hxy]
            · exact h j (by omega) h2
          · intro h j h1 h2
            exact h j (by omega) h2
      · refine ⟨false, ?_, ?_⟩
        · simp only [equal_loop, hlt, if_true, load_eq_getElem?, hxa, hxb, Option.some_bind,
            ne_eq, hxy, not_false_eq_true]
        · simp only [Bool.false_eq_true, false_iff]
          intro h
          have := h i (le_refl _) hlt
          rw [hxa, hxb] at this
          exact hxy (Option.some.inj this)
    · refine ⟨true, by simp [equal_loop, hlt], ?_⟩
      simp only [true_iff]
      intro j h1 h2
      omega

end vector

/-- A list is above the empty list in the lexicographic order exactly when it is
not empty. -/
theorem lex_nil_left_iff {α : Type} (r : α → α → Prop) (ys : List α) :
    List.Lex r [] ys ↔ ys ≠ [] := by
  cases ys with
  | nil =>
    simp only [ne_eq, not_true_eq_false, iff_false]
    exact List.Lex.not_nil_right r []
  | cons y ys =>
    simp only [ne_eq, not_false_eq_true, iff_true, reduceCtorEq]
    exact List.Lex.nil

/-- The lexicographic order of two lists, by positions: either some position holds
a smaller element on the left while all earlier positions agree, or the lists agree
on all common positions and the left one is shorter. -/
theorem lex_iff_first_difference [LinearOrder T] : ∀ (xs ys : List T),
    List.Lex (fun a b : T => a < b) xs ys ↔
      (∃ (i : Nat) (x y : T),
        xs[i]? = some x ∧ ys[i]? = some y ∧ (∀ j, j < i → xs[j]? = ys[j]?) ∧ x < y) ∨
      ((∀ j, j < xs.length → j < ys.length → xs[j]? = ys[j]?) ∧ xs.length < ys.length) := by
  intro xs
  induction xs with
  | nil =>
    intro ys
    rw [lex_nil_left_iff]
    constructor
    · intro h
      right
      refine ⟨fun j hj _ => by simp at hj, ?_⟩
      cases ys with
      | nil => exact absurd rfl h
      | cons y ys => simp
    · rintro (⟨i, x, y, hx, _⟩ | ⟨_, hlen⟩)
      · simp at hx
      · intro h
        subst h
        simp at hlen
  | cons x xs ih =>
    intro ys
    cases ys with
    | nil =>
      constructor
      · intro h
        exact absurd h (List.Lex.not_nil_right _ _)
      · rintro (⟨i, a, b, _, hb, _⟩ | ⟨_, hlen⟩)
        · simp at hb
        · simp at hlen
    | cons y ys =>
      constructor
      · intro h
        cases h with
        | cons h' =>
          rcases (ih ys).mp h' with ⟨i, a, b, ha, hb, hpre, hab⟩ | ⟨hall, hlen⟩
          · left
            refine ⟨i + 1, a, b, by simpa using ha, by simpa using hb, ?_, hab⟩
            intro j hj
            cases j with
            | zero => simp
            | succ j => simpa using hpre j (by omega)
          · right
            refine ⟨?_, by simpa using hlen⟩
            intro j h1 h2
            cases j with
            | zero => simp
            | succ j =>
              simp only [List.length_cons] at h1 h2
              simpa using hall j (by omega) (by omega)
        | rel hxy =>
          left
          exact ⟨0, x, y, by simp, by simp, fun j hj => by omega, hxy⟩
      · rintro (⟨i, a, b, ha, hb, hpre, hab⟩ | ⟨hall, hlen⟩)
        · cases i with
          | zero =>
            simp only [List.getElem?_cons_zero, Option.some.injEq] at ha hb
            subst ha hb
            exact List.Lex.rel hab
          | succ i =>
            have h0 := hpre 0 (by omega)
            simp only [List.getElem?_cons_zero, Option.some.injEq] at h0
            subst h0
            apply List.Lex.cons
            apply (ih ys).mpr
            left
            refine ⟨i, a, b, by simpa using ha, by simpa using hb, ?_, hab⟩
            intro j hj
            simpa using hpre (j + 1) (by omega)
        · have h0 := hall 0 (by simp) (by simp)
          simp only [List.getElem?_cons_zero, Option.some.injEq] at h0
          subst h0
          apply List.Lex.cons
          apply (ih ys).mpr
          right
          refine ⟨?_, by simpa using hlen⟩
          intro j h1 h2
          simpa using hall (j + 1) (by simpa using h1) (by simpa using h2)

/-- A list whose head is greater is not below in the lexicographic order. -/
theorem not_lex_cons_of_gt [LinearOrder T] (x y : T) (xs ys : List T) (hgt : y < x) :
    ¬ List.Lex (fun a b : T => a < b) (x :: xs) (y :: ys) := by
  intro h
  cases h with
  | cons _ => exact lt_irrefl _ hgt
  | rel h => exact lt_asymm h hgt

/-- The loop of `lexicographical_compare` on two ranges that lie in their buffers:
it returns, and the outcome is `true` exactly when the rest of the left range is
below the rest of the right range in the lexicographic order. -/
theorem lexicographical_compare_loop_spec [LinearOrder T] (lhs rhs : pointer T)
    (lhs_end rhs_end : Nat) (ha : lhs_end ≤ (lhs.getD []).length)
    (hb : rhs_end ≤ (rhs.getD []).length) :
    ∀ (fuel lhs_begin rhs_begin : Nat), lhs_begin ≤ lhs_end → rhs_begin ≤ rhs_end →
      min (lhs_end - lhs_begin) (rhs_end - rhs_begin) ≤ fuel →
      ∃ r, lexicographical_compare_loop lhs rhs lhs_end rhs_end fuel lhs_begin rhs_begin
          = some r ∧
        (r = true ↔ List.Lex (fun a b : T => a < b)
          (((lhs.getD []).take lhs_end).drop lhs_begin)
          (((rhs.getD []).take rhs_end).drop rhs_begin)) := by
  have hla : ((lhs.getD []).take lhs_end).length = lhs_end := by
    rw [List.length_take]; omega
  have hlb : ((rhs.getD []).take rhs_end).length = rhs_end := by
    rw [List.length_take]; omega
  have hdone : ∀ lb rb, lb ≤ lhs_end → rb ≤ rhs_end → ¬ (lb ≠ lhs_end ∧ rb ≠ rhs_end) →
      (decide (lb = lhs_end ∧ rb ≠ rhs_end) = true ↔ List.Lex (fun a b : T => a < b)
        (((lhs.getD []).take lhs_end).drop lb) (((rhs.getD []).take rhs_end).drop rb)) := by
    intro lb rb h1 h2 hg
    by_cases hl : lb = lhs_end
    · subst hl
      have hnil : ((lhs.getD []).take lb).drop lb = [] :=
        List.drop_eq_nil_of_le (by omega)
      rw [hnil, lex_nil_left_iff]
      simp only [true_and, decide_eq_true_eq, ne_eq]
      constructor
      · intro hne hd
        have := congrArg List.length hd
        simp only [List.length_drop, hlb, List.length_nil] at this
        omega
      · intro hne heq
        apply hne
        subst heq
        exact List.drop_eq_nil_of_le (by omega)
    · have hr : rb = rhs_end := by
        by_contra hr
        exact hg ⟨hl, hr⟩
      subst hr
      have hnil : ((rhs.getD []).take rb).drop rb = [] :=
        List.drop_eq_nil_of_le (by omega)
      rw [hnil]
      simp only [hl, false_and, decide_False, Bool.false_eq_true, false_iff]
      exact List.Lex.not_nil_right _ _
  intro fuel
  induction fuel with
  | zero =>
    intro lb rb h1 h2 hfuel
    have hg : ¬ (lb ≠ lhs_end ∧ rb ≠ rhs_end) := by omega
    exact ⟨_, by simp only [lexicographical_compare_loop, if_neg hg], hdone lb rb h1 h2 hg⟩
  | succ fuel ih =>
    intro lb rb h1 h2 hfuel
    by_cases hg : lb ≠ lhs_end ∧ rb ≠ rhs_end
    · have hl : lb < lhs_end := by omega
      have hr : rb < rhs_end := by omega
      have hxa : (lhs.getD [])[lb]? = some (lhs.getD [])[lb] :=
        List.getElem?_eq_getElem (by omega)
      have hxb : (rhs.getD [])[rb]? = some (rhs.getD [])[rb] :=
        List.getElem?_eq_getElem (by omega)
      have hda : ((lhs.getD []).take lhs_end).drop lb
          = (lhs.getD [])[lb] :: ((lhs.getD []).take lhs_end).drop (lb + 1) := by
        rw [List.drop_eq_getElem_cons (by omega), List.getElem_take]
      have hdb : ((rhs.getD []).take rhs_end).drop rb
          = (rhs.getD [])[rb] :: ((rhs.getD []).take rhs_end).drop (rb + 1) := by
        rw [List.drop_eq_getElem_cons (by omega), List.getElem_take]
      rw [hda, hdb]
      by_cases hlt : (lhs.getD [])[lb] < (rhs.getD [])[rb]
      · refine ⟨true, ?_, by simp only [true_iff]; exact List.Lex.rel hlt⟩
        simp only [lexicographical_compare_loop, if_pos hg, load_eq_getElem?, hxa, hxb,
          Option.some_bind, if_pos hlt]
      · by_cases hgt : (lhs.getD [])[lb] > (rhs.getD [])[rb]
        · refine ⟨false, ?_, ?_⟩
          · simp only [lexicographical_compare_loop, if_pos hg, load_eq_getElem?, hxa, hxb,
              Option.some_bind, if_neg hlt, if_pos hgt]
          · simp only [Bool.false_eq_true, false_iff]
            exact not_lex_cons_of_gt _ _ _ _ hgt
        · have heq : (lhs.getD [])[lb] = (rhs.getD [])[rb] :=
            le_antisymm (not_lt.mp hgt) (not_lt.mp hlt)
          obtain ⟨r, hr', hiff⟩ := ih (lb + 1) (rb + 1) (by omega) (by omega) (by omega)
          refine ⟨r, ?_, ?_⟩
          · simp only [lexicographical_compare_loop, if_pos hg, load_eq_getElem?, hxa, hxb,
              Option.some_bind, if_neg hlt, if_neg hgt]
            exact hr'
          · rw [hiff, heq]
            exact (List.Lex.cons_iff).symm
    · exact ⟨_, by simp only [lexicographical_compare_loop, if_neg hg],
        hdone lb rb h1 h2 hg⟩

namespace vector

/-- Two vectors whose live elements lie in their buffers have the same element
list exactly when they have the same size and agree at every index below it. -/
theorem toList_eq_iff (A B : vector T) (hA : A.m_size ≤ (cells A).length)
    (hB : B.m_size ≤ (cells B).length) :
    toList A = toList B ↔
      A.m_size = B.m_size ∧ ∀ i, i < A.m_size → A.subscript i = B.subscript i := by
  have hlA : (toList A).length = A.m_size := by
    simp only [toList, List.length_take]; omega
  have hlB : (toList B).length = B.m_size := by
    simp only [toList, List.length_take]; omega
  constructor
  · intro h
    have hs : A.m_size = B.m_size := by rw [← hlA, ← hlB, h]
    refine ⟨hs, ?_⟩
    intro i hi
    have h1 := congrArg (fun l => l[i]?) h
    simp only [toList, List.getElem?_take, hi, if_true, hs ▸ hi] at h1
    simpa [subscript, load_eq_getElem?, cells] using h1
  · rintro ⟨hs, hall⟩
    apply List.ext_getElem?
    intro i
    simp only [toList, List.getElem?_take, ← hs]
    by_cases hi : i < A.m_size
    · simp only [hi, if_true]
      simpa [subscript, load_eq_getElem?, cells] using hall i hi
    · simp [hi]

/-- The outcome of `operator==` on two vectors whose live elements lie in their
buffers: it returns, `true` exactly for equal sizes and equal elements. -/
theorem operator_eq_iff [DecidableEq T] (A B : vector T) (hA : A.m_size ≤ (cells A).length)
    (hB : B.m_size ≤ (cells B).length) :
    ∃ r, operator_eq A B = some r ∧
      (r = true ↔ A.m_size = B.m_size ∧ ∀ i, i < A.m_size → A.subscript i = B.subscript i) := by
  by_cases hs : A.m_size = B.m_size
  · obtain ⟨r, hr, hiff⟩ := equal_loop_spec A.m_data B.m_data A.m_size hA (by rw [hs]; exact hB)
      A.m_size 0 (by omega)
    refine ⟨r, by simp only [operator_eq, ne_eq, hs, not_true_eq_false, if_false]; rw [← hs]; exact hr, ?_⟩
    rw [hiff]
    constructor
    · intro h
      refine ⟨hs, fun i hi => ?_⟩
      simpa [subscript, load_eq_getElem?] using h i (Nat.zero_le _) hi
    · rintro ⟨_, h⟩ j _ hj
      simpa [subscript, load_eq_getElem?] using h j hj
  · refine ⟨false, by simp [operator_eq, hs], ?_⟩
    simp only [Bool.false_eq_true, false_iff]
    rintro ⟨h, _⟩
    exact hs h

/-- The outcome of `lexicographical_compare` on two ranges that lie in their
buffers: it returns, `true` exactly when the left range is below the right range in
the lexicographic order of their elements. -/
theorem lexicographical_compare_iff_lex [LinearOrder T] (lhs : pointer T)
    (lhs_begin lhs_end : Nat) (rhs : pointer T) (rhs_begin rhs_end : Nat)
    (h1 : lhs_begin ≤ lhs_end) (ha : lhs_end ≤ (lhs.getD []).length)
    (h2 : rhs_begin ≤ rhs_end) (hb : rhs_end ≤ (rhs.getD []).length) :
    ∃ r, lexicographical_compare lhs lhs_begin lhs_end rhs rhs_begin rhs_end = some r ∧
      (r = true ↔ List.Lex (fun a b : T => a < b)
        (((lhs.getD []).take lhs_end).drop lhs_begin)
        (((rhs.getD []).take rhs_end).drop rhs_begin)) :=
  lexicographical_compare_loop_spec lhs rhs lhs_end rhs_end ha hb _ lhs_begin rhs_begin h1 h2
    (by omega)

/-- The outcome of `operator<` on two vectors whose live elements lie in their
buffers: it returns, `true` exactly when the elements of the left vector are below
those of the right one in the lexicographic order. -/
theorem operator_lt_iff_lex [LinearOrder T] (A B : vector T)
    (hA : A.m_size ≤ (cells A).length) (hB : B.m_size ≤ (cells B).length) :
    ∃ r, operator_lt A B = some r ∧
      (r = true ↔ List.Lex (fun a b : T => a < b) (toList A) (toList B)) := by
  have h := lexicographical_compare_iff_lex A.m_data 0 A.m_size B.m_data 0 B.m_size
    (Nat.zero_le _) hA (Nat.zero_le _) hB
  simpa only [List.drop_zero] using h

/-- The element list of a vector, index by index. -/
theorem toList_getElem? (A : vector T) (i : Nat) :
    (toList A)[i]? = if i < A.m_size then A.subscript i else none := by
  simp only [toList, List.getElem?_take, subscript, load_eq_getElem?, cells]

/-- The lexicographic order of the element lists of two vectors whose live elements
lie in their buffers, in terms of `operator[]`: a first index at which the vectors
differ, with the smaller element on the left, or agreement on all common indices
with the left vector shorter. -/
theorem lex_toList_iff [LinearOrder T] (A B : vector T)
    (hA : A.m_size ≤ (cells A).length) (hB : B.m_size ≤ (cells B).length) :
    List.Lex (fun a b : T => a < b) (toList A) (toList B) ↔
      (∃ (i : Nat) (x y : T), i < A.m_size ∧ i < B.m_size ∧
        A.subscript i = some x ∧ B.subscript i = some y ∧
        (∀ j, j < i → A.subscript j = B.subscript j) ∧ x ≠ y ∧ x < y) ∨
      ((∀ j, j < A.m_size → j < B.m_size → A.subscript j = B.subscript j) ∧
        A.m_size < B.m_size) := by
  have hlA : (toList A).length = A.m_size := by
    simp only [toList, List.length_take]; omega
  have hlB : (toList B).length = B.m_size := by
    simp only [toList, List.length_take]; omega
  rw [lex_iff_first_difference, hlA, hlB]
  constructor
  · rintro (⟨i, x, y, hx, hy, hpre, hxy⟩ | ⟨hall, hlen⟩)
    · left
      rw [toList_getElem?] at hx hy
      have hiA : i < A.m_size := by
        by_contra h
        simp [h] at hx
      have hiB : i < B.m_size := by
        by_contra h
        simp [h] at hy
      rw [if_pos hiA] at hx
      rw [if_pos hiB] at hy
      refine ⟨i, x, y, hiA, hiB, hx, hy, ?_, ne_of_lt hxy, hxy⟩
      intro j hj
      have := hpre j hj
      rw [toList_getElem?, toList_getElem?, if_pos (by omega), if_pos (by omega)] at this
      exact this
    · right
      refine ⟨?_, hlen⟩
      intro j h1 h2
      have := hall j h1 h2
      rw [toList_getElem?, toList_getElem?, if_pos h1, if_pos h2] at this
      exact this
  · rintro (⟨i, x, y, hiA, hiB, hx, hy, hpre, _, hxy⟩ | ⟨hall, hlen⟩)
    · left
      refine ⟨i, x, y, ?_, ?_, ?_, hxy⟩
      · rw [toList_getElem?, if_pos hiA]; exact hx
      · rw [toList_getElem?, if_pos hiB]; exact hy
      · intro j hj
        rw [toList_getElem?, toList_getElem?, if_pos (by omega), if_pos (by omega)]
        exact hpre j hj
    · right
      refine ⟨?_, hlen⟩
      intro j h1 h2
      rw [toList_getElem?, toList_getElem?, if_pos h1, if_pos h2]
      exact hall j h1 h2

/-- One `push_back` on a vector with `size <= capacity` whose buffer has `capacity`
cells: it returns a vector of the same kind, one element longer, with the capacity
chosen by `expand_capacity`. -/
theorem push_back_step [Inhabited T] [element_type T] (v : vector T) (x : T)
    (hsc : v.m_size ≤ v.m_capacity) (hbuf : (cells v).length = v.m_capacity) :
    ∃ v1, push_back v (argument.object x) = some v1 ∧
      v1.m_size = v.m_size + 1 ∧
      v1.m_capacity = (if v.m_size = v.m_capacity then max 1 (2 * v.m_size) else v.m_capacity) ∧
      v1.m_size ≤ v1.m_capacity ∧
      (cells v1).length = v1.m_capacity := by
  obtain ⟨w, hw, hws, hwc, hwl, _⟩ := expand_capacity_props v hbuf
  have hcap : v.m_size < w.m_capacity := by
    rw [hwc]
    split_ifs <;> omega
  cases hd : w.m_data with
  | none =>
    simp only [cells, hd, Option.getD_none, List.length_nil] at hwl
    omega
  | some cs =>
    have hcs : cs.length = w.m_capacity := by
      simpa only [cells, hd, Option.getD_some] using hwl
    refine ⟨⟨some (cs.set w.m_size x), w.m_size + 1, w.m_capacity⟩, ?_, ?_, hwc, ?_, ?_⟩
    · simp only [push_back, hw, Option.bind_eq_bind, Option.some_bind, argument.read_object,
        hd, Option.pure_def]
      rw [store_some_of_lt _ _ _ (by omega)]
      rfl
    · show w.m_size + 1 = v.m_size + 1
      rw [hws]
    · show w.m_size + 1 ≤ w.m_capacity
      omega
    · show (cs.set w.m_size x).length = w.m_capacity
      rw [List.length_set]
      exact hcs

/-- Sequential `push_back` calls on a vector with `size <= capacity` whose buffer
has `capacity` cells: they return; without a reallocation the capacity is as before,
and after `c > 0` reallocations the capacity is `max 1 (2 * old capacity)` doubled
`c - 1` times and less than twice the final size. -/
theorem push_back_all_spec [Inhabited T] [element_type T] : ∀ (xs : List T) (v : vector T),
    v.m_size ≤ v.m_capacity → (cells v).length = v.m_capacity →
    ∃ w c, push_back_all v xs = some (w, c) ∧
      w.m_size = v.m_size + xs.length ∧
      w.m_size ≤ w.m_capacity ∧
      (c = 0 → w.m_capacity = v.m_capacity) ∧
      (0 < c → w.m_capacity = max 1 (2 * v.m_capacity) * 2 ^ (c - 1) ∧
        w.m_capacity < 2 * w.m_size) := by
  intro xs
  induction xs with
  | nil =>
    intro v hsc _
    exact ⟨v, 0, rfl, rfl, hsc, fun _ => rfl, fun h => absurd h (lt_irrefl 0)⟩
  | cons x xs ih =>
    intro v hsc hbuf
    obtain ⟨v1, h1, hs1, hc1, hsc1, hbuf1⟩ := push_back_step v x hsc hbuf
    obtain ⟨w, c, hw, hws, hwsc, hc0, hcpos⟩ := ih v1 hsc1 hbuf1
    have hsize : w.m_size = v.m_size + (x :: xs).length := by
      simp only [List.length_cons]; omega
    refine ⟨w, expand_capacity_calls v + c, ?_, hsize, hwsc, ?_, ?_⟩
    · simp only [push_back_all, h1, Option.some_bind, hw, Option.map_some']
    · intro h0
      have hc : c = 0 := by omega
      have hcalls : expand_capacity_calls v = 0 := by omega
      have hnf : v.m_size ≠ v.m_capacity := by
        intro hf
        simp [expand_capacity_calls, hf] at hcalls
      rw [hc0 hc, hc1, if_neg hnf]
    · intro _
      by_cases hfull : v.m_size = v.m_capacity
      · have hcalls : expand_capacity_calls v = 1 := by
          simp [expand_capacity_calls, hfull]
        have hv1 : v1.m_capacity = max 1 (2 * v.m_capacity) := by
          rw [hc1, if_pos hfull, hfull]
        rw [hcalls]
        by_cases hc : c = 0
        · subst hc
          refine ⟨by rw [hc0 rfl, hv1]; simp, ?_⟩
          rw [hc0 rfl, hv1]
          omega
        · obtain ⟨k, rfl⟩ : ∃ k, c = k + 1 := ⟨c - 1, by omega⟩
          obtain ⟨hcap, hlt⟩ := hcpos (by omega)
          refine ⟨?_, hlt⟩
          have h2 : max 1 (2 * v1.m_capacity) = 2 * v1.m_capacity := by omega
          rw [hcap, h2, hv1]
          simp only [Nat.add_sub_cancel, Nat.add_sub_cancel_left]
          rw [pow_succ]
          ring
      · have hcalls : expand_capacity_calls v = 0 := by
          simp [expand_capacity_calls, hfull]
        have hv1 : v1.m_capacity = v.m_capacity := by
          rw [hc1, if_neg hfull]
        rw [hcalls, Nat.zero_add]
        have hcp : 0 < c := by
          by_contra h
          have hc : c = 0 := by omega
          simp [hcalls, hc] at *
        obtain ⟨hcap, hlt⟩ := hcpos hcp
        exact ⟨by rw [hcap, hv1], hlt⟩

/-- The base of `rbegin()` on a vector of fewer than `2 ^ 63` elements is the
position `size - 1`, which is `-1` on an empty vector. -/
theorem rbegin_base (v : vector T) (hsz : v.m_size < 2 ^ 63) :
    (rbegin v).m_iterator = (v.m_size : Int) - 1 := by
  by_cases h0 : v.m_size = 0
  · simp [rbegin, size_type_sub, position_of_index, h0]
  · have h1 : 1 ≤ v.m_size := by omega
    have h2 : v.m_size - 1 < 2 ^ 63 := by omega
    simp only [rbegin, size_type_sub, h1, if_true, position_of_index, h2]
    omega

/-- The loop `for (i = 0; i < n; i++) p[i] = x` on a buffer of `n` cells, whatever
they hold, leaves `n` cells holding `x`. -/
theorem fill_loop_eq (n : Nat) (x : T) (cs : List T) (hcs : cs.length = n) :
    for_loop (fun i d => store d i x) n n 0 (some cs)
      = some (some (List.replicate n x)) := by
  have hf : ∀ i, i < n → ∃ y, (fun _ : Nat => some x) i = some y := fun _ _ => ⟨x, rfl⟩
  obtain ⟨r, hr, hrl, hrj⟩ := for_loop_store (fun _ => some x) n hf n 0
    cs (by omega) (by omega)
  simp only [Option.some_bind] at hr
  have : r = List.replicate n x := by
    apply List.ext_getElem?
    intro j
    rw [hrj j]
    simp only [List.getElem?_replicate]
    by_cases hj : j < n
    · rw [if_pos ⟨Nat.zero_le _, hj⟩, if_pos hj]
    · rw [if_neg (fun h => hj h.2), if_neg hj, List.getElem?_eq_none (by omega)]
  rw [← this]
  exact hr

/-- Closed form of `vector(count)`. -/
theorem count_ctor_eq [Inhabited T] [element_type T] (n : Nat) :
    (count_ctor n : Option (vector T))
      = some ⟨some (List.replicate n default), n, n⟩ := by
  simp only [count_ctor, allocator.allocate, Option.bind_eq_bind, Option.pure_def]
  rw [fill_loop_eq n default _ (by simp)]
  rfl

/-- Closed form of `vector(count, value)`. -/
theorem fill_ctor_eq [element_type T] (n : Nat) (x : T) :
    fill_ctor n x = some ⟨some (List.replicate n x), n, n⟩ := by
  simp only [fill_ctor, allocator.allocate, Option.bind_eq_bind, Option.pure_def]
  rw [fill_loop_eq n x _ (by simp)]
  rfl

/-- Closed form of the constructor from an initializer list. -/
theorem initializer_list_ctor_eq [element_type T] (L : List T) :
    initializer_list_ctor L = some ⟨some L, L.length, L.length⟩ := by
  have hf : ∀ i, i < L.length → ∃ y, (fun i : Nat => L[i]?) i = some y :=
    fun i hi => ⟨L[i], List.getElem?_eq_getElem hi⟩
  obtain ⟨r, hr, hrl, hrj⟩ := for_loop_store (fun i => L[i]?) L.length hf L.length 0
    ((List.range L.length).map (element_type.indeterminate L.length)) (by simp) (by omega)
  have : r = L := by
    apply List.ext_getElem?
    intro j
    rw [hrj j]
    by_cases hj : j < L.length
    · rw [if_pos ⟨Nat.zero_le _, hj⟩]
    · rw [if_neg (fun h => hj h.2), List.getElem?_eq_none (by simpa using hj),
        List.getElem?_eq_none (not_lt.mp hj)]
  rw [this] at hr
  simp only [initializer_list_ctor, allocator.allocate, hr, Option.bind_eq_bind,
    Option.some_bind, Option.pure_def]

/-- Closed form of a growing `resize`: beyond the capacity the buffer is
reallocated to `n` cells, the new ones holding the default value; within the
capacity only the size member changes. -/
theorem resize_grow_eq [Inhabited T] [element_type T] (v : vector T) (n : Nat)
    (hn : v.m_size < n) (hbuf : v.m_size ≤ (cells v).length)
    (hint : v.m_capacity < n → n ≤ 2 ^ 31) :
    resize v n = some
      (if n > v.m_capacity then
        (⟨some ((cells v).take v.m_size ++ List.replicate (n - v.m_size) default), n, n⟩ :
          vector T)
      else ⟨v.m_data, n, v.m_capacity⟩) := by
  have hne : v.m_size ≠ n := by omega
  have hnl : ¬ n < v.m_size := by omega
  by_cases hc : n > v.m_capacity
  · have hre := re_allocate_eq v n hbuf (by omega) (hint hc)
    simp only [resize, hne, if_false, hnl, hc, if_true, hre, Option.bind_eq_bind,
      Option.some_bind, Option.pure_def]
  · simp only [resize, hne, if_false, hnl, hc, Option.bind_eq_bind, Option.some_bind,
      Option.pure_def]

/-- Closed form of the statements of `emplace` before the growth test, on a
non-empty vector whose live elements lie in its buffer: `temp` is the last element;
the new value is in cell `min (size - 1) position`, the cells from `position` to
`size - 2` have moved one slot up, the other cells are as they were. -/
theorem emplace_shift_phase_eq (v : vector T) (p : Nat) (x : T) (hpos : 0 < v.m_size)
    (hbuf : v.m_size ≤ (cells v).length) :
    ∃ t r, emplace_shift_phase v p (argument.object x)
        = some (t, (⟨some r, v.m_size, v.m_capacity⟩ : vector T)) ∧
      (cells v)[v.m_size - 1]? = some t ∧
      r.length = (cells v).length ∧
      ∀ j, r[j]? = if j = min (v.m_size - 1) p then some x
        else if p < j ∧ j ≤ v.m_size - 1 then (cells v)[j - 1]? else (cells v)[j]? := by
  obtain ⟨cs, hcs, hc⟩ := m_data_eq_some_of_pos v hpos hbuf
  rw [hc] at hbuf ⊢
  have hlast : v.m_size - 1 < cs.length := by omega
  obtain ⟨r1, hr1, hl1, hj1⟩ := emplace_shift p v.m_size (v.m_size - 1) cs hlast (by omega)
  simp only [Option.bind_eq_bind, Option.pure_def] at hr1
  have hq : min (v.m_size - 1) p < r1.length := by omega
  have hload : load (some cs) (v.m_size - 1) = some cs[v.m_size - 1] := by
    simp [load, List.getElem?_eq_getElem hlast]
  refine ⟨cs[v.m_size - 1], r1.set (min (v.m_size - 1) p) x, ?_,
    List.getElem?_eq_getElem hlast, by simp [hl1], ?_⟩
  · simp only [emplace_shift_phase, vector.«end», Option.bind_eq_bind, Option.pure_def, hcs,
      hload, Option.some_bind, hr1, argument.read_object, store_some_of_lt _ _ _ hq]
  · intro j
    rw [List.getElem?_set, hj1 j]
    by_cases hj : min (v.m_size - 1) p = j
    · subst hj
      simp [hq]
    · have hj' : ¬ j = min (v.m_size - 1) p := fun h => hj h.symm
      simp only [hj, hj', if_false]

/-- The statements of `emplace` before the growth test when the argument refers to
the cell `i` of the vector itself: the value stored at the position is what cell `i`
holds after the shift. -/
theorem emplace_shift_phase_eq_element (v : vector T) (p i : Nat) (hpos : 0 < v.m_size)
    (hbuf : v.m_size ≤ (cells v).length) (hi : i < (cells v).length) :
    ∃ t y r, emplace_shift_phase v p (argument.element i)
        = some (t, (⟨some r, v.m_size, v.m_capacity⟩ : vector T)) ∧
      (cells v)[v.m_size - 1]? = some t ∧
      some y = (if p < i ∧ i ≤ v.m_size - 1 then (cells v)[i - 1]? else (cells v)[i]?) ∧
      r.length = (cells v).length ∧
      ∀ j, r[j]? = if j = min (v.m_size - 1) p then some y
        else if p < j ∧ j ≤ v.m_size - 1 then (cells v)[j - 1]? else (cells v)[j]? := by
  obtain ⟨cs, hcs, hc⟩ := m_data_eq_some_of_pos v hpos hbuf
  rw [hc] at hbuf hi ⊢
  have hlast : v.m_size - 1 < cs.length := by omega
  obtain ⟨r1, hr1, hl1, hj1⟩ := emplace_shift p v.m_size (v.m_size - 1) cs hlast (by omega)
  simp only [Option.bind_eq_bind, Option.pure_def] at hr1
  have hq : min (v.m_size - 1) p < r1.length := by omega
  have hi1 : i < r1.length := by omega
  have hload : load (some cs) (v.m_size - 1) = some cs[v.m_size - 1] := by
    simp [load, List.getElem?_eq_getElem hlast]
  have hread : (argument.element i).read (some r1) false = some r1[i] := by
    simp [argument.read, load, List.getElem?_eq_getElem hi1]
  refine ⟨cs[v.m_size - 1], r1[i], r1.set (min (v.m_size - 1) p) r1[i], ?_,
    List.getElem?_eq_getElem hlast, ?_, by simp [hl1], ?_⟩
  · simp only [emplace_shift_phase, vector.«end», Option.bind_eq_bind, Option.pure_def, hcs,
      hload, Option.some_bind, hr1, hread, store_some_of_lt _ _ _ hq]
  · rw [← List.getElem?_eq_getElem hi1, hj1 i]
  · intro j
    rw [List.getElem?_set, hj1 j]
    by_cases hj : min (v.m_size - 1) p = j
    · subst hj
      simp [hq]
    · have hj' : ¬ j = min (v.m_size - 1) p := fun h => hj h.symm
      simp only [hj, hj', if_false]

/-- In its non-empty branch `emplace` is the shift phase, then the growth test with
`re_allocate(m_size + 1)`, then the store of the saved last element. -/
theorem emplace_eq_phases [Inhabited T] [element_type T] (v : vector T) (p : Nat)
    (args : argument T) (hne : v.m_size ≠ 0) :
    emplace v p args = (emplace_shift_phase v p args).bind fun tv =>
      (if tv.2.m_size = tv.2.m_capacity then re_allocate tv.2 (tv.2.m_size + 1)
        else some tv.2).bind fun w =>
        (store w.m_data w.m_size tv.1).map fun data =>
          (({ w with m_data := data, m_size := w.m_size + 1 } : vector T), p - v.begin) := by
  simp only [emplace, hne, if_false, emplace_shift_phase, Option.bind_eq_bind,
    Option.pure_def, Option.bind_assoc, Option.some_bind]
  refine congrArg _ (funext fun temp => congrArg _ (funext fun st =>
    congrArg _ (funext fun y => congrArg _ (funext fun data => ?_))))
  by_cases hfull : v.m_size = v.m_capacity
  · rw [if_pos hfull, if_pos hfull]
    cases hR : re_allocate (⟨data, v.m_size, v.m_capacity⟩ : vector T) (v.m_size + 1) with
    | none => rfl
    | some y =>
      simp only [Option.some_bind]
      cases hS : store y.m_data y.m_size temp <;> rfl
  · rw [if_neg hfull, if_neg hfull]
    simp only [Option.some_bind]
    cases hS : store data v.m_size temp <;> rfl

/-- The statements of `emplace` before the growth test return, for an argument that
is an object outside the buffer or a cell of the buffer, with the size and the
capacity unchanged and as many cells as before. -/
theorem emplace_shift_phase_returns (v : vector T) (p : Nat) (args : argument T)
    (hpos : 0 < v.m_size) (hbuf : v.m_size ≤ (cells v).length)
    (hargs : ∀ i, args = argument.element i → i < (cells v).length) :
    ∃ t r0, emplace_shift_phase v p args
        = some (t, (⟨some r0, v.m_size, v.m_capacity⟩ : vector T)) ∧
      r0.length = (cells v).length := by
  cases args with
  | object x =>
    obtain ⟨t, r, h, _, hl, _⟩ := emplace_shift_phase_eq v p x hpos hbuf
    exact ⟨t, r, h, hl⟩
  | element i =>
    obtain ⟨t, y, r, h, _, _, hl, _⟩ :=
      emplace_shift_phase_eq_element v p i hpos hbuf (hargs i rfl)
    exact ⟨t, r, h, hl⟩

/-- Whatever the sizes, `emplace` on a non-empty vector with `size <= capacity` whose
buffer has `capacity` cells returns, for an argument that is an object outside the
buffer or a cell of the buffer: the size is one larger, the capacity is `size + 1`
when the vector was full and as before when it was not, the buffer has as many
cells as the capacity says, and the iterator is at the offset of the position. -/
theorem emplace_returns [Inhabited T] [element_type T] (v : vector T) (p : Nat)
    (args : argument T) (hpos : 0 < v.m_size) (hsc : v.m_size ≤ v.m_capacity)
    (hbuf : (cells v).length = v.m_capacity)
    (hargs : ∀ i, args = argument.element i → i < (cells v).length) :
    ∃ r, emplace v p args = some ((⟨some r, v.m_size + 1,
          if v.m_size = v.m_capacity then v.m_size + 1 else v.m_capacity⟩ : vector T), p) ∧
      r.length = (if v.m_size = v.m_capacity then v.m_size + 1 else v.m_capacity) := by
  have hne : v.m_size ≠ 0 := by omega
  obtain ⟨t, r0, hph, hl0⟩ := emplace_shift_phase_returns v p args hpos (by omega) hargs
  rw [emplace_eq_phases v p args hne, hph]
  by_cases hfull : v.m_size = v.m_capacity
  · obtain ⟨r1, hr1, hl1, _⟩ := re_allocate_cells
      (⟨some r0, v.m_size, v.m_capacity⟩ : vector T) (v.m_size + 1)
      (by simp only [cells, Option.getD_some]; omega) (by simp)
    refine ⟨r1.set v.m_size t, ?_, by rw [List.length_set, hl1, if_pos hfull]⟩
    simp only [Option.some_bind, if_pos hfull, hr1, vector.begin, Nat.sub_zero]
    rw [store_some_of_lt _ _ _ (by omega)]
    rfl
  · refine ⟨r0.set v.m_size t, ?_, by rw [List.length_set, hl0, if_neg hfull, hbuf]⟩
    simp only [Option.some_bind, if_neg hfull, vector.begin, Nat.sub_zero]
    rw [store_some_of_lt _ _ _ (by omega)]
    rfl

/-- The members after `emplace` at `end()` of a non-empty vector with
`size <= capacity` whose buffer has `capacity` cells: the call returns with the size
one larger, the capacity as after an `emplace` inside the live range, and the
iterator at the old size. -/
theorem emplace_eq_at_end [Inhabited T] [element_type T] (v : vector T) (x : T) (hpos : 0 < v.m_size)
    (hsc : v.m_size ≤ v.m_capacity) (hbuf : (cells v).length = v.m_capacity) :
    ∃ r, emplace v v.m_size (argument.object x) = some ((⟨some r, v.m_size + 1,
          if v.m_size = v.m_capacity then v.m_size + 1 else v.m_capacity⟩ : vector T),
          v.m_size) ∧
      r.length = (if v.m_size = v.m_capacity then v.m_size + 1 else v.m_capacity) := by
  exact emplace_returns v v.m_size (argument.object x) hpos hsc hbuf
    (fun i h => argument.noConfusion h)

/-- Every constructor gives a vector with `size <= capacity` (the copy constructor
for a source whose live elements lie in its buffer). -/
theorem constructors_size_le_capacity [Inhabited T] [element_type T] (n : Nat) (x : T) (L : List T)
    (s : vector T) (hs : s.m_size ≤ s.m_capacity) (hbuf : s.m_size ≤ (cells s).length) :
    (default_ctor : vector T).m_size ≤ (default_ctor : vector T).m_capacity ∧
    (∃ w : vector T, count_ctor n = some w ∧ w.m_size ≤ w.m_capacity) ∧
    (∃ w, fill_ctor n x = some w ∧ w.m_size ≤ w.m_capacity) ∧
    (∃ w, initializer_list_ctor L = some w ∧ w.m_size ≤ w.m_capacity) ∧
    (∃ w, copy_ctor s = some w ∧ w.m_size ≤ w.m_capacity) ∧
    (move_ctor s).1.m_size ≤ (move_ctor s).1.m_capacity ∧
    (move_ctor s).2.m_size ≤ (move_ctor s).2.m_capacity :=
  ⟨le_refl _, ⟨_, count_ctor_eq n, le_refl _⟩, ⟨_, fill_ctor_eq n x, le_refl _⟩,
    ⟨_, initializer_list_ctor_eq L, le_refl _⟩, ⟨_, copy_ctor_eq s hbuf, le_refl _⟩, hs,
    le_refl _⟩

/-- On a vector with `size <= capacity` whose buffer has `capacity` cells, each
mutator called within its precondition returns a vector with `size <= capacity`;
for the copy assignment this is for a destination with null data and size 0. -/
theorem size_le_capacity_preserved [Inhabited T] [element_type T] (v : vector T)
    (hsc : v.m_size ≤ v.m_capacity) (hbuf : (cells v).length = v.m_capacity) :
    (∀ x, ∃ w, push_back v (argument.object x) = some w ∧ w.m_size ≤ w.m_capacity) ∧
    (∀ x, ∃ w, emplace_back v (argument.object x) = some w ∧ w.m_size ≤ w.m_capacity) ∧
    (∀ p x, p ≤ v.m_size → ∃ w it, emplace v p (argument.object x) = some (w, it) ∧ w.m_size ≤ w.m_capacity) ∧
    (0 < v.m_size → ∃ w, pop_back v = some w ∧ w.m_size ≤ w.m_capacity) ∧
    (∀ p, p < v.m_size → ∃ w it, erase v p = some (w, it) ∧ w.m_size ≤ w.m_capacity) ∧
    (∀ f l, f ≤ l → l ≤ v.m_size →
      ∃ w it, erase_range v f l = some (w, it) ∧ w.m_size ≤ w.m_capacity) ∧
    (∃ w, clear v = some w ∧ w.m_size ≤ w.m_capacity) ∧
    (∀ n, ∃ w, resize v n = some w ∧ w.m_size ≤ w.m_capacity) ∧
    (∀ n, ∃ w, reserve v n = some w ∧ w.m_size ≤ w.m_capacity) ∧
    (∃ w, shrink_to_fit v = some w ∧ w.m_size ≤ w.m_capacity) ∧
    (∀ d : vector T, (move_assign d v).1.m_size ≤ (move_assign d v).1.m_capacity ∧
      (move_assign d v).2.m_size ≤ (move_assign d v).2.m_capacity) ∧
    (∀ d : vector T, d.m_data = none → d.m_size = 0 →
      ∃ w, copy_assign d v = some w ∧ w.m_size ≤ w.m_capacity) := by
  have hbuf' : v.m_size ≤ (cells v).length := by omega
  refine ⟨?_, ?_, ?_, ?_, ?_, ?_, ?_, ?_, ?_, ?_, ?_, ?_⟩
  · intro x
    obtain ⟨w, hw, _, _, hle, _⟩ := push_back_step v x hsc hbuf
    exact ⟨w, hw, hle⟩
  · intro x
    obtain ⟨w, hw, _, _, hle, _⟩ := push_back_step v x hsc hbuf
    exact ⟨w, hw, hle⟩
  · intro p x hp
    by_cases h0 : v.m_size = 0
    · exact ⟨_, _, emplace_eq_of_empty v p x h0, le_refl _⟩
    · have hmem : v.m_size + 1 ≤ (if v.m_size = v.m_capacity then v.m_size + 1
          else v.m_capacity) := by
        split_ifs <;> omega
      obtain ⟨r, hr, _⟩ := emplace_returns v p (argument.object x) (by omega) hsc hbuf
        (fun i h => argument.noConfusion h)
      exact ⟨_, _, hr, hmem⟩
  · intro hpos
    exact ⟨_, pop_back_eq v hpos hbuf', show v.m_size - 1 ≤ v.m_capacity by omega⟩
  · intro p hp
    obtain ⟨r, hr, _, _⟩ := erase_eq v p hp hbuf'
    exact ⟨_, _, hr, show v.m_size - 1 ≤ v.m_capacity by omega⟩
  · intro f l hfl hl
    obtain ⟨d, hd, _, _, _⟩ := erase_range_eq v f l hfl hl hbuf'
    exact ⟨_, _, hd, show v.m_size - (l - f) ≤ v.m_capacity by omega⟩
  · obtain ⟨d, hd, _, _⟩ := clear_eq v hbuf'
    exact ⟨_, hd, Nat.zero_le _⟩
  · intro n
    by_cases he : n = v.m_size
    · subst he
      exact ⟨v, by simp [resize], hsc⟩
    · by_cases hlt : n < v.m_size
      · obtain ⟨r, hr, _, _⟩ := resize_shrink_eq v n hlt hbuf'
        exact ⟨_, hr, show n ≤ v.m_capacity by omega⟩
      · have hne : ¬ v.m_size = n := fun h => he h.symm
        by_cases hc : n > v.m_capacity
        · obtain ⟨r, hre, _, _⟩ := re_allocate_cells v n hbuf' (by omega)
          refine ⟨⟨some r, n, n⟩, ?_, le_refl _⟩
          simp only [resize, if_neg hne, if_neg hlt, if_pos hc, hre, Option.bind_eq_bind,
            Option.some_bind, Option.pure_def]
        · refine ⟨⟨v.m_data, n, v.m_capacity⟩, ?_, show n ≤ v.m_capacity by omega⟩
          simp only [resize, if_neg hne, if_neg hlt, if_neg hc, Option.bind_eq_bind,
            Option.some_bind, Option.pure_def]
  · intro n
    by_cases hn : n > v.m_capacity
    · obtain ⟨r, hre, _, _⟩ := re_allocate_cells v n hbuf' (by omega)
      exact ⟨⟨some r, v.m_size, n⟩, by simp only [reserve, hn, if_true]; exact hre,
        show v.m_size ≤ n by omega⟩
    · exact ⟨v, by simp [reserve, hn], hsc⟩
  · by_cases hc : v.m_capacity > v.m_size
    · obtain ⟨r, hre, _, _⟩ := re_allocate_cells v v.m_size hbuf' (le_refl _)
      exact ⟨⟨some r, v.m_size, v.m_size⟩,
        by simp only [shrink_to_fit, hc, if_true]; exact hre, le_refl _⟩
    · exact ⟨v, by simp [shrink_to_fit, hc], hsc⟩
  · intro d
    exact ⟨hsc, le_refl _⟩
  · intro d hd hs
    exact ⟨_, copy_assign_eq_of_null d v hd hs hbuf', hsc⟩

/-- With a successful allocation `re_allocate_alloc` is `re_allocate`. -/
theorem re_allocate_alloc_true [Inhabited T] [element_type T] (v : vector T) (c : Nat) :
    re_allocate_alloc true v c = result.of_option (re_allocate v c) := by
  simp [re_allocate_alloc]

/-- With a successful allocation `reserve_alloc`, `shrink_to_fit_alloc`,
`push_back_alloc`, `emplace_back_alloc` and `resize_alloc` are the operations of
the main embedding. -/
theorem alloc_true_agrees [Inhabited T] [element_type T] (v : vector T) (n : Nat)
    (args : argument T) :
    reserve_alloc true v n = result.of_option (reserve v n) ∧
    shrink_to_fit_alloc true v = result.of_option (shrink_to_fit v) ∧
    push_back_alloc true v args = result.of_option (push_back v args) ∧
    emplace_back_alloc true v args = result.of_option (emplace_back v args) ∧
    resize_alloc true v n = result.of_option (resize v n) := by
  have hexp : expand_capacity_alloc true v = result.of_option (expand_capacity v) := by
    simp only [expand_capacity_alloc, expand_capacity, re_allocate_alloc_true]
    split_ifs <;> rfl
  have hpush : push_back_alloc true v args = result.of_option (push_back v args) := by
    simp only [push_back_alloc, push_back, hexp, Option.bind_eq_bind, Option.pure_def]
    cases hE : expand_capacity v with
    | none => rfl
    | some w =>
      simp only [result.of_option, result.bind, Option.some_bind]
      cases hR : args.read w.m_data (expand_capacity_releases v) with
      | none => rfl
      | some y =>
        simp only [Option.some_bind]
        cases hS : store w.m_data w.m_size y <;> rfl
  refine ⟨?_, ?_, hpush, hpush, ?_⟩
  · simp only [reserve_alloc, reserve, re_allocate_alloc_true]
    split_ifs <;> rfl
  · simp only [shrink_to_fit_alloc, shrink_to_fit, re_allocate_alloc_true]
    split_ifs <;> rfl
  · simp only [resize_alloc, resize, re_allocate_alloc_true, Option.bind_eq_bind,
      Option.pure_def]
    by_cases h1 : v.m_size = n
    · simp only [h1, if_true]
      rfl
    · simp only [h1, if_false]
      by_cases h2 : n < v.m_size
      · simp only [h2, if_true]
        cases hL : for_loop (fun i d => store d i (default : T)) v.m_size (v.m_size - n) n
          v.m_data <;> rfl
      · simp only [h2, if_false]
        by_cases h3 : n > v.m_capacity
        · simp only [h3, if_true]
          cases hR : re_allocate v n <;> rfl
        · simp only [h3, if_false]
          rfl

/-- With the allocation failing, `emplace` on a non-empty full vector whose buffer
has `capacity` cells throws after the shift phase: the vector keeps its size and
capacity, and its buffer is the outcome of the shift phase. -/
theorem emplace_alloc_false_eq [Inhabited T] [element_type T] (v : vector T) (p : Nat) (x : T)
    (hpos : 0 < v.m_size) (hfull : v.m_size = v.m_capacity)
    (hbuf : (cells v).length = v.m_capacity) :
    ∃ r, emplace_alloc false v p (argument.object x)
        = result.threw (⟨some r, v.m_size, v.m_capacity⟩ : vector T) ∧
      (emplace_shift_phase v p (argument.object x)).map Prod.snd
        = some (⟨some r, v.m_size, v.m_capacity⟩ : vector T) ∧
      r.length = (cells v).length ∧
      ∀ j, r[j]? = if j = min (v.m_size - 1) p then some x
        else if p < j ∧ j ≤ v.m_size - 1 then (cells v)[j - 1]? else (cells v)[j]? := by
  obtain ⟨t, r, hph, _, hrl, hrj⟩ := emplace_shift_phase_eq v p x hpos (by omega)
  have hne : v.m_size ≠ 0 := by omega
  refine ⟨r, ?_, by rw [hph]; rfl, hrl, hrj⟩
  have hthrow : ∀ (w : vector T) (c : Nat), re_allocate_alloc false w c = result.threw w :=
    fun w c => by simp [re_allocate_alloc]
  unfold emplace_alloc
  rw [if_neg hne]
  simp only [hph, result.of_option, result.bind]
  rw [if_pos hfull, hthrow]

/-- On a non-empty vector with spare room whose buffer has `capacity` cells,
`emplace` at `end()` returns without reallocation and leaves the cells above the old
size as they were. -/
theorem emplace_at_end_spare [Inhabited T] [element_type T] (v : vector T) (x : T) (hpos : 0 < v.m_size)
    (hlt : v.m_size < v.m_capacity) (hbuf : (cells v).length = v.m_capacity) :
    ∃ r, emplace v v.m_size (argument.object x)
        = some ((⟨some r, v.m_size + 1, v.m_capacity⟩ : vector T), v.m_size) ∧
      r.length = v.m_capacity ∧
      ∀ j, v.m_size < j → r[j]? = (cells v)[j]? := by
  obtain ⟨t, r, hph, ht, hrl, hrj⟩ := emplace_shift_phase_eq v v.m_size x hpos (by omega)
  have hne : v.m_size ≠ 0 := by omega
  have hnf : ¬ v.m_size = v.m_capacity := by omega
  have hst : store (some r) v.m_size t = some (some (r.set v.m_size t)) :=
    store_some_of_lt _ _ _ (by omega)
  refine ⟨r.set v.m_size t, ?_, by simp [hrl, hbuf], ?_⟩
  · rw [emplace_eq_phases v v.m_size (argument.object x) hne, hph]
    simp only [Option.some_bind, if_neg hnf, hst, Option.map_some', vector.begin, Nat.sub_zero]
  · intro j hj
    rw [List.getElem?_set, if_neg (by omega), hrj j]
    have h1 : ¬ j = min (v.m_size - 1) v.m_size := by omega
    have h2 : ¬ (v.m_size < j ∧ j ≤ v.m_size - 1) := by omega
    simp only [h1, h2, if_false]

/-- The conversion to `int` of a size `2 ^ 32 + k` with `k` in the range of `int` is
`k`. -/
theorem int_of_size_type_wrap (n k : Nat) (hn : n = 2 ^ 32 + k) (hk : k < 2 ^ 31) :
    int_of_size_type n = (k : Int) := by
  simp only [int_of_size_type]
  have h1 : n % 2 ^ 32 = k := by omega
  rw [h1, if_pos hk]

/-- On a vector of `2 ^ 32 + k` elements, `k` in the range of `int`, `re_allocate`
returns a buffer whose cells `k .. 2 ^ 31 - 1` hold `value_type()`: the `int`
counter of the fill loop starts at `k`, inside the live elements. The cells below
`k` are the old ones. -/
theorem re_allocate_overwrites [Inhabited T] [element_type T] (v : vector T) (c k : Nat)
    (h1 : v.m_size ≤ (cells v).length) (h2 : v.m_size ≤ c)
    (hk : v.m_size = 2 ^ 32 + k) (hk31 : k < 2 ^ 31) :
    ∃ r, re_allocate v c = some ⟨some r, v.m_size, c⟩ ∧ r.length = c ∧
      (∀ j, k ≤ j → j < 2 ^ 31 → r[j]? = some default) ∧
      (∀ j, j < k → r[j]? = (cells v)[j]?) := by
  obtain ⟨r, hr, hrl, hrj⟩ := re_allocate_cells v c h1 h2
  have hi : int_of_size_type v.m_size = (k : Int) := int_of_size_type_wrap _ k hk hk31
  refine ⟨r, hr, hrl, ?_, ?_⟩
  · intro j hj1 hj2
    have hw : 0 ≤ int_of_size_type v.m_size ∧ (int_of_size_type v.m_size).toNat ≤ j ∧
        j < min c (2 ^ 31) := by
      rw [hi, Int.toNat_ofNat]
      exact ⟨by omega, hj1, by omega⟩
    rw [hrj j, if_pos hw]
  · intro j hj
    have hw : ¬ (0 ≤ int_of_size_type v.m_size ∧ (int_of_size_type v.m_size).toNat ≤ j ∧
        j < min c (2 ^ 31)) := by
      rw [hi, Int.toNat_ofNat]
      omega
    rw [hrj j, if_neg hw, if_pos (by omega)]

/-- On a vector whose size is from `2 ^ 31` up to `2 ^ 32 - 1`, `re_allocate` leaves
the cells from the size on as `new T[count]` returned them: the `int` counter of
the fill loop starts negative and the loop does not run. -/
theorem re_allocate_skips_fill [Inhabited T] [element_type T] (v : vector T) (c : Nat)
    (h1 : v.m_size ≤ (cells v).length) (h2 : v.m_size ≤ c)
    (hlo : 2 ^ 31 ≤ v.m_size) (hhi : v.m_size < 2 ^ 32) :
    ∃ r, re_allocate v c = some ⟨some r, v.m_size, c⟩ ∧ r.length = c ∧
      ∀ j, v.m_size ≤ j → j < c → r[j]? = some (element_type.indeterminate c j) := by
  obtain ⟨r, hr, hrl, hrj⟩ := re_allocate_cells v c h1 h2
  have hneg := int_of_size_type_neg v.m_size hlo hhi
  refine ⟨r, hr, hrl, ?_⟩
  intro j hj1 hj2
  have hw : ¬ (0 ≤ int_of_size_type v.m_size ∧ (int_of_size_type v.m_size).toNat ≤ j ∧
      j < min c (2 ^ 31)) := by
    omega
  rw [hrj j, if_neg hw, if_neg (by omega), if_pos hj2]

/-- On a full vector of `2 ^ 32 + k` elements, `k` in the range of `int`,
`push_back` of an object outside the buffer returns with the cells `k .. 2 ^ 31 - 1`
holding `value_type()`. -/
theorem push_back_overwrites [Inhabited T] [element_type T] (v : vector T) (x : T) (k : Nat)
    (hfull : v.m_size = v.m_capacity) (hbuf : (cells v).length = v.m_capacity)
    (hk : v.m_size = 2 ^ 32 + k) (hk31 : k < 2 ^ 31) :
    ∃ r, push_back v (argument.object x) = some ⟨some r, v.m_size + 1, v.m_size * 2⟩ ∧
      r.length = v.m_size * 2 ∧
      ∀ j, k ≤ j → j < 2 ^ 31 → r[j]? = some default := by
  have h0 : v.m_size ≠ 0 := by omega
  obtain ⟨r, hr, hrl, hdef, _⟩ := re_allocate_overwrites v (v.m_size * 2) k (by omega)
    (by omega) hk hk31
  refine ⟨r.set v.m_size x, ?_, by rw [List.length_set]; exact hrl, ?_⟩
  · simp only [push_back, expand_capacity, if_pos hfull, if_neg h0, hr, Option.bind_eq_bind,
      Option.some_bind, argument.read_object, Option.pure_def]
    rw [store_some_of_lt _ _ _ (by omega)]
    rfl
  · intro j hj1 hj2
    rw [List.getElem?_set, if_neg (by omega)]
    exact hdef j hj1 hj2

/-- On a full vector of `2 ^ 32 + k` elements, `k` in the range of `int`, `emplace`
of an object outside the buffer returns with the cells `k .. 2 ^ 31 - 1` holding
`value_type()`. -/
theorem emplace_overwrites [Inhabited T] [element_type T] (v : vector T) (p : Nat) (x : T)
    (k : Nat) (hfull : v.m_size = v.m_capacity) (hbuf : (cells v).length = v.m_capacity)
    (hk : v.m_size = 2 ^ 32 + k) (hk31 : k < 2 ^ 31) :
    ∃ r, emplace v p (argument.object x) = some (⟨some r, v.m_size + 1, v.m_size + 1⟩, p) ∧
      r.length = v.m_size + 1 ∧
      ∀ j, k ≤ j → j < 2 ^ 31 → r[j]? = some default := by
  have hne : v.m_size ≠ 0 := by omega
  obtain ⟨t, r0, hph, _, hl0, _⟩ := emplace_shift_phase_eq v p x (by omega) (by omega)
  obtain ⟨r1, hr1, hl1, hdef, _⟩ := re_allocate_overwrites
    (⟨some r0, v.m_size, v.m_capacity⟩ : vector T) (v.m_size + 1) k
    (by simp only [cells, Option.getD_some]; omega) (by simp) hk hk31
  refine ⟨r1.set v.m_size t, ?_, by rw [List.length_set, hl1], ?_⟩
  · rw [emplace_eq_phases v p (argument.object x) hne, hph]
    simp only [Option.some_bind, if_pos hfull, hr1, vector.begin, Nat.sub_zero]
    rw [store_some_of_lt _ _ _ (by omega)]
    rfl
  · intro j hj1 hj2
    rw [List.getElem?_set, if_neg (by omega)]
    exact hdef j hj1 hj2

/-- For `reserve`, `resize`, `shrink_to_fit`, `expand_capacity` (`push_back`,
`emplace_back`) and `emplace` on a vector with `size <= capacity`, the capacity
passed to `re_allocate` is at least the size of the vector at the call. -/
theorem re_allocate_requests_ge_size (v : vector T) (hsc : v.m_size ≤ v.m_capacity)
    (n c : Nat) :
    (reserve_request v n = some c → v.m_size ≤ c) ∧
    (resize_request v n = some c → v.m_size ≤ c) ∧
    (shrink_to_fit_request v = some c → v.m_size ≤ c) ∧
    (expand_capacity_request v = some c → v.m_size ≤ c) ∧
    (emplace_request v = some c → v.m_size ≤ c) := by
  refine ⟨?_, ?_, ?_, ?_, ?_⟩
  · simp only [reserve_request]
    split_ifs <;> intro h <;> first | exact False.elim h | (injection h with h; omega)
  · simp only [resize_request]
    split_ifs <;> intro h <;> first | exact False.elim h | (injection h with h; omega)
  · simp only [shrink_to_fit_request]
    split_ifs <;> intro h <;> first | exact False.elim h | (injection h with h; omega)
  · simp only [expand_capacity_request]
    split_ifs <;> intro h <;> first | exact False.elim h | (injection h with h; omega)
  · simp only [emplace_request]
    split_ifs <;> intro h <;> first | exact False.elim h | (injection h with h; omega)

/-- With the outcomes of `<`, `>` and `==` at hand, `<=` and `>=` are their
disjunctions. -/
theorem operator_le_ge_eq [LinearOrder T] (A B : vector T) (less greater equal : Bool)
    (hless : operator_lt A B = some less) (hgreater : operator_gt A B = some greater)
    (hequal : operator_eq A B = some equal) :
    operator_le A B = some (less || equal) ∧ operator_ge A B = some (greater || equal) := by
  have h1 : lexicographical_compare A.m_data A.cbegin A.cend B.m_data B.cbegin B.cend
      = some less := hless
  have h2 : lexicographical_compare B.m_data B.cbegin B.cend A.m_data A.cbegin A.cend
      = some greater := hgreater
  constructor
  · simp only [operator_le, h1, Option.some_bind]
    cases less <;> simp [hequal]
  · simp only [operator_ge, h2, Option.some_bind]
    cases greater <;> simp [hequal]

/-- A vector whose capacity equals its size and whose buffer has that many cells
satisfies the buffer invariant. -/
theorem buffer_invariant_of_tight [Inhabited T] (d : List T) (n : Nat) (h : d.length = n) :
    buffer_invariant (⟨some d, n, n⟩ : vector T) := by
  refine ⟨le_refl _, h, ?_⟩
  intro j h1 h2
  exact absurd h2 (by simp only [not_lt]; exact h1)

/-- The copy constructor leaves the buffer invariant on the new vector. -/
theorem copy_ctor_invariant [Inhabited T] [element_type T] (s : vector T) (hs : s.m_size ≤ (cells s).length) :
    ∃ w, copy_ctor s = some w ∧ buffer_invariant w := by
  refine ⟨⟨some (toList s), s.m_size, s.m_size⟩, copy_ctor_eq s hs, ?_⟩
  apply buffer_invariant_of_tight
  simp only [toList, List.length_take]
  omega

/-- The function `push_back` preserves the buffer invariant. -/
theorem push_back_invariant [Inhabited T] [element_type T] (v : vector T) (x : T)
    (h : buffer_invariant v) (hint : v.m_size = v.m_capacity → 2 * v.m_size ≤ 2 ^ 31) :
    ∃ w, push_back v (argument.object x) = some w ∧ buffer_invariant w := by
  obtain ⟨hsc, hbuf, hsp⟩ := h
  have hlen : ((cells v).take v.m_size).length = v.m_size := by
    rw [List.length_take]; omega
  refine ⟨⟨some ((cells v).take v.m_size ++ x ::
      (if v.m_size = v.m_capacity
        then List.replicate (max 1 (2 * v.m_size) - v.m_size - 1) default
        else (cells v).drop (v.m_size + 1))), v.m_size + 1,
      if v.m_size = v.m_capacity then max 1 (2 * v.m_size) else v.m_capacity⟩,
    push_back_eq v x hsc hbuf hint, ?_, ?_, ?_⟩
  · show v.m_size + 1 ≤ (if v.m_size = v.m_capacity then max 1 (2 * v.m_size)
      else v.m_capacity)
    split_ifs <;> omega
  · simp only [cells, Option.getD_some, List.length_append, List.length_cons]
    rw [show (List.take v.m_size (v.m_data.getD [])).length = v.m_size from hlen]
    split_ifs with hfull
    · simp only [List.length_replicate]; omega
    · have : (v.m_data.getD []).length = v.m_capacity := hbuf
      simp only [List.length_drop]; omega
  · intro j h1 h2
    have h1' : v.m_size + 1 ≤ j := h1
    have h2' : j < (if v.m_size = v.m_capacity then max 1 (2 * v.m_size)
      else v.m_capacity) := h2
    show (List.take v.m_size (cells v) ++ x ::
      (if v.m_size = v.m_capacity
        then List.replicate (max 1 (2 * v.m_size) - v.m_size - 1) default
        else (cells v).drop (v.m_size + 1)))[j]? = some default
    rw [List.getElem?_append_right (by omega), hlen]
    obtain ⟨k, rfl⟩ : ∃ k, j = v.m_size + 1 + k := ⟨j - v.m_size - 1, by omega⟩
    rw [show v.m_size + 1 + k - v.m_size = k + 1 by omega, List.getElem?_cons_succ]
    by_cases hfull : v.m_size = v.m_capacity
    · rw [if_pos hfull] at h2' ⊢
      rw [List.getElem?_replicate, if_pos (by omega)]
    · rw [if_neg hfull] at h2' ⊢
      rw [List.getElem?_drop]
      exact hsp _ (by omega) h2'

/-- The function `emplace` at a position up to the end preserves the buffer
invariant. -/
theorem emplace_invariant [Inhabited T] [element_type T] (v : vector T) (p : Nat) (x : T)
    (hp : p ≤ v.m_size) (h : buffer_invariant v)
    (hint : v.m_size = v.m_capacity → v.m_size < 2 ^ 31) :
    ∃ w it, emplace v p (argument.object x) = some (w, it) ∧ buffer_invariant w := by
  obtain ⟨hsc, hbuf, hsp⟩ := h
  by_cases h0 : v.m_size = 0
  · exact ⟨⟨some [x], 1, 1⟩, 0, emplace_eq_of_empty v p x h0,
      buffer_invariant_of_tight [x] 1 rfl⟩
  have hcap : v.m_size + 1 ≤ (if v.m_size = v.m_capacity then v.m_size + 1
      else v.m_capacity) := by
    split_ifs <;> omega
  by_cases hlt : p < v.m_size
  · obtain ⟨r, hr, hrl, hrj⟩ := emplace_eq v p x hlt hsc hbuf hint
    refine ⟨⟨some r, v.m_size + 1, if v.m_size = v.m_capacity then v.m_size + 1
      else v.m_capacity⟩, p, hr, hcap, hrl, ?_⟩
    intro j h1 h2
    have h1' : v.m_size + 1 ≤ j := h1
    have h2' : j < (if v.m_size = v.m_capacity then v.m_size + 1
      else v.m_capacity) := h2
    by_cases hfull : v.m_size = v.m_capacity
    · rw [if_pos hfull] at h2'
      omega
    · rw [if_neg hfull] at h2'
      show r[j]? = some default
      rw [hrj j, if_neg (by omega), if_neg (by omega), if_neg (by omega)]
      exact hsp j (by omega) h2'
  · have hpe : p = v.m_size := by omega
    subst hpe
    by_cases hfull : v.m_size = v.m_capacity
    · obtain ⟨r, hr, hrl⟩ := emplace_eq_at_end v x (by omega) hsc hbuf
      rw [if_pos hfull] at hr hrl
      exact ⟨⟨some r, v.m_size + 1, v.m_size + 1⟩, v.m_size, hr,
        buffer_invariant_of_tight r _ hrl⟩
    · obtain ⟨r, hr, hrl, hrj⟩ := emplace_at_end_spare v x (by omega) (by omega) hbuf
      refine ⟨⟨some r, v.m_size + 1, v.m_capacity⟩, v.m_size, hr, ?_, hrl, ?_⟩
      · show v.m_size + 1 ≤ v.m_capacity
        omega
      · intro j h1 h2
        have h1' : v.m_size + 1 ≤ j := h1
        show r[j]? = some default
        rw [hrj j (by omega)]
        exact hsp j (by omega) h2

/-- The function `pop_back` on a non-empty vector preserves the buffer invariant. -/
theorem pop_back_invariant [Inhabited T] (v : vector T) (hpos : 0 < v.m_size)
    (h : buffer_invariant v) :
    ∃ w, pop_back v = some w ∧ buffer_invariant w := by
  obtain ⟨hsc, hbuf, hsp⟩ := h
  refine ⟨⟨some ((cells v).set (v.m_size - 1) default), v.m_size - 1, v.m_capacity⟩,
    pop_back_eq v hpos (by omega), ?_, ?_, ?_⟩
  · show v.m_size - 1 ≤ v.m_capacity
    omega
  · show ((cells v).set (v.m_size - 1) default).length = v.m_capacity
    rw [List.length_set]; exact hbuf
  · intro j h1 h2
    have h1' : v.m_size - 1 ≤ j := h1
    have h2' : j < v.m_capacity := h2
    show ((cells v).set (v.m_size - 1) default)[j]? = some default
    rw [List.getElem?_set]
    by_cases hj : v.m_size - 1 = j
    · rw [if_pos hj, if_pos (by omega)]
    · rw [if_neg hj]
      exact hsp j (by omega) h2'

/-- The function `clear` preserves the buffer invariant. -/
theorem clear_invariant [Inhabited T] (v : vector T) (h : buffer_invariant v) :
    ∃ w, clear v = some w ∧ buffer_invariant w := by
  obtain ⟨hsc, hbuf, hsp⟩ := h
  obtain ⟨d, hd, hdl, hdj⟩ := clear_eq v (by omega)
  refine ⟨⟨d, 0, v.m_capacity⟩, hd, Nat.zero_le _, ?_, ?_⟩
  · show (d.getD []).length = v.m_capacity
    rw [hdl]; exact hbuf
  · intro j _ h2
    have h2' : j < v.m_capacity := h2
    show (d.getD [])[j]? = some default
    rw [hdj j]
    split_ifs with hj
    · rfl
    · exact hsp j (by omega) h2'

/-- The function `reserve` preserves the buffer invariant. -/
theorem reserve_invariant [Inhabited T] [element_type T] (v : vector T) (n : Nat)
    (h : buffer_invariant v) (hint : v.m_capacity < n → n ≤ 2 ^ 31) :
    ∃ w, reserve v n = some w ∧ buffer_invariant w := by
  by_cases hn : n > v.m_capacity
  · obtain ⟨hsc, hbuf, _⟩ := h
    have hlen : ((cells v).take v.m_size).length = v.m_size := by
      rw [List.length_take]; omega
    refine ⟨⟨some ((cells v).take v.m_size ++ List.replicate (n - v.m_size) default),
      v.m_size, n⟩, ?_, ?_, ?_, ?_⟩
    · simp only [reserve, if_pos hn]
      exact re_allocate_eq v n (by omega) (by omega) (hint hn)
    · show v.m_size ≤ n
      omega
    · show ((cells v).take v.m_size ++ List.replicate (n - v.m_size) default).length = n
      rw [List.length_append, hlen, List.length_replicate]; omega
    · intro j h1 h2
      have h1' : v.m_size ≤ j := h1
      have h2' : j < n := h2
      show ((cells v).take v.m_size ++ List.replicate (n - v.m_size) default)[j]?
        = some default
      rw [List.getElem?_append_right (by omega), hlen, List.getElem?_replicate,
        if_pos (by omega)]
  · exact ⟨v, by simp only [reserve, if_neg hn]; rfl, h⟩

/-- The function `shrink_to_fit` preserves the buffer invariant. -/
theorem shrink_to_fit_invariant [Inhabited T] [element_type T] (v : vector T)
    (h : buffer_invariant v) (hint : v.m_size < v.m_capacity → v.m_size ≤ 2 ^ 31) :
    ∃ w, shrink_to_fit v = some w ∧ buffer_invariant w := by
  by_cases hn : v.m_capacity > v.m_size
  · obtain ⟨hsc, hbuf, _⟩ := h
    refine ⟨⟨some ((cells v).take v.m_size ++
      List.replicate (v.m_size - v.m_size) default), v.m_size, v.m_size⟩, ?_, ?_⟩
    · simp only [shrink_to_fit, if_pos hn]
      exact re_allocate_eq v v.m_size (by omega) (le_refl _) (hint hn)
    · apply buffer_invariant_of_tight
      rw [List.length_append, List.length_take, List.length_replicate]; omega
  · exact ⟨v, by simp only [shrink_to_fit, if_neg hn]; rfl, h⟩

/-- The function `resize` preserves the buffer invariant. -/
theorem resize_invariant [Inhabited T] [element_type T] (v : vector T) (n : Nat)
    (h : buffer_invariant v) (hint : v.m_capacity < n → n ≤ 2 ^ 31) :
    ∃ w, resize v n = some w ∧ buffer_invariant w := by
  obtain ⟨hsc, hbuf, hsp⟩ := h
  rcases Nat.lt_trichotomy n v.m_size with hn | hn | hn
  · obtain ⟨r, hr, hrl, hrj⟩ := resize_shrink_eq v n hn (by omega)
    refine ⟨⟨some r, n, v.m_capacity⟩, hr, ?_, ?_, ?_⟩
    · show n ≤ v.m_capacity
      omega
    · show r.length = v.m_capacity
      rw [hrl]; exact hbuf
    · intro j h1 h2
      have h1' : n ≤ j := h1
      have h2' : j < v.m_capacity := h2
      show r[j]? = some default
      rw [hrj j]
      split_ifs with hj
      · rfl
      · exact hsp j (by omega) h2'
  · refine ⟨v, ?_, hsc, hbuf, hsp⟩
    simp only [resize, if_pos hn.symm]
    rfl
  · have hlen : ((cells v).take v.m_size).length = v.m_size := by
      rw [List.length_take]; omega
    by_cases hc : n > v.m_capacity
    · refine ⟨⟨some ((cells v).take v.m_size ++ List.replicate (n - v.m_size) default),
        n, n⟩, ?_, ?_⟩
      · rw [resize_grow_eq v n hn (by omega) hint, if_pos hc]
      · apply buffer_invariant_of_tight
        rw [List.length_append, hlen, List.length_replicate]; omega
    · refine ⟨⟨v.m_data, n, v.m_capacity⟩, ?_, ?_, hbuf, ?_⟩
      · rw [resize_grow_eq v n hn (by omega) hint, if_neg hc]
      · show n ≤ v.m_capacity
        omega
      · intro j h1 h2
        have h1' : n ≤ j := h1
        exact hsp j (by omega) h2

end vector

end open_stl

/-! ## The claims -/

namespace open_stl

namespace vector

variable {T : Type}

/-- C1: `at(i)` throws `out_of_range` exactly when `i >= size()` (so it does for the
index `SIZE_MAX` that `at(-1)` passes); for `i < size()` it does not throw and
returns the cell that `operator[]` returns, which is the live element `i` whenever
the live elements lie in the buffer. `at` computes a value only: the vector is the
same after the call. -/
theorem at_spec (v : vector T) (i : Nat) :
    (v.at i = Except.error exception.out_of_range ↔ v.m_size ≤ i) ∧
    (i < v.m_size → v.at i = Except.ok (v.subscript i)) ∧
    (i < v.m_size → v.m_size ≤ (cells v).length →
      ∃ x, v.at i = Except.ok (some x) ∧ v.subscript i = some x ∧ (toList v)[i]? = some x) ∧
    (v.m_size ≤ SIZE_MAX → v.at SIZE_MAX = Except.error exception.out_of_range) := by
  refine ⟨?_, ?_, ?_, ?_⟩
  · unfold vector.at
    by_cases h : v.m_size ≤ i
    · simp [h]
    · simp [h]
  · intro h
    have : ¬ (v.m_size ≤ i) := by omega
    simp [vector.at, subscript, this]
  · intro h hbuf
    have hn : ¬ (v.m_size ≤ i) := by omega
    have hi : i < (v.m_data.getD []).length := by
      simp only [cells] at hbuf; omega
    refine ⟨(v.m_data.getD [])[i], ?_, ?_, ?_⟩
    · simp [vector.at, hn, load_eq_getElem?, List.getElem?_eq_getElem hi]
    · simp [subscript, load_eq_getElem?, List.getElem?_eq_getElem hi]
    · simp [toList, cells, List.getElem?_take, h, List.getElem?_eq_getElem hi]
  · intro h
    simp [vector.at, h]

/-- Witness for C1 on the vector `{1, 2, 3}` at index 1. -/
theorem at_spec_witness :
    (⟨some [1, 2, 3], 3, 3⟩ : vector Nat).at 1 = Except.ok (some 2) ∧
    (⟨some [1, 2, 3], 3, 3⟩ : vector Nat).at 3 = Except.error exception.out_of_range := by
  have h := at_spec (⟨some [1, 2, 3], 3, 3⟩ : vector Nat) 1
  have h3 := at_spec (⟨some [1, 2, 3], 3, 3⟩ : vector Nat) 3
  refine ⟨?_, h3.1.mpr (le_refl _)⟩
  rw [h.2.1 (by decide)]
  rfl

/-- C2, evaluated at `v.push_back(v[0])` on the vector built from `{1, 2, 3}`: the
vector is full, `expand_capacity()` releases its buffer, and the reference `v[0]` is
read after that, so the call has no defined outcome; the same call with an object
outside the buffer holding 1 gives `{1, 2, 3, 1}`. -/
theorem push_back_alias_eval :
    ((initializer_list_ctor [1, 2, 3] : Option (vector Nat)).bind fun v =>
        some ((v.m_size, v.m_capacity, v.subscript 0), expand_capacity_releases v,
          (push_back v (argument.element 0)).isSome,
          (push_back v (argument.object 1)).map toList))
      = some ((3, 3, some 1), true, false, some [1, 2, 3, 1]) := by
  decide

/-- What `push_back` does outside its two defects: for an argument that is an object
outside the buffer, on a vector with `size <= capacity` whose buffer has `capacity`
cells and whose reallocation stays in the range of the `int` counter, `push_back(x)`
returns with size one larger, `x` at index `old size` and every earlier element as
before. -/
theorem push_back_spec [Inhabited T] [element_type T] (v : vector T) (x : T)
    (hsc : v.m_size ≤ v.m_capacity) (hbuf : (cells v).length = v.m_capacity)
    (hint : v.m_size = v.m_capacity → 2 * v.m_size ≤ 2 ^ 31) :
    ∃ v', push_back v (argument.object x) = some v' ∧
      v'.m_size = v.m_size + 1 ∧
      v'.subscript v.m_size = some x ∧
      (∀ i, i < v.m_size → v'.subscript i = v.subscript i) ∧
      toList v' = toList v ++ [x] := by
  have hlen : ((cells v).take v.m_size).length = v.m_size := by
    rw [List.length_take]; omega
  refine ⟨_, push_back_eq v x hsc hbuf hint, rfl, ?_, ?_, ?_⟩
  · simp only [subscript, load]
    rw [List.getElem?_append_right (by omega), hlen]
    simp
  · intro i hi
    have hi2 : i < (cells v).length := by omega
    simp only [subscript, load_eq_getElem?, Option.getD_some]
    rw [List.getElem?_append_left (by omega), List.getElem?_take_of_lt hi]
    rfl
  · simp only [toList, cells, Option.getD_some]
    rw [List.take_append_eq_append_take]
    simp only [cells] at hlen
    simp [hlen]

/-- C3: on a vector with `size <= capacity` whose buffer has `capacity` cells,
`push_back(x)` returns; a full vector ends with capacity `max(1, 2 * old size)` and
a vector with spare room keeps its capacity. -/
theorem push_back_capacity [Inhabited T] [element_type T] (v : vector T) (x : T)
    (hsc : v.m_size ≤ v.m_capacity) (hbuf : (cells v).length = v.m_capacity) :
    ∃ v', push_back v (argument.object x) = some v' ∧
      (v.m_size = v.m_capacity → v'.m_capacity = max 1 (2 * v.m_size)) ∧
      (v.m_size < v.m_capacity → v'.m_capacity = v.m_capacity) := by
  obtain ⟨w, hw, _, hcap, _, _⟩ := push_back_step v x hsc hbuf
  refine ⟨w, hw, ?_, ?_⟩
  · intro h
    rw [hcap, if_pos h]
  · intro h
    have : v.m_size ≠ v.m_capacity := by omega
    rw [hcap, if_neg this]

/-- Witness for C3: the empty vector, whose capacity grows from 0 to 1. -/
theorem push_back_capacity_witness :
    (0 ≤ 0 ∧ (cells (default_ctor : vector Nat)).length = 0) ∧
    ∃ v', push_back (default_ctor : vector Nat) (argument.object 7) = some v' ∧
      ((default_ctor : vector Nat).m_size = (default_ctor : vector Nat).m_capacity →
        v'.m_capacity = max 1 (2 * (default_ctor : vector Nat).m_size)) ∧
      ((default_ctor : vector Nat).m_size < (default_ctor : vector Nat).m_capacity →
        v'.m_capacity = (default_ctor : vector Nat).m_capacity) :=
  ⟨⟨by decide, by decide⟩,
    push_back_capacity (default_ctor : vector Nat) 7 (by decide) (by decide)⟩

/-- C4: for `p < size()` on a vector whose live elements lie in its buffer,
`erase(begin() + p)` returns; the contents are the old contents without element `p`
(order kept), the size is one less, the capacity is the same, and the returned
iterator is at index `p`: it dereferences to the old element `p + 1` when there was
one and equals `end()` when `p` was the last index. -/
theorem erase_spec [Inhabited T] (v : vector T) (p : Nat) (hp : p < v.m_size)
    (hbuf : v.m_size ≤ (cells v).length) :
    ∃ v' it, erase v p = some (v', it) ∧
      toList v' = (toList v).eraseIdx p ∧
      v'.m_size = v.m_size - 1 ∧
      v'.m_capacity = v.m_capacity ∧
      it = p ∧
      (p + 1 < v.m_size →
        v'.subscript it = v.subscript (p + 1) ∧ ∃ x, v'.subscript it = some x) ∧
      (p + 1 = v.m_size → it = v'.end) := by
  obtain ⟨r, hr, hrl, hrj⟩ := erase_eq v p hp hbuf
  refine ⟨_, _, hr, ?_, rfl, rfl, rfl, ?_, ?_⟩
  · apply List.ext_getElem?
    intro j
    simp only [toList, cells, Option.getD_some, List.getElem?_take, List.getElem?_eraseIdx]
    simp only [cells] at hrj
    rw [hrj j]
    split_ifs <;> first | rfl | omega
  · intro h
    have h1 : p ≤ p ∧ p + 1 < v.m_size := ⟨le_refl _, h⟩
    have h2 : p + 1 < (cells v).length := by omega
    simp only [subscript, load_eq_getElem?, Option.getD_some]
    rw [hrj p, if_pos h1]
    exact ⟨rfl, (cells v)[p + 1], List.getElem?_eq_getElem h2⟩
  · intro h
    simp only [vector.«end»]
    omega

/-- Witness for C4: erasing the middle element of `{1, 2, 3}`. -/
theorem erase_spec_witness :
    (1 < 3 ∧ 3 ≤ (cells (⟨some [1, 2, 3], 3, 3⟩ : vector Nat)).length) ∧
    ∃ v' it, erase (⟨some [1, 2, 3], 3, 3⟩ : vector Nat) 1 = some (v', it) ∧
      toList v' = (toList (⟨some [1, 2, 3], 3, 3⟩ : vector Nat)).eraseIdx 1 ∧
      v'.m_size = 3 - 1 ∧
      v'.m_capacity = 3 ∧
      it = 1 ∧
      (1 + 1 < 3 →
        v'.subscript it = (⟨some [1, 2, 3], 3, 3⟩ : vector Nat).subscript (1 + 1) ∧
          ∃ x, v'.subscript it = some x) ∧
      (1 + 1 = 3 → it = v'.end) :=
  ⟨⟨by decide, by decide⟩,
    erase_spec (⟨some [1, 2, 3], 3, 3⟩ : vector Nat) 1 (by decide) (by decide)⟩

/-- C5, evaluated at an empty range on a vector whose elements are vectors: in
`v = {{1}, {2}}`, `v.erase(v.begin(), v.begin())` assigns each element to itself
with `operator=(vector&&)`, which leaves it empty: the size is still 2 and both
elements have lost their contents; the same call on the `int` vector `{1, 2}`
changes nothing. -/
theorem erase_range_self_move_eval :
    ((erase_range (⟨some [⟨some [1], 1, 1⟩, ⟨some [2], 1, 1⟩], 2, 2⟩ : vector (vector Nat))
        0 0).map fun r => (r.1.m_size, (toList r.1).map toList, r.2))
      = some (2, [[], []], 0) ∧
    (erase_range (⟨some [1, 2], 2, 2⟩ : vector Nat) 0 0).map (fun r => (toList r.1, r.2))
      = some ([1, 2], 0) := by
  decide

/-- What `erase(first, last)` does apart from the self-assignment of an empty range:
for `f <= l <= size()` on a vector whose live elements lie in its buffer, and for
`f == l` with elements that keep their value when assigned to themselves,
`erase(begin() + f, begin() + l)` returns; the contents are `old[0..f)` followed by
`old[l..size)`, the size drops by `l - f`, the capacity is the same and the returned
iterator is at index `f`, which is `end()` when `l` was the old size; erasing
`[begin(), end())` leaves the vector empty and `f == l` leaves the vector as it
was. -/
theorem erase_range_spec [element_type T] (v : vector T) (f l : Nat) (hfl : f ≤ l)
    (hl : l ≤ v.m_size) (hbuf : v.m_size ≤ (cells v).length)
    (hself : f = l → ∀ x : T, element_type.self_move_assign x = x) :
    ∃ v' it, erase_range v f l = some (v', it) ∧
      toList v' = (toList v).take f ++ (toList v).drop l ∧
      v'.m_size = v.m_size - (l - f) ∧
      v'.m_capacity = v.m_capacity ∧
      it = f ∧
      (l = v.m_size → it = v'.end) ∧
      (f = 0 → l = v.m_size → v'.empty = true ∧ toList v' = []) ∧
      (f = l → v' = v) := by
  obtain ⟨d, hd, hsome, hdl, hdj⟩ := erase_range_eq_of_copy v f l hfl hl hbuf hself
  have hlist : toList (⟨d, v.m_size - (l - f), v.m_capacity⟩ : vector T)
      = (toList v).take f ++ (toList v).drop l := by
    apply List.ext_getElem?
    intro j
    have hmin : min f (min v.m_size (cells v).length) = f := by omega
    simp only [toList, List.getElem?_take, List.getElem?_append, List.length_take,
      List.getElem?_drop, hmin]
    have : (cells (⟨d, v.m_size - (l - f), v.m_capacity⟩ : vector T)) = d.getD [] := rfl
    rw [this, hdj j]
    split_ifs <;> first | rfl | omega | (congr 1; omega)
  refine ⟨_, _, hd, hlist, rfl, rfl, rfl, ?_, ?_, ?_⟩
  · intro h
    simp only [vector.«end»]
    omega
  · intro h0 hsz
    have hz : v.m_size - (l - f) = 0 := by omega
    refine ⟨by simp [vector.empty, hz], ?_⟩
    simp [toList, hz]
  · intro hEq
    subst hEq
    have hcells : d.getD [] = cells v := by
      apply List.ext_getElem?
      intro j
      rw [hdj j]
      simp
    have hdd : d = v.m_data := by
      cases hdv : d with
      | none =>
        cases hvv : v.m_data with
        | none => rfl
        | some cs => rw [hdv, hvv] at hsome; simp at hsome
      | some r =>
        cases hvv : v.m_data with
        | none => rw [hdv, hvv] at hsome; simp at hsome
        | some cs =>
          simp only [hdv, hvv, cells, Option.getD_some] at hcells
          rw [hcells]
    rw [hdd, Nat.sub_self, Nat.sub_zero]

/-- The scenario of the specification: erasing `[begin() + 1, begin() + 3)` from
`{1, 2, 3, 4, 5}`. -/
theorem erase_range_spec_witness :
    (1 ≤ 3 ∧ 3 ≤ 5 ∧ 5 ≤ (cells (⟨some [1, 2, 3, 4, 5], 5, 5⟩ : vector Nat)).length) ∧
    ∃ v' it, erase_range (⟨some [1, 2, 3, 4, 5], 5, 5⟩ : vector Nat) 1 3 = some (v', it) ∧
      toList v' = (toList (⟨some [1, 2, 3, 4, 5], 5, 5⟩ : vector Nat)).take 1 ++
        (toList (⟨some [1, 2, 3, 4, 5], 5, 5⟩ : vector Nat)).drop 3 ∧
      v'.m_size = 5 - (3 - 1) ∧
      v'.m_capacity = 5 ∧
      it = 1 ∧
      (3 = 5 → it = v'.end) ∧
      (1 = 0 → 3 = 5 → v'.empty = true ∧ toList v' = []) ∧
      (1 = 3 → v' = (⟨some [1, 2, 3, 4, 5], 5, 5⟩ : vector Nat)) :=
  ⟨⟨by decide, by decide, by decide⟩,
    erase_range_spec (⟨some [1, 2, 3, 4, 5], 5, 5⟩ : vector Nat) 1 3 (by decide) (by decide)
      (by decide) (fun _ _ => rfl)⟩

/-- C6, evaluated at `v.emplace(v.begin() + 1, v[2])` on the vector built from
`{1, 2, 3}`: the reference `v[2]` is read after the shift loop has moved 2 into cell
2, so the vector ends as `{1, 2, 2, 3}` and the returned iterator dereferences to 2,
where `v[2]` was 3 at the call; the same call with an object outside the buffer
holding 3 gives `{1, 3, 2, 3}`. -/
theorem emplace_alias_eval :
    ((initializer_list_ctor [1, 2, 3] : Option (vector Nat)).bind fun v =>
        some (v.subscript 2,
          (emplace v (v.begin + 1) (argument.element 2)).map
            (fun r => (toList r.1, r.1.subscript r.2)),
          (emplace v (v.begin + 1) (argument.object 3)).map
            (fun r => (toList r.1, r.1.subscript r.2))))
      = some (some 3, some ([1, 2, 2, 3], some 2), some ([1, 3, 2, 3], some 3)) := by
  decide

/-- What `emplace` does outside its defects: for an argument that is an object
outside the buffer and `p < size()`, on a vector with `size <= capacity` whose
buffer has `capacity` cells and whose reallocation stays in the range of the `int`
counter, `emplace(begin() + p, x)` returns; the contents are `old[0..p)`, then `x`,
then `old[p..size)`, the size is one larger, and the returned iterator is at index
`p` and dereferences to `x`, whether or not the buffer is reallocated. -/
theorem emplace_spec [Inhabited T] [element_type T] (v : vector T) (p : Nat) (x : T)
    (hp : p < v.m_size) (hsc : v.m_size ≤ v.m_capacity)
    (hbuf : (cells v).length = v.m_capacity)
    (hint : v.m_size = v.m_capacity → v.m_size < 2 ^ 31) :
    ∃ v' it, emplace v p (argument.object x) = some (v', it) ∧
      toList v' = (toList v).take p ++ x :: (toList v).drop p ∧
      v'.m_size = v.m_size + 1 ∧
      it = p ∧
      v'.subscript it = some x := by
  obtain ⟨r, hr, hrl, hrj⟩ := emplace_eq v p x hp hsc hbuf hint
  refine ⟨_, _, hr, ?_, rfl, rfl, ?_⟩
  · apply List.ext_getElem?
    intro j
    have hmin : min p (min v.m_size (cells v).length) = p := by omega
    simp only [toList, cells, Option.getD_some, List.getElem?_take, List.getElem?_append,
      List.length_take]
    simp only [cells] at hrj hmin
    rw [hrj j, hmin]
    by_cases hjp : j < p
    · split_ifs <;> first | rfl | omega
    · by_cases hje : j = p
      · subst hje
        have : j < v.m_size + 1 := by omega
        simp [this]
      · obtain ⟨k, rfl⟩ : ∃ k, j = p + (k + 1) := ⟨j - p - 1, by omega⟩
        have e1 : p + (k + 1) - p = k + 1 := by omega
        have e2 : p + (k + 1) - 1 = p + k := by omega
        rw [e1, e2, List.getElem?_cons_succ, List.getElem?_drop, List.getElem?_take]
        split_ifs <;> first | rfl | omega
  · simp only [subscript, load_eq_getElem?, Option.getD_some]
    rw [hrj p]
    simp

/-- The full vector `{1, 2, 3}`, so that the call reallocates. -/
theorem emplace_spec_witness :
    (1 < 3 ∧ 3 ≤ 3 ∧ (cells (⟨some [1, 2, 3], 3, 3⟩ : vector Nat)).length = 3) ∧
    ∃ v' it, emplace (⟨some [1, 2, 3], 3, 3⟩ : vector Nat) 1 (argument.object 7) = some (v', it) ∧
      toList v' = (toList (⟨some [1, 2, 3], 3, 3⟩ : vector Nat)).take 1 ++
        7 :: (toList (⟨some [1, 2, 3], 3, 3⟩ : vector Nat)).drop 1 ∧
      v'.m_size = 3 + 1 ∧
      it = 1 ∧
      v'.subscript it = some 7 :=
  ⟨⟨by decide, by decide, by decide⟩,
    emplace_spec (⟨some [1, 2, 3], 3, 3⟩ : vector Nat) 1 7 (by decide) (by decide) (by decide)
      (fun _ => by decide)⟩

/-- C7, evaluated at `position == end()`: on the vector built from `{1, 2, 3}`,
`emplace(end(), 7)` yields the contents `{1, 2, 7, 3}`, and the returned iterator,
at index 3, dereferences to the old last element 3: the new value is stored over
the last element and the saved last element is appended after it. -/
theorem emplace_at_end_eval :
    ((initializer_list_ctor [1, 2, 3] : Option (vector Nat)).bind
        fun v => emplace v v.end (argument.object 7))
      = some ((⟨some [1, 2, 7, 3], 4, 4⟩ : vector Nat), 3) ∧
    toList (⟨some [1, 2, 7, 3], 4, 4⟩ : vector Nat) = [1, 2, 7, 3] ∧
    (⟨some [1, 2, 7, 3], 4, 4⟩ : vector Nat).subscript 3 = some 3 := by
  decide

/-- C8: on a vector of size 0, whatever its capacity, `emplace(begin(), x)` returns
with size 1, capacity 1 and `v[0] == x`; the returned iterator is `begin()` and
dereferences to `x`. -/
theorem emplace_empty_spec [Inhabited T] [element_type T] (v : vector T) (x : T)
    (h0 : v.m_size = 0) :
    ∃ v' it, emplace v v.begin (argument.object x) = some (v', it) ∧
      v'.m_size = 1 ∧
      v'.m_capacity = 1 ∧
      v'.subscript 0 = some x ∧
      it = v'.begin ∧
      v'.subscript it = some x :=
  ⟨_, _, emplace_eq_of_empty v v.begin x h0, rfl, rfl, rfl, rfl, rfl⟩

/-- Witness for C8: an empty vector that still has capacity 3. -/
theorem emplace_empty_spec_witness :
    (⟨some [0, 0, 0], 0, 3⟩ : vector Nat).m_size = 0 ∧
    ∃ v' it, emplace (⟨some [0, 0, 0], 0, 3⟩ : vector Nat)
        (⟨some [0, 0, 0], 0, 3⟩ : vector Nat).begin (argument.object 42) = some (v', it) ∧
      v'.m_size = 1 ∧
      v'.m_capacity = 1 ∧
      v'.subscript 0 = some 42 ∧
      it = v'.begin ∧
      v'.subscript it = some 42 :=
  ⟨by decide, emplace_empty_spec (⟨some [0, 0, 0], 0, 3⟩ : vector Nat) 42 (by decide)⟩

/-- C9, evaluated after an `erase`: the vector built from `{1, 2, 3}` has, after
`erase(begin())`, size 2 and capacity 3 with the old last element still in cell 2;
`resize(3)` then only sets the size, so element 2 is 3 and not the default value
0. -/
theorem resize_after_erase_eval :
    ((initializer_list_ctor [1, 2, 3] : Option (vector Nat)).bind
        fun v => (erase v v.begin).bind fun r => resize r.1 3)
      = some (⟨some [2, 3, 3], 3, 3⟩ : vector Nat) ∧
    (⟨some [2, 3, 3], 3, 3⟩ : vector Nat).subscript 2 = some 3 ∧
    (default : Nat) = 0 := by
  decide

/-- C10: for `n <= size()` on a vector whose live elements lie in its buffer,
`resize(n)` returns with size `n`, the same capacity and the same number of buffer
cells (no reallocation), and the elements below `n` as they were; for
`n == size()` the vector is the same as before. -/
theorem resize_shrink_spec [Inhabited T] [element_type T] (v : vector T) (n : Nat) (hn : n ≤ v.m_size)
    (hbuf : v.m_size ≤ (cells v).length) :
    ∃ v', resize v n = some v' ∧
      v'.m_size = n ∧
      v'.m_capacity = v.m_capacity ∧
      (cells v').length = (cells v).length ∧
      (∀ i, i < n → v'.subscript i = v.subscript i) ∧
      toList v' = (toList v).take n ∧
      (n = v.m_size → v' = v) := by
  by_cases he : n = v.m_size
  · subst he
    refine ⟨v, by simp [resize], rfl, rfl, rfl, fun _ _ => rfl, ?_, fun _ => rfl⟩
    simp [toList]
  · have hlt : n < v.m_size := by omega
    obtain ⟨r, hr, hrl, hrj⟩ := resize_shrink_eq v n hlt hbuf
    refine ⟨_, hr, rfl, rfl, by simpa [cells] using hrl, ?_, ?_, fun h => absurd h he⟩
    · intro i hi
      simp only [subscript, load_eq_getElem?, Option.getD_some]
      rw [hrj i]
      have : ¬ (n ≤ i ∧ i < v.m_size) := by omega
      simp [this, cells]
    · apply List.ext_getElem?
      intro j
      simp only [toList, cells, Option.getD_some, List.getElem?_take]
      simp only [cells] at hrj
      rw [hrj j]
      split_ifs <;> first | rfl | omega

/-- Witness for C10: shrinking `{1, 2, 3}` to size 2. -/
theorem resize_shrink_spec_witness :
    (2 ≤ 3 ∧ 3 ≤ (cells (⟨some [1, 2, 3], 3, 3⟩ : vector Nat)).length) ∧
    ∃ v', resize (⟨some [1, 2, 3], 3, 3⟩ : vector Nat) 2 = some v' ∧
      v'.m_size = 2 ∧
      v'.m_capacity = 3 ∧
      (cells v').length = (cells (⟨some [1, 2, 3], 3, 3⟩ : vector Nat)).length ∧
      (∀ i, i < 2 → v'.subscript i = (⟨some [1, 2, 3], 3, 3⟩ : vector Nat).subscript i) ∧
      toList v' = (toList (⟨some [1, 2, 3], 3, 3⟩ : vector Nat)).take 2 ∧
      (2 = 3 → v' = (⟨some [1, 2, 3], 3, 3⟩ : vector Nat)) :=
  ⟨⟨by decide, by decide⟩,
    resize_shrink_spec (⟨some [1, 2, 3], 3, 3⟩ : vector Nat) 2 (by decide) (by decide)⟩

/-- C11, evaluated on a vector of `2 ^ 32 + 5` elements, all 1, built by
`vector(count, value)`: `reserve(2 ^ 32 + 6)` returns with the size as before and the
capacity `2 ^ 32 + 6`, element 4 is still 1, and element 5, which was 1, is 0: the
`int` counter of the fill loop in `re_allocate` starts at 5. -/
theorem reserve_int_counter_eval :
    ∃ v w, (fill_ctor (2 ^ 32 + 5) 1 : Option (vector Nat)) = some v ∧
      v.subscript 5 = some 1 ∧
      reserve v (2 ^ 32 + 6) = some w ∧
      w.m_size = v.m_size ∧ w.m_capacity = 2 ^ 32 + 6 ∧
      w.subscript 4 = some 1 ∧ w.subscript 5 = some 0 := by
  obtain ⟨r, hr, _, hdef, hkeep⟩ := re_allocate_overwrites
    (⟨some (List.replicate (2 ^ 32 + 5) 1), 2 ^ 32 + 5, 2 ^ 32 + 5⟩ : vector Nat)
    (2 ^ 32 + 6) 5
    (by simp only [cells, Option.getD_some, List.length_replicate]; exact le_refl _)
    (by show 2 ^ 32 + 5 ≤ 2 ^ 32 + 6; omega) rfl (by omega)
  refine ⟨⟨some (List.replicate (2 ^ 32 + 5) 1), 2 ^ 32 + 5, 2 ^ 32 + 5⟩,
    ⟨some r, 2 ^ 32 + 5, 2 ^ 32 + 6⟩, fill_ctor_eq _ _, ?_, ?_, rfl, rfl, ?_, ?_⟩
  · simp only [subscript, load]
    rw [List.getElem?_replicate, if_pos (by omega)]
  · simp only [reserve]
    rw [if_pos (by show 2 ^ 32 + 6 > 2 ^ 32 + 5; omega)]
    exact hr
  · simp only [subscript, load]
    rw [hkeep 4 (by omega)]
    simp only [cells, Option.getD_some]
    rw [List.getElem?_replicate, if_pos (by omega)]
  · simp only [subscript, load]
    rw [hdef 5 (by omega) (by omega)]
    rfl

/-- What `reserve` does outside the defect of the `int` counter: on a vector with
`size <= capacity` whose live elements lie in its buffer, for `n` up to `2 ^ 31`
when it exceeds the capacity, `reserve(n)` returns; the capacity is `n` when `n`
exceeds the old capacity and the old capacity otherwise, the size and the elements
are as before, and a second `reserve(n)` gives the state the first one gave. -/
theorem reserve_spec [Inhabited T] [element_type T] (v : vector T) (n : Nat)
    (hsc : v.m_size ≤ v.m_capacity) (hbuf : v.m_size ≤ (cells v).length)
    (hint : v.m_capacity < n → n ≤ 2 ^ 31) :
    ∃ v', reserve v n = some v' ∧
      (v.m_capacity < n → v'.m_capacity = n) ∧
      (n ≤ v.m_capacity → v'.m_capacity = v.m_capacity) ∧
      v'.m_size = v.m_size ∧
      (∀ i, i < v.m_size → v'.subscript i = v.subscript i) ∧
      toList v' = toList v ∧
      reserve v' n = some v' := by
  by_cases hn : v.m_capacity < n
  · have hre := re_allocate_eq v n hbuf (by omega) (hint hn)
    have hgt : n > v.m_capacity := hn
    refine ⟨⟨some ((cells v).take v.m_size ++ List.replicate (n - v.m_size) default),
        v.m_size, n⟩, by simp only [reserve, hgt, if_true]; exact hre, fun _ => rfl,
      fun h => by omega, rfl, ?_, ?_, by simp [reserve]⟩
    · intro i hi
      simp only [subscript, load_eq_getElem?, Option.getD_some]
      rw [List.getElem?_append_left (by rw [List.length_take]; omega),
        List.getElem?_take_of_lt hi]
      rfl
    · simp only [toList, cells, Option.getD_some]
      rw [List.take_append_eq_append_take, List.take_take]
      simp only [cells] at hbuf
      simp [hbuf]
  · have hle : ¬ n > v.m_capacity := hn
    exact ⟨v, by simp [reserve, hle], fun h => absurd h hn, fun _ => rfl, rfl,
      fun _ _ => rfl, rfl, by simp [reserve, hle]⟩

/-- Reserving 5 cells for the full vector `{1, 2, 3}`. -/
theorem reserve_spec_witness :
    (3 ≤ 3 ∧ 3 ≤ (cells (⟨some [1, 2, 3], 3, 3⟩ : vector Nat)).length) ∧
    ∃ v', reserve (⟨some [1, 2, 3], 3, 3⟩ : vector Nat) 5 = some v' ∧
      (3 < 5 → v'.m_capacity = 5) ∧
      (5 ≤ 3 → v'.m_capacity = 3) ∧
      v'.m_size = 3 ∧
      (∀ i, i < 3 → v'.subscript i = (⟨some [1, 2, 3], 3, 3⟩ : vector Nat).subscript i) ∧
      toList v' = toList (⟨some [1, 2, 3], 3, 3⟩ : vector Nat) ∧
      reserve v' 5 = some v' :=
  ⟨⟨by decide, by decide⟩,
    reserve_spec (⟨some [1, 2, 3], 3, 3⟩ : vector Nat) 5 (by decide) (by decide)
      (fun _ => by decide)⟩

/-- C12, evaluated on a vector of `2 ^ 32 + 5` elements, all 1, in a buffer of
`2 ^ 32 + 6` cells (built by `vector(count, value)` and `pop_back()`):
`shrink_to_fit()` returns with the size as before and the capacity equal to it,
element 4 is still 1, and element 5, which was 1, is 0: the `int` counter of the
fill loop in `re_allocate` starts at 5. -/
theorem shrink_to_fit_int_counter_eval :
    ∃ v w, ((fill_ctor (2 ^ 32 + 6) 1 : Option (vector Nat)).bind pop_back) = some v ∧
      v.m_size = 2 ^ 32 + 5 ∧ v.m_capacity = 2 ^ 32 + 6 ∧
      v.subscript 5 = some 1 ∧
      shrink_to_fit v = some w ∧
      w.m_size = v.m_size ∧ w.m_capacity = w.m_size ∧
      w.subscript 4 = some 1 ∧ w.subscript 5 = some 0 := by
  have hpop := pop_back_eq
    (⟨some (List.replicate (2 ^ 32 + 6) 1), 2 ^ 32 + 6, 2 ^ 32 + 6⟩ : vector Nat)
    (by show 0 < 2 ^ 32 + 6; omega)
    (by simp only [cells, Option.getD_some, List.length_replicate]; exact le_refl _)
  simp only [cells, Option.getD_some] at hpop
  obtain ⟨r, hr, _, hdef, hkeep⟩ := re_allocate_overwrites
    (⟨some ((List.replicate (2 ^ 32 + 6) (1 : Nat)).set (2 ^ 32 + 6 - 1) default),
      2 ^ 32 + 6 - 1, 2 ^ 32 + 6⟩ : vector Nat)
    (2 ^ 32 + 6 - 1) 5
    (by simp only [cells, Option.getD_some, List.length_set, List.length_replicate]; omega)
    (le_refl _) (by show 2 ^ 32 + 6 - 1 = 2 ^ 32 + 5; omega) (by omega)
  refine ⟨⟨some ((List.replicate (2 ^ 32 + 6) (1 : Nat)).set (2 ^ 32 + 6 - 1) default),
      2 ^ 32 + 6 - 1, 2 ^ 32 + 6⟩, ⟨some r, 2 ^ 32 + 6 - 1, 2 ^ 32 + 6 - 1⟩,
    ?_, ?_, rfl, ?_, ?_, rfl, rfl, ?_, ?_⟩
  · rw [fill_ctor_eq, Option.some_bind]
    exact hpop
  · show 2 ^ 32 + 6 - 1 = 2 ^ 32 + 5
    omega
  · simp only [subscript, load]
    rw [List.getElem?_set, if_neg (by omega), List.getElem?_replicate, if_pos (by omega)]
  · simp only [shrink_to_fit]
    rw [if_pos (by show 2 ^ 32 + 6 > 2 ^ 32 + 6 - 1; omega)]
    exact hr
  · simp only [subscript, load]
    rw [hkeep 4 (by omega)]
    simp only [cells, Option.getD_some]
    rw [List.getElem?_set, if_neg (by omega), List.getElem?_replicate, if_pos (by omega)]
  · simp only [subscript, load]
    rw [hdef 5 (by omega) (by omega)]
    rfl

/-- What `shrink_to_fit` does outside the defect of the `int` counter: on a vector
with `size <= capacity` whose live elements lie in its buffer, of size up to
`2 ^ 31` when it has spare room, `shrink_to_fit()` returns with the capacity equal
to the size, the size and the elements as before, and a second `shrink_to_fit()`
returns the same vector. -/
theorem shrink_to_fit_spec [Inhabited T] [element_type T] (v : vector T)
    (hsc : v.m_size ≤ v.m_capacity) (hbuf : v.m_size ≤ (cells v).length)
    (hint : v.m_size < v.m_capacity → v.m_size ≤ 2 ^ 31) :
    ∃ v', shrink_to_fit v = some v' ∧
      v'.m_capacity = v'.m_size ∧
      v'.m_size = v.m_size ∧
      (∀ i, i < v.m_size → v'.subscript i = v.subscript i) ∧
      toList v' = toList v ∧
      shrink_to_fit v' = some v' := by
  by_cases hc : v.m_capacity > v.m_size
  · have hre := re_allocate_eq v v.m_size hbuf (le_refl _) (hint hc)
    simp only [Nat.sub_self, List.replicate_zero, List.append_nil] at hre
    refine ⟨⟨some ((cells v).take v.m_size), v.m_size, v.m_size⟩,
      by simp only [shrink_to_fit, hc, if_true]; exact hre, rfl, rfl, ?_, ?_,
      by simp [shrink_to_fit]⟩
    · intro i hi
      simp only [subscript, load_eq_getElem?, Option.getD_some]
      rw [List.getElem?_take_of_lt hi]
      rfl
    · simp [toList, cells]
  · have heq : v.m_capacity = v.m_size := by omega
    exact ⟨v, by simp [shrink_to_fit, hc], heq, rfl, fun _ _ => rfl, rfl,
      by simp [shrink_to_fit, hc]⟩

/-- A vector of size 2 in a buffer of 3 cells. -/
theorem shrink_to_fit_spec_witness :
    (2 ≤ 3 ∧ 2 ≤ (cells (⟨some [1, 2, 0], 2, 3⟩ : vector Nat)).length) ∧
    ∃ v', shrink_to_fit (⟨some [1, 2, 0], 2, 3⟩ : vector Nat) = some v' ∧
      v'.m_capacity = v'.m_size ∧
      v'.m_size = 2 ∧
      (∀ i, i < 2 → v'.subscript i = (⟨some [1, 2, 0], 2, 3⟩ : vector Nat).subscript i) ∧
      toList v' = toList (⟨some [1, 2, 0], 2, 3⟩ : vector Nat) ∧
      shrink_to_fit v' = some v' :=
  ⟨⟨by decide, by decide⟩,
    shrink_to_fit_spec (⟨some [1, 2, 0], 2, 3⟩ : vector Nat) (by decide) (by decide)
      (fun _ => by decide)⟩

/-- C13, evaluated at `emplace` on an empty vector that has capacity: the vector
built from `{1, 2, 3}` has capacity 3 after `clear()`, and `emplace(begin(), 42)`
then reallocates to one cell, so the capacity afterwards is 1, below the capacity
before the call. -/
theorem emplace_after_clear_eval :
    ((initializer_list_ctor [1, 2, 3] : Option (vector Nat)).bind fun v =>
        (clear v).bind fun w =>
          (emplace w w.begin (argument.object 42)).map
            fun r => (w.m_size, w.m_capacity, r.1.m_capacity))
      = some (0, 3, 1) := by
  decide

/-- C14, evaluated on a full vector of `2 ^ 32` elements, all 1, built by
`vector(count, value)`: `push_back(7)` followed by `pop_back()` returns with the size
as before, and element 0, which was 1, is 0: `push_back` reallocates, and the `int`
counter of the fill loop in `re_allocate` starts at 0. -/
theorem push_back_pop_back_int_counter_eval :
    ∃ v w, (fill_ctor (2 ^ 32) 1 : Option (vector Nat)) = some v ∧
      v.subscript 0 = some 1 ∧
      (push_back v (argument.object 7)).bind pop_back = some w ∧
      w.m_size = v.m_size ∧ v.m_capacity ≤ w.m_capacity ∧
      w.subscript 0 = some 0 := by
  obtain ⟨r, hr, hrl, hdef⟩ := push_back_overwrites
    (⟨some (List.replicate (2 ^ 32) 1), 2 ^ 32, 2 ^ 32⟩ : vector Nat) 7 0 rfl
    (by simp only [cells, Option.getD_some, List.length_replicate])
    (by show 2 ^ 32 = 2 ^ 32 + 0; omega) (by omega)
  have hrl' : r.length = 2 ^ 32 * 2 := hrl
  have hpop := pop_back_eq (⟨some r, 2 ^ 32 + 1, 2 ^ 32 * 2⟩ : vector Nat)
    (by show 0 < 2 ^ 32 + 1; omega)
    (by simp only [cells, Option.getD_some]; omega)
  simp only [cells, Option.getD_some] at hpop
  refine ⟨⟨some (List.replicate (2 ^ 32) 1), 2 ^ 32, 2 ^ 32⟩,
    ⟨some (r.set (2 ^ 32 + 1 - 1) default), 2 ^ 32 + 1 - 1, 2 ^ 32 * 2⟩,
    fill_ctor_eq _ _, ?_, ?_, ?_, ?_, ?_⟩
  · simp only [subscript, load]
    rw [List.getElem?_replicate, if_pos (by omega)]
  · rw [hr, Option.some_bind]
    exact hpop
  · show 2 ^ 32 + 1 - 1 = 2 ^ 32
    omega
  · show 2 ^ 32 ≤ 2 ^ 32 * 2
    omega
  · simp only [subscript, load]
    rw [List.getElem?_set, if_neg (by omega)]
    exact hdef 0 (by omega) (by omega)

/-- What `push_back` followed by `pop_back` does outside the defects of `push_back`:
for an object outside the buffer, on a vector with `size <= capacity` whose buffer
has `capacity` cells and whose reallocation stays in the range of the `int` counter,
the two calls return with the size as before, every element below the size as
before, and a capacity not below the capacity before. -/
theorem push_back_pop_back_spec [Inhabited T] [element_type T] (v : vector T) (x : T)
    (hsc : v.m_size ≤ v.m_capacity) (hbuf : (cells v).length = v.m_capacity)
    (hint : v.m_size = v.m_capacity → 2 * v.m_size ≤ 2 ^ 31) :
    ∃ v', (push_back v (argument.object x)).bind pop_back = some v' ∧
      v'.m_size = v.m_size ∧
      (∀ i, i < v.m_size → v'.subscript i = v.subscript i) ∧
      toList v' = toList v ∧
      v.m_capacity ≤ v'.m_capacity := by
  obtain ⟨v1, h1, hs1, hc1, hl1, hj1⟩ := push_back_props v x hsc hbuf hint
  have hpop := pop_back_eq v1 (by omega) (by omega)
  have hidx : v1.m_size - 1 = v.m_size := by omega
  rw [hidx] at hpop
  have hcell : ∀ i, i < v.m_size →
      ((cells v1).set v.m_size default)[i]? = (cells v)[i]? := by
    intro i hi
    rw [List.getElem?_set, if_neg (by omega)]
    exact hj1 i hi
  refine ⟨⟨some ((cells v1).set v.m_size default), v.m_size, v1.m_capacity⟩,
    by rw [h1, Option.some_bind]; exact hpop, rfl, ?_, ?_, ?_⟩
  · intro i hi
    simp only [subscript, load_eq_getElem?, Option.getD_some]
    exact hcell i hi
  · apply List.ext_getElem?
    intro j
    simp only [toList, List.getElem?_take]
    by_cases hj : j < v.m_size
    · simp only [hj, if_true]
      exact hcell j hj
    · simp [hj]
  · show v.m_capacity ≤ v1.m_capacity
    rw [hc1]
    split_ifs <;> omega

/-- The full vector `{1, 2, 3}`, so that `push_back` reallocates. -/
theorem push_back_pop_back_spec_witness :
    (3 ≤ 3 ∧ (cells (⟨some [1, 2, 3], 3, 3⟩ : vector Nat)).length = 3) ∧
    ∃ v', (push_back (⟨some [1, 2, 3], 3, 3⟩ : vector Nat) (argument.object 7)).bind pop_back = some v' ∧
      v'.m_size = 3 ∧
      (∀ i, i < 3 → v'.subscript i = (⟨some [1, 2, 3], 3, 3⟩ : vector Nat).subscript i) ∧
      toList v' = toList (⟨some [1, 2, 3], 3, 3⟩ : vector Nat) ∧
      3 ≤ v'.m_capacity :=
  ⟨⟨by decide, by decide⟩,
    push_back_pop_back_spec (⟨some [1, 2, 3], 3, 3⟩ : vector Nat) 7 (by decide) (by decide)
      (fun _ => by decide)⟩

/-- C15: on a non-empty vector whose live elements lie in its buffer, `pop_back()`
returns with the size one less, the elements below the new size as before (so
`back()` is the old second-to-last element when there is one), the capacity as
before, and the default value in the vacated cell `old size - 1`. -/
theorem pop_back_spec [Inhabited T] (v : vector T) (hpos : 0 < v.m_size)
    (hbuf : v.m_size ≤ (cells v).length) :
    ∃ v', pop_back v = some v' ∧
      v'.m_size = v.m_size - 1 ∧
      (∀ i, i < v.m_size - 1 → v'.subscript i = v.subscript i) ∧
      toList v' = (toList v).take (v.m_size - 1) ∧
      (1 < v.m_size → v'.back = v.subscript (v.m_size - 2) ∧ ∃ y, v'.back = some y) ∧
      v'.m_capacity = v.m_capacity ∧
      v'.subscript (v.m_size - 1) = some default := by
  have hcell : ∀ i, i < v.m_size - 1 →
      ((cells v).set (v.m_size - 1) default)[i]? = (cells v)[i]? := by
    intro i hi
    rw [List.getElem?_set, if_neg (by omega)]
  refine ⟨_, pop_back_eq v hpos hbuf, rfl, ?_, ?_, ?_, rfl, ?_⟩
  · intro i hi
    simp only [subscript, load_eq_getElem?, Option.getD_some]
    exact hcell i hi
  · apply List.ext_getElem?
    intro j
    simp only [toList, cells, Option.getD_some, List.getElem?_take]
    by_cases hj : j < v.m_size - 1
    · have hj2 : j < v.m_size := by omega
      simp only [hj, hj2, if_true]
      exact hcell j hj
    · simp [hj]
  · intro h1
    have hsub : size_type_sub (v.m_size - 1) 1 = v.m_size - 2 := by
      have : 1 ≤ v.m_size - 1 := by omega
      simp only [size_type_sub, this, if_true]
      omega
    have hlt : v.m_size - 2 < (cells v).length := by omega
    simp only [back, hsub, subscript, load_eq_getElem?, Option.getD_some]
    rw [hcell _ (by omega)]
    exact ⟨rfl, (cells v)[v.m_size - 2], List.getElem?_eq_getElem hlt⟩
  · simp only [subscript, load_eq_getElem?, Option.getD_some]
    rw [List.getElem?_set]
    have : v.m_size - 1 < (cells v).length := by omega
    simp [this]

/-- Witness for C15: `pop_back()` on `{1, 2, 3}`. -/
theorem pop_back_spec_witness :
    (0 < 3 ∧ 3 ≤ (cells (⟨some [1, 2, 3], 3, 3⟩ : vector Nat)).length) ∧
    ∃ v', pop_back (⟨some [1, 2, 3], 3, 3⟩ : vector Nat) = some v' ∧
      v'.m_size = 3 - 1 ∧
      (∀ i, i < 3 - 1 → v'.subscript i = (⟨some [1, 2, 3], 3, 3⟩ : vector Nat).subscript i) ∧
      toList v' = (toList (⟨some [1, 2, 3], 3, 3⟩ : vector Nat)).take (3 - 1) ∧
      (1 < 3 → v'.back = (⟨some [1, 2, 3], 3, 3⟩ : vector Nat).subscript (3 - 2) ∧
        ∃ y, v'.back = some y) ∧
      v'.m_capacity = 3 ∧
      v'.subscript (3 - 1) = some default :=
  ⟨⟨by decide, by decide⟩,
    pop_back_spec (⟨some [1, 2, 3], 3, 3⟩ : vector Nat) (by decide) (by decide)⟩

/-- C16: on a vector whose live elements lie in its buffer, `clear()` returns with
size 0, so `empty()` is true, and with the capacity it had before. -/
theorem clear_spec [Inhabited T] (v : vector T) (hbuf : v.m_size ≤ (cells v).length) :
    ∃ v', clear v = some v' ∧
      v'.m_size = 0 ∧
      v'.size = 0 ∧
      v'.empty = true ∧
      v'.m_capacity = v.m_capacity ∧
      v'.capacity = v.capacity := by
  obtain ⟨d, hd, _, _⟩ := clear_eq v hbuf
  exact ⟨⟨d, 0, v.m_capacity⟩, hd, rfl, rfl, rfl, rfl, rfl⟩

/-- Witness for C16: `clear()` on `{1, 2, 3}`. -/
theorem clear_spec_witness :
    3 ≤ (cells (⟨some [1, 2, 3], 3, 3⟩ : vector Nat)).length ∧
    ∃ v', clear (⟨some [1, 2, 3], 3, 3⟩ : vector Nat) = some v' ∧
      v'.m_size = 0 ∧
      v'.size = 0 ∧
      v'.empty = true ∧
      v'.m_capacity = 3 ∧
      v'.capacity = (⟨some [1, 2, 3], 3, 3⟩ : vector Nat).capacity :=
  ⟨by decide, clear_spec (⟨some [1, 2, 3], 3, 3⟩ : vector Nat) (by decide)⟩

/-- C17, evaluated at `v.emplace_back(v[0])` on the vector built from `{1, 2, 3}`:
the vector is full, `expand_capacity()` releases its buffer, and the reference
`v[0]` is read after that, so the call has no defined outcome, like
`v.push_back(v[0])`; with an object outside the buffer holding 1 both calls give
`{1, 2, 3, 1}`. -/
theorem emplace_back_alias_eval :
    ((initializer_list_ctor [1, 2, 3] : Option (vector Nat)).bind fun v =>
        some ((v.m_size, v.m_capacity, v.subscript 0),
          ((emplace_back v (argument.element 0)).isSome,
            (push_back v (argument.element 0)).isSome),
          (emplace_back v (argument.object 1)).map toList,
          (push_back v (argument.object 1)).map toList))
      = some ((3, 3, some 1), (false, false), some [1, 2, 3, 1], some [1, 2, 3, 1]) := by
  decide

/-- What `emplace_back` does outside its two defects: for every argument it is
`push_back`; for an object outside the buffer, on a vector with `size <= capacity`
whose buffer has `capacity` cells and whose reallocation stays in the range of the
`int` counter, it returns with `x` at index `old size`, every earlier element as
before and the size one larger. -/
theorem emplace_back_spec [Inhabited T] [element_type T] (v : vector T) (x : T)
    (hsc : v.m_size ≤ v.m_capacity) (hbuf : (cells v).length = v.m_capacity)
    (hint : v.m_size = v.m_capacity → 2 * v.m_size ≤ 2 ^ 31) :
    (∀ args : argument T, emplace_back v args = push_back v args) ∧
    emplace_back v (argument.object x) = push_back v (argument.object x) ∧
    ∃ v', emplace_back v (argument.object x) = some v' ∧
      v'.m_size = v.m_size + 1 ∧
      v'.subscript v.m_size = some x ∧
      (∀ i, i < v.m_size → v'.subscript i = v.subscript i) ∧
      toList v' = toList v ++ [x] := by
  have hsame : emplace_back v (argument.object x) = push_back v (argument.object x) := by
    simp only [emplace_back, push_back]
  have hlen : ((cells v).take v.m_size).length = v.m_size := by
    rw [List.length_take]; omega
  refine ⟨fun args => by simp only [emplace_back, push_back], hsame, _,
    hsame.trans (push_back_eq v x hsc hbuf hint), rfl, ?_, ?_, ?_⟩
  · simp only [subscript, load]
    rw [List.getElem?_append_right (by omega), hlen]
    simp
  · intro i hi
    simp only [subscript, load_eq_getElem?, Option.getD_some]
    rw [List.getElem?_append_left (by omega), List.getElem?_take_of_lt hi]
    rfl
  · simp only [toList, cells, Option.getD_some]
    rw [List.take_append_eq_append_take]
    simp only [cells] at hlen
    simp [hlen]

/-- A vector with spare room, so that there is no reallocation. -/
theorem emplace_back_spec_witness :
    (2 ≤ 3 ∧ (cells (⟨some [1, 2, 0], 2, 3⟩ : vector Nat)).length = 3) ∧
    (emplace_back (⟨some [1, 2, 0], 2, 3⟩ : vector Nat) (argument.object 7)
        = push_back (⟨some [1, 2, 0], 2, 3⟩ : vector Nat) (argument.object 7) ∧
      ∃ v', emplace_back (⟨some [1, 2, 0], 2, 3⟩ : vector Nat) (argument.object 7) = some v' ∧
        v'.m_size = 2 + 1 ∧
        v'.subscript 2 = some 7 ∧
        (∀ i, i < 2 → v'.subscript i = (⟨some [1, 2, 0], 2, 3⟩ : vector Nat).subscript i) ∧
        toList v' = toList (⟨some [1, 2, 0], 2, 3⟩ : vector Nat) ++ [7]) :=
  ⟨⟨by decide, by decide⟩,
    (emplace_back_spec (⟨some [1, 2, 0], 2, 3⟩ : vector Nat) 7 (by decide) (by decide)
      (fun h => absurd h (by decide))).2⟩

/-- C18: the move constructor from `s`, and the move assignment of `s` to any
vector `d`, give a vector with the data pointer, size and capacity that `s` had,
hence the same elements in the same order, and leave `s` with size 0, capacity 0
and a null data pointer. -/
theorem move_spec (s d : vector T) :
    ((move_ctor s).1.m_size = s.m_size ∧
      (move_ctor s).1.m_capacity = s.m_capacity ∧
      (move_ctor s).1.m_data = s.m_data ∧
      toList (move_ctor s).1 = toList s ∧
      (move_ctor s).2.m_size = 0 ∧
      (move_ctor s).2.m_capacity = 0 ∧
      (move_ctor s).2.m_data = none) ∧
    ((move_assign d s).1.m_size = s.m_size ∧
      (move_assign d s).1.m_capacity = s.m_capacity ∧
      (move_assign d s).1.m_data = s.m_data ∧
      toList (move_assign d s).1 = toList s ∧
      (move_assign d s).2.m_size = 0 ∧
      (move_assign d s).2.m_capacity = 0 ∧
      (move_assign d s).2.m_data = none) :=
  ⟨⟨rfl, rfl, rfl, rfl, rfl, rfl, rfl⟩, ⟨rfl, rfl, rfl, rfl, rfl, rfl, rfl⟩⟩

/-- C19: for a source `s` whose live elements lie in its buffer, the copy
constructor returns a vector `c` with the size of `s`, `c[i] == s[i]` below the
size (so `c == s` is true), and a capacity equal to the size of `s`, not to its
capacity. The constructor takes `s` by const reference and yields only `c`. -/
theorem copy_ctor_spec [Inhabited T] [element_type T] [DecidableEq T] (s : vector T)
    (hbuf : s.m_size ≤ (cells s).length) :
    ∃ c, copy_ctor s = some c ∧
      c.m_size = s.m_size ∧
      (∀ i, i < s.m_size → c.subscript i = s.subscript i ∧ ∃ x, c.subscript i = some x) ∧
      toList c = toList s ∧
      operator_eq c s = some true ∧
      c.m_capacity = s.m_size ∧
      (cells c).length = s.m_size := by
  have hbuf' : s.m_size ≤ (s.m_data.getD []).length := hbuf
  have hmin : min s.m_size (s.m_data.getD []).length = s.m_size := by omega
  have hcell : ∀ i, i < s.m_size →
      load (some (toList s)) i = load s.m_data i ∧
        ∃ x, load (some (toList s)) i = some x := by
    intro i hi
    have h1 : load (some (toList s)) i = load s.m_data i := by
      simp only [load_eq_getElem?, Option.getD_some, toList, cells]
      rw [List.getElem?_take_of_lt hi]
    refine ⟨h1, (s.m_data.getD [])[i], ?_⟩
    rw [h1, load_eq_getElem?]
    exact List.getElem?_eq_getElem (by omega)
  refine ⟨⟨some (toList s), s.m_size, s.m_size⟩, copy_ctor_eq s hbuf, rfl, ?_, ?_, ?_, rfl, ?_⟩
  · intro i hi
    exact hcell i hi
  · simp only [toList, cells, Option.getD_some, List.take_take, min_self]
  · simp only [operator_eq, ne_eq, not_true_eq_false, if_false]
    apply equal_loop_true _ _ _ _ _ _ (by omega)
    intro i hi
    obtain ⟨h1, x, hx⟩ := hcell i hi
    exact ⟨x, hx, h1 ▸ hx⟩
  · simp only [cells, Option.getD_some, toList, List.length_take, hmin]

/-- Witness for C19: copying a vector of size 2 that has capacity 3. -/
theorem copy_ctor_spec_witness :
    2 ≤ (cells (⟨some [1, 2, 0], 2, 3⟩ : vector Nat)).length ∧
    ∃ c, copy_ctor (⟨some [1, 2, 0], 2, 3⟩ : vector Nat) = some c ∧
      c.m_size = 2 ∧
      (∀ i, i < 2 → c.subscript i = (⟨some [1, 2, 0], 2, 3⟩ : vector Nat).subscript i ∧
        ∃ x, c.subscript i = some x) ∧
      toList c = toList (⟨some [1, 2, 0], 2, 3⟩ : vector Nat) ∧
      operator_eq c (⟨some [1, 2, 0], 2, 3⟩ : vector Nat) = some true ∧
      c.m_capacity = 2 ∧
      (cells c).length = 2 :=
  ⟨by decide, copy_ctor_spec (⟨some [1, 2, 0], 2, 3⟩ : vector Nat) (by decide)⟩

/-- C20, evaluated on a destination that owns a buffer: with `a` built from `{9}`
and `b` built from `{1, 2}`, the copy assignment `a = b` has no defined result
(`delete[] m_data` is followed by `re_allocate`, which reads the released cells and
deletes the same array again); on a default-constructed destination the same
assignment gives size 2, capacity 2 and the elements of `b`. -/
theorem copy_assign_eval :
    ((initializer_list_ctor [9] : Option (vector Nat)).bind fun a =>
        (initializer_list_ctor [1, 2] : Option (vector Nat)).bind fun b =>
          copy_assign a b) = none ∧
    ((initializer_list_ctor [1, 2] : Option (vector Nat)).bind fun b =>
        copy_assign default_ctor b) = some (⟨some [1, 2], 2, 2⟩ : vector Nat) := by
  decide

/-- C21: for vectors whose live elements lie in their buffers, `A == B` returns
`true` exactly when `A.size() == B.size()` and `A[i] == B[i]` for every `i` below
the size, and `A != B` returns the negation of that outcome. -/
theorem operator_eq_spec [DecidableEq T] (A B : vector T)
    (hA : A.m_size ≤ (cells A).length) (hB : B.m_size ≤ (cells B).length) :
    ∃ r, operator_eq A B = some r ∧
      (r = true ↔ A.m_size = B.m_size ∧ ∀ i, i < A.m_size → A.subscript i = B.subscript i) ∧
      operator_ne A B = some (!r) := by
  obtain ⟨r, hr, hiff⟩ := operator_eq_iff A B hA hB
  exact ⟨r, hr, hiff, by simp [operator_ne, hr]⟩

/-- Witness for C21: `{1, 2, 3}` against `{1, 2, 4}`. -/
theorem operator_eq_spec_witness :
    (3 ≤ (cells (⟨some [1, 2, 3], 3, 3⟩ : vector Nat)).length ∧
      3 ≤ (cells (⟨some [1, 2, 4], 3, 3⟩ : vector Nat)).length) ∧
    ∃ r, operator_eq (⟨some [1, 2, 3], 3, 3⟩ : vector Nat) ⟨some [1, 2, 4], 3, 3⟩ = some r ∧
      (r = true ↔ 3 = 3 ∧ ∀ i, i < 3 →
        (⟨some [1, 2, 3], 3, 3⟩ : vector Nat).subscript i
          = (⟨some [1, 2, 4], 3, 3⟩ : vector Nat).subscript i) ∧
      operator_ne (⟨some [1, 2, 3], 3, 3⟩ : vector Nat) ⟨some [1, 2, 4], 3, 3⟩ = some (!r) :=
  ⟨⟨by decide, by decide⟩,
    operator_eq_spec (⟨some [1, 2, 3], 3, 3⟩ : vector Nat) ⟨some [1, 2, 4], 3, 3⟩
      (by decide) (by decide)⟩

/-- C22: for vectors over a linearly ordered element type whose live elements lie
in their buffers, `A < B` returns `true` exactly when either there is a first index
below both sizes at which the vectors differ and `A[i] < B[i]` there, or the vectors
agree on all common indices and `A.size() < B.size()`; and `A > B` is `B < A`. -/
theorem operator_lt_spec [LinearOrder T] (A B : vector T)
    (hA : A.m_size ≤ (cells A).length) (hB : B.m_size ≤ (cells B).length) :
    ∃ r, operator_lt A B = some r ∧
      (r = true ↔
        (∃ (i : Nat) (x y : T), i < A.m_size ∧ i < B.m_size ∧
          A.subscript i = some x ∧ B.subscript i = some y ∧
          (∀ j, j < i → A.subscript j = B.subscript j) ∧ x ≠ y ∧ x < y) ∨
        ((∀ j, j < A.m_size → j < B.m_size → A.subscript j = B.subscript j) ∧
          A.m_size < B.m_size)) ∧
      operator_gt A B = operator_lt B A := by
  obtain ⟨r, hr, hiff⟩ := operator_lt_iff_lex A B hA hB
  exact ⟨r, hr, hiff.trans (lex_toList_iff A B hA hB), rfl⟩

/-- Witness for C22: `{1, 2}` against `{1, 2, 4}`. -/
theorem operator_lt_spec_witness :
    (2 ≤ (cells (⟨some [1, 2], 2, 2⟩ : vector Nat)).length ∧
      3 ≤ (cells (⟨some [1, 2, 4], 3, 3⟩ : vector Nat)).length) ∧
    ∃ r, operator_lt (⟨some [1, 2], 2, 2⟩ : vector Nat) ⟨some [1, 2, 4], 3, 3⟩ = some r ∧
      (r = true ↔
        (∃ (i : Nat) (x y : Nat), i < 2 ∧ i < 3 ∧
          (⟨some [1, 2], 2, 2⟩ : vector Nat).subscript i = some x ∧
          (⟨some [1, 2, 4], 3, 3⟩ : vector Nat).subscript i = some y ∧
          (∀ j, j < i → (⟨some [1, 2], 2, 2⟩ : vector Nat).subscript j
            = (⟨some [1, 2, 4], 3, 3⟩ : vector Nat).subscript j) ∧ x ≠ y ∧ x < y) ∨
        ((∀ j, j < 2 → j < 3 → (⟨some [1, 2], 2, 2⟩ : vector Nat).subscript j
            = (⟨some [1, 2, 4], 3, 3⟩ : vector Nat).subscript j) ∧ 2 < 3)) ∧
      operator_gt (⟨some [1, 2], 2, 2⟩ : vector Nat) ⟨some [1, 2, 4], 3, 3⟩
        = operator_lt (⟨some [1, 2, 4], 3, 3⟩ : vector Nat) ⟨some [1, 2], 2, 2⟩ :=
  ⟨⟨by decide, by decide⟩,
    operator_lt_spec (⟨some [1, 2], 2, 2⟩ : vector Nat) ⟨some [1, 2, 4], 3, 3⟩
      (by decide) (by decide)⟩

/-- C23: for vectors over a linearly ordered element type whose live elements lie
in their buffers, the four comparisons and `==` return, `A <= B` is
`(A < B) || (A == B)` and `A >= B` is `(A > B) || (A == B)`; vectors with equal
sizes and elements satisfy both `A <= B` and `A >= B`, and when the first index at
which the vectors differ has the greater element in `A`, both `A < B` and `A <= B`
are false. -/
theorem operator_le_ge_spec [LinearOrder T] (A B : vector T)
    (hA : A.m_size ≤ (cells A).length) (hB : B.m_size ≤ (cells B).length) :
    ∃ less greater equal,
      operator_lt A B = some less ∧ operator_gt A B = some greater ∧
      operator_eq A B = some equal ∧
      operator_le A B = some (less || equal) ∧
      operator_ge A B = some (greater || equal) ∧
      ((A.m_size = B.m_size ∧ ∀ i, i < A.m_size → A.subscript i = B.subscript i) →
        operator_le A B = some true ∧ operator_ge A B = some true) ∧
      ((∃ (i : Nat) (x y : T), i < A.m_size ∧ i < B.m_size ∧
          A.subscript i = some x ∧ B.subscript i = some y ∧
          (∀ j, j < i → A.subscript j = B.subscript j) ∧ y < x) →
        operator_lt A B = some false ∧ operator_le A B = some false) := by
  obtain ⟨less, hless, hlex⟩ := operator_lt_iff_lex A B hA hB
  obtain ⟨greater, hgreater, hlex2⟩ := operator_lt_iff_lex B A hB hA
  obtain ⟨equal, hequal, heq⟩ := operator_eq_iff A B hA hB
  have hle : operator_le A B = some (less || equal) := by
    have h1 : lexicographical_compare A.m_data A.cbegin A.cend B.m_data B.cbegin B.cend
        = some less := hless
    simp only [operator_le, h1, Option.some_bind]
    cases less <;> simp [hequal]
  have hge : operator_ge A B = some (greater || equal) := by
    have h1 : lexicographical_compare B.m_data B.cbegin B.cend A.m_data A.cbegin A.cend
        = some greater := hgreater
    simp only [operator_ge, h1, Option.some_bind]
    cases greater <;> simp [hequal]
  refine ⟨less, greater, equal, hless, hgreater, hequal, hle, hge, ?_, ?_⟩
  · intro h
    have he : equal = true := heq.mpr h
    rw [hle, hge, he]
    simp
  · rintro ⟨i, x, y, hiA, hiB, hx, hy, hpre, hyx⟩
    have hBA : List.Lex (fun a b : T => a < b) (toList B) (toList A) :=
      (lex_toList_iff B A hB hA).mpr
        (Or.inl ⟨i, y, x, hiB, hiA, hy, hx, fun j hj => (hpre j hj).symm, ne_of_lt hyx, hyx⟩)
    have hnl : less = false := by
      cases hl : less with
      | false => rfl
      | true =>
        exact absurd (hlex.mp hl) (asymm_of (List.Lex (fun a b : T => a < b)) hBA)
    have hne : equal = false := by
      cases he : equal with
      | false => rfl
      | true =>
        have h := (heq.mp he).2 i hiA
        rw [hx, hy] at h
        exact absurd (Option.some.inj h) (ne_of_gt hyx)
    rw [hle, hless, hnl, hne]
    simp

/-- Witness for C23: `{1, 2, 5}` against `{1, 2, 4}`, the first difference being
greater on the left. -/
theorem operator_le_ge_spec_witness :
    (3 ≤ (cells (⟨some [1, 2, 5], 3, 3⟩ : vector Nat)).length ∧
      3 ≤ (cells (⟨some [1, 2, 4], 3, 3⟩ : vector Nat)).length) ∧
    operator_lt (⟨some [1, 2, 5], 3, 3⟩ : vector Nat) ⟨some [1, 2, 4], 3, 3⟩ = some false ∧
    operator_le (⟨some [1, 2, 5], 3, 3⟩ : vector Nat) ⟨some [1, 2, 4], 3, 3⟩ = some false := by
  obtain ⟨_, _, _, _, _, _, _, _, _, h⟩ :=
    operator_le_ge_spec (⟨some [1, 2, 5], 3, 3⟩ : vector Nat) ⟨some [1, 2, 4], 3, 3⟩
      (by decide) (by decide)
  exact ⟨⟨by decide, by decide⟩,
    h ⟨2, 5, 4, by decide, by decide, by decide, by decide, by decide, by decide⟩⟩

end vector

/-- C24: `lexicographical_compare` on two ranges that lie in their buffers and hold
the same elements in the same order returns `false`, the empty range included. -/
theorem lexicographical_compare_irrefl {T : Type} [LinearOrder T] (lhs rhs : pointer T)
    (lhs_begin lhs_end rhs_begin rhs_end : Nat)
    (h1 : lhs_begin ≤ lhs_end) (ha : lhs_end ≤ (lhs.getD []).length)
    (h2 : rhs_begin ≤ rhs_end) (hb : rhs_end ≤ (rhs.getD []).length)
    (hsame : ((lhs.getD []).take lhs_end).drop lhs_begin
      = ((rhs.getD []).take rhs_end).drop rhs_begin) :
    lexicographical_compare lhs lhs_begin lhs_end rhs rhs_begin rhs_end = some false := by
  obtain ⟨r, hr, hiff⟩ :=
    vector.lexicographical_compare_iff_lex lhs lhs_begin lhs_end rhs rhs_begin rhs_end h1 ha h2 hb
  cases hb' : r with
  | false => rw [hr, hb']
  | true =>
    rw [hsame] at hiff
    exact absurd (hiff.mp hb') (irrefl_of (List.Lex (fun a b : T => a < b)) _)

/-- Witness for C24: the arrays `{1, 2, 3}` and `{1, 2, 3}` of the test. -/
theorem lexicographical_compare_irrefl_witness :
    ((0 ≤ 3 ∧ 3 ≤ ((some [1, 2, 3] : pointer Int).getD []).length) ∧
      (((some [1, 2, 3] : pointer Int).getD []).take 3).drop 0
        = (((some [1, 2, 3] : pointer Int).getD []).take 3).drop 0) ∧
    lexicographical_compare (some [1, 2, 3] : pointer Int) 0 3 (some [1, 2, 3]) 0 3
      = some false :=
  ⟨⟨⟨by decide, by decide⟩, rfl⟩,
    lexicographical_compare_irrefl (some [1, 2, 3] : pointer Int) (some [1, 2, 3]) 0 3 0 3
      (by decide) (by decide) (by decide) (by decide) rfl⟩

namespace vector

/-- C25: `N` sequential `push_back` calls on a default-constructed vector, for
every `N` and so for every `N >= 1`, return and make at most `ceil(log2 N) + 1`
calls of `re_allocate` in total; the vector then holds `N` elements. -/
theorem push_back_reallocations [Inhabited T] [element_type T] (xs : List T) :
    ∃ w c, push_back_all (default_ctor : vector T) xs = some (w, c) ∧
      c ≤ Nat.clog 2 xs.length + 1 ∧
      w.m_size = xs.length := by
  obtain ⟨w, c, hw, hws, hwsc, hc0, hcpos⟩ :=
    push_back_all_spec xs (default_ctor : vector T) (le_refl _) rfl
  have hsz : w.m_size = xs.length := by
    simpa [default_ctor] using hws
  refine ⟨w, c, hw, ?_, hsz⟩
  by_contra hcon
  have hc2 : Nat.clog 2 xs.length + 1 ≤ c - 1 := by omega
  obtain ⟨hcap, hlt⟩ := hcpos (by omega)
  have hcap' : w.m_capacity = 2 ^ (c - 1) := by
    simpa [default_ctor] using hcap
  have hpow : 2 ^ (Nat.clog 2 xs.length + 1) ≤ 2 ^ (c - 1) :=
    Nat.pow_le_pow_right (by decide) hc2
  have hclog : xs.length ≤ 2 ^ Nat.clog 2 xs.length := Nat.le_pow_clog (by decide) _
  rw [pow_succ] at hpow
  omega

end vector

namespace internal

namespace reverse_iterator

/-- C26: for a reverse iterator `r` with base position `b` and an integer `n`:
`*r` is the element at `b`; `++r` has base `b - 1` and `--r` has base `b + 1`, the
postfix forms returning the iterator as it was and leaving those bases; `r + n` and
`r += n` have base `b - n`, `r - n` and `r -= n` have base `b + n`; so
`(r + n) - n` is `r`, and `++` followed by `--` gives `r` back. -/
theorem reverse_iterator_arithmetic {T : Type} (r : reverse_iterator) (n : Int)
    (p : pointer T) :
    r.deref p = load_at p r.base ∧
    (pre_increment r).base = r.base - 1 ∧
    (pre_decrement r).base = r.base + 1 ∧
    ((post_increment r).1 = r ∧ (post_increment r).2.base = r.base - 1) ∧
    ((post_decrement r).1 = r ∧ (post_decrement r).2.base = r.base + 1) ∧
    (r.operator_plus n).base = r.base - n ∧
    (r.operator_plus_assign n).base = r.base - n ∧
    (r.operator_minus n).base = r.base + n ∧
    (r.operator_minus_assign n).base = r.base + n ∧
    (r.operator_plus n).operator_minus n = r ∧
    (r.operator_minus n).operator_plus n = r ∧
    pre_decrement (pre_increment r) = r ∧
    pre_increment (pre_decrement r) = r := by
  cases r with
  | mk b =>
    simp only [deref, base, pre_increment, pre_decrement, post_increment, post_decrement,
      operator_plus, operator_plus_assign, operator_minus, operator_minus_assign,
      Int.sub_add_cancel, Int.add_sub_cancel, and_self]

/-- C27: for reverse iterators `r1`, `r2` with bases `b1`, `b2` in one buffer:
`r1 == r2` iff `b1 == b2`, `r1 != r2` iff `b1 != b2`, `r1 < r2` iff `b1 > b2`,
`r1 <= r2` iff `b1 >= b2`, `r1 > r2` iff `b1 < b2`, `r1 >= r2` iff `b1 <= b2`; and
an iterator is below itself advanced: `r1 < ++r1`, and `r1 < r1 + n` exactly for
`n > 0`. -/
theorem reverse_iterator_comparisons (r1 r2 : reverse_iterator) (n : Int) :
    (r1.operator_eq r2 = true ↔ r1.base = r2.base) ∧
    (r1.operator_ne r2 = true ↔ r1.base ≠ r2.base) ∧
    (r1.operator_lt r2 = true ↔ r1.base > r2.base) ∧
    (r1.operator_le r2 = true ↔ r1.base ≥ r2.base) ∧
    (r1.operator_gt r2 = true ↔ r1.base < r2.base) ∧
    (r1.operator_ge r2 = true ↔ r1.base ≤ r2.base) ∧
    r1.operator_lt (pre_increment r1) = true ∧
    (pre_increment r1).operator_gt r1 = true ∧
    (r1.operator_lt (r1.operator_plus n) = true ↔ 0 < n) := by
  simp only [operator_eq, operator_ne, operator_lt, operator_le, operator_gt, operator_ge, base,
    pre_increment, operator_plus, decide_eq_true_eq, true_and, ne_eq, gt_iff_lt, ge_iff_le]
  refine ⟨?_, ?_, ?_⟩ <;> omega

end reverse_iterator

end internal

namespace vector

variable {T : Type}

/-- C28: for a vector of `n < 2 ^ 63` elements that lie in its buffer, `n == 0`
included: for every `k < n`, `rbegin() + k`, which is `rbegin()` incremented `k`
times, dereferences to `v[n - 1 - k]`, so `*rbegin()` is `back()`; `rbegin() + n`
is `rend()`, whose base is the position one before `v[0]`; `crbegin()` and
`crend()` are the same iterators. -/
theorem rbegin_rend_spec (v : vector T) (hsz : v.m_size < 2 ^ 63)
    (hbuf : v.m_size ≤ (cells v).length) :
    (∀ k : Nat, k < v.m_size →
      ((rbegin v).operator_plus k).deref v.m_data = v.subscript (v.m_size - 1 - k) ∧
      ∃ x, ((rbegin v).operator_plus k).deref v.m_data = some x) ∧
    (∀ k : Nat, (internal.reverse_iterator.pre_increment^[k]) (rbegin v)
      = (rbegin v).operator_plus k) ∧
    (0 < v.m_size → (rbegin v).deref v.m_data = v.back) ∧
    (rbegin v).operator_plus v.m_size = rend v ∧
    ((rbegin v).operator_plus v.m_size).operator_eq (rend v) = true ∧
    (rend v).base = -1 ∧
    crbegin v = rbegin v ∧
    crend v = rend v := by
  have hb := rbegin_base v hsz
  have hplus : ∀ k : Nat, k < v.m_size →
      ((rbegin v).operator_plus k).deref v.m_data = v.subscript (v.m_size - 1 - k) := by
    intro k hk
    have hpos : (v.m_size : Int) - 1 - (k : Int) = ((v.m_size - 1 - k : Nat) : Int) := by
      omega
    simp only [internal.reverse_iterator.deref, internal.reverse_iterator.operator_plus, hb,
      hpos, load_at, Int.toNat_ofNat, subscript]
    simp
  have hend : (rbegin v).operator_plus v.m_size = rend v := by
    simp only [internal.reverse_iterator.operator_plus, hb, rend,
      internal.reverse_iterator.mk.injEq]
    omega
  refine ⟨?_, ?_, ?_, hend, ?_, rfl, rfl, rfl⟩
  · intro k hk
    refine ⟨hplus k hk, ?_⟩
    rw [hplus k hk, subscript, load_eq_getElem?]
    have hlt : v.m_size - 1 - k < (v.m_data.getD []).length := by
      simp only [cells] at hbuf
      omega
    exact ⟨_, List.getElem?_eq_getElem hlt⟩
  · intro k
    induction k with
    | zero =>
      simp [internal.reverse_iterator.operator_plus]
    | succ k ih =>
      rw [Function.iterate_succ_apply', ih]
      simp only [internal.reverse_iterator.pre_increment,
        internal.reverse_iterator.operator_plus, internal.reverse_iterator.mk.injEq]
      push_cast
      omega
  · intro hpos
    have h := hplus 0 hpos
    have hsub : size_type_sub v.m_size 1 = v.m_size - 1 := by
      have : 1 ≤ v.m_size := hpos
      simp [size_type_sub, this]
    have h0 : (rbegin v).operator_plus ((0 : Nat) : Int) = rbegin v := by
      simp [internal.reverse_iterator.operator_plus]
    rw [h0] at h
    rw [h, back, hsub, subscript, Nat.sub_zero]
  · rw [hend]
    simp [internal.reverse_iterator.operator_eq]

/-- Witness for C28: the vector `{1, 2, 3}`, and the empty vector. -/
theorem rbegin_rend_spec_witness :
    ((3 : Nat) < 2 ^ 63 ∧ 3 ≤ (cells (⟨some [1, 2, 3], 3, 3⟩ : vector Nat)).length) ∧
    (rbegin (⟨some [1, 2, 3], 3, 3⟩ : vector Nat)).deref (some [1, 2, 3])
      = (⟨some [1, 2, 3], 3, 3⟩ : vector Nat).back ∧
    (rbegin (default_ctor : vector Nat)).operator_plus (0 : Nat)
      = rend (default_ctor : vector Nat) := by
  have h3 := rbegin_rend_spec (⟨some [1, 2, 3], 3, 3⟩ : vector Nat) (by decide) (by decide)
  have h0 := rbegin_rend_spec (default_ctor : vector Nat) (by decide) (by decide)
  exact ⟨⟨by decide, by decide⟩, h3.2.2.1 (by decide), h0.2.2.2.1⟩

/-- C29: the default constructor gives size 0 and capacity 0; `vector(n)` gives
size `n`, capacity `n` and the default value at every index; `vector(n, x)` gives
size `n`, capacity `n` and `x` at every index; the constructor from a literal
sequence `L` gives size and capacity `length L` and the `i`-th item of `L` at index
`i`. -/
theorem constructors_spec [Inhabited T] [element_type T] (n : Nat) (x : T) (L : List T) :
    ((default_ctor : vector T).size = 0 ∧ (default_ctor : vector T).capacity = 0) ∧
    (∃ v : vector T, count_ctor n = some v ∧ v.size = n ∧ v.capacity = n ∧
      ∀ i, i < n → v.subscript i = some default) ∧
    (∃ v, fill_ctor n x = some v ∧ v.size = n ∧ v.capacity = n ∧
      ∀ i, i < n → v.subscript i = some x) ∧
    (∃ v, initializer_list_ctor L = some v ∧ v.size = L.length ∧ v.capacity = L.length ∧
      (∀ i, v.subscript i = L[i]?) ∧ toList v = L) := by
  refine ⟨⟨rfl, rfl⟩, ⟨_, count_ctor_eq n, rfl, rfl, ?_⟩, ⟨_, fill_ctor_eq n x, rfl, rfl, ?_⟩,
    ⟨_, initializer_list_ctor_eq L, rfl, rfl, ?_, ?_⟩⟩
  · intro i hi
    simp [subscript, load, List.getElem?_replicate, hi]
  · intro i hi
    simp [subscript, load, List.getElem?_replicate, hi]
  · intro i
    simp [subscript, load]
  · simp [toList, cells]

/-- Witness for C29: `vector(3)`, `vector(3, 7)` and the vector from `{4, 5}`. -/
theorem constructors_spec_witness :
    (∃ v : vector Nat, count_ctor 3 = some v ∧ v.size = 3 ∧ v.capacity = 3 ∧
      ∀ i, i < 3 → v.subscript i = some default) ∧
    (∃ v : vector Nat, fill_ctor 3 7 = some v ∧ v.size = 3 ∧ v.capacity = 3 ∧
      ∀ i, i < 3 → v.subscript i = some 7) ∧
    (∃ v : vector Nat, initializer_list_ctor [4, 5] = some v ∧ v.size = [4, 5].length ∧
      v.capacity = [4, 5].length ∧ (∀ i, v.subscript i = [4, 5][i]?) ∧ toList v = [4, 5]) :=
  (constructors_spec 3 7 [4, 5]).2

/-- C30, evaluated at the copy assignment onto a vector that owns a buffer: `a`
built from `{9}` and `b` built from `{1, 2}` both have `size <= capacity`, and
`a = b` has no defined result, so no size or capacity of `a` is left to compare. -/
theorem copy_assign_invariant_eval :
    ((initializer_list_ctor [9] : Option (vector Nat)).bind fun a =>
        (initializer_list_ctor [1, 2] : Option (vector Nat)).bind fun b =>
          some (decide (a.m_size ≤ a.m_capacity), decide (b.m_size ≤ b.m_capacity),
            (copy_assign a b).isSome))
      = some (true, true, false) := by
  decide

/-- C31: with `new T[count]` failing, each of `push_back`, `emplace_back`,
`reserve`, `resize` and `shrink_to_fit`, whenever it requests an allocation, lets
`std::bad_alloc` leave the call with the vector exactly as it was before the call:
same data, size and capacity. -/
theorem alloc_failure_keeps_state [Inhabited T] [element_type T] (v : vector T)
    (args : argument T) (n : Nat) :
    (v.m_size = v.m_capacity → push_back_alloc false v args = result.threw v) ∧
    (v.m_size = v.m_capacity → emplace_back_alloc false v args = result.threw v) ∧
    (n > v.m_capacity → reserve_alloc false v n = result.threw v) ∧
    (n > v.m_size → n > v.m_capacity → resize_alloc false v n = result.threw v) ∧
    (v.m_capacity > v.m_size → shrink_to_fit_alloc false v = result.threw v) := by
  have hexp : v.m_size = v.m_capacity → expand_capacity_alloc false v = result.threw v := by
    intro h
    have hr : ∀ c, re_allocate_alloc false v c = result.threw v := fun c => by
      simp [re_allocate_alloc]
    unfold expand_capacity_alloc
    rw [if_pos h]
    split_ifs <;> exact hr _
  refine ⟨?_, ?_, ?_, ?_, ?_⟩
  · intro h
    simp only [push_back_alloc, hexp h, result.bind]
  · intro h
    simp only [emplace_back_alloc, hexp h, result.bind]
  · intro h
    simp [reserve_alloc, h, re_allocate_alloc]
  · intro h1 h2
    have hne : v.m_size ≠ n := by omega
    have hnl : ¬ n < v.m_size := by omega
    simp [resize_alloc, hne, hnl, h2, re_allocate_alloc, result.bind]
  · intro h
    simp [shrink_to_fit_alloc, h, re_allocate_alloc]

/-- Witness for C31: the full vector `{1, 2, 3}`, and a vector of size 2 with
capacity 3 for `shrink_to_fit`. -/
theorem alloc_failure_keeps_state_witness :
    push_back_alloc false (⟨some [1, 2, 3], 3, 3⟩ : vector Nat) (argument.object 7)
      = result.threw ⟨some [1, 2, 3], 3, 3⟩ ∧
    reserve_alloc false (⟨some [1, 2, 3], 3, 3⟩ : vector Nat) 5
      = result.threw ⟨some [1, 2, 3], 3, 3⟩ ∧
    resize_alloc false (⟨some [1, 2, 3], 3, 3⟩ : vector Nat) 5
      = result.threw ⟨some [1, 2, 3], 3, 3⟩ ∧
    shrink_to_fit_alloc false (⟨some [1, 2, 0], 2, 3⟩ : vector Nat)
      = result.threw ⟨some [1, 2, 0], 2, 3⟩ :=
  ⟨(alloc_failure_keeps_state (⟨some [1, 2, 3], 3, 3⟩ : vector Nat)
      (argument.object 7) 5).1 (by decide),
    (alloc_failure_keeps_state (⟨some [1, 2, 3], 3, 3⟩ : vector Nat)
      (argument.object 7) 5).2.2.1 (by decide),
    (alloc_failure_keeps_state (⟨some [1, 2, 3], 3, 3⟩ : vector Nat)
      (argument.object 7) 5).2.2.2.1 (by decide) (by decide),
    (alloc_failure_keeps_state (⟨some [1, 2, 0], 2, 3⟩ : vector Nat)
      (argument.object 7) 5).2.2.2.2 (by decide)⟩

end vector

namespace array

/-- C33: for an array of `N` elements, `at(off)` throws `out_of_range` exactly when
`off >= N`, and for `off < N` it returns the element that `operator[]` returns; for
`N == 0` it throws for every `off`. -/
theorem array_at_spec {T : Type} {N : Nat} (a : array T N) (off : Nat) :
    (a.at off = Except.error exception.out_of_range ↔ N ≤ off) ∧
    (off < N → a.at off = Except.ok (a.subscript off) ∧ ∃ x, a.subscript off = some x) ∧
    (N = 0 → a.at off = Except.error exception.out_of_range) := by
  refine ⟨?_, ?_, ?_⟩
  · by_cases h0 : N = 0
    · simp [array.at, h0]
    · by_cases h : N ≤ off
      · simp [array.at, h0, h]
      · simp [array.at, h0, h]
  · intro h
    have h0 : N ≠ 0 := by omega
    have hn : ¬ N ≤ off := by omega
    refine ⟨by simp [array.at, h0, hn, subscript], ?_⟩
    have hlt : off < a.m_data.length := by rw [a.m_data_length]; exact h
    exact ⟨a.m_data[off], by simp [subscript, List.getElem?_eq_getElem hlt]⟩
  · intro h0
    simp [array.at, h0]

/-- Witness for C33: the array `{10, 20, 30}` of the test. -/
theorem array_at_spec_witness :
    (⟨[10, 20, 30], rfl⟩ : array Nat 3).at 1 = Except.ok (some 20) ∧
    (⟨[10, 20, 30], rfl⟩ : array Nat 3).at 3 = Except.error exception.out_of_range ∧
    (⟨[], rfl⟩ : array Nat 0).at 0 = Except.error exception.out_of_range := by
  have h1 := array_at_spec (⟨[10, 20, 30], rfl⟩ : array Nat 3) 1
  have h3 := array_at_spec (⟨[10, 20, 30], rfl⟩ : array Nat 3) 3
  have h0 := array_at_spec (⟨[], rfl⟩ : array Nat 0) 0
  refine ⟨?_, h3.1.mpr (le_refl _), h0.2.2 rfl⟩
  rw [(h1.2.1 (by decide)).1]
  rfl

end array

namespace vector

variable {T : Type}

/-- C32, evaluated on the full vector built from `{1, 2, 3}`:
`emplace(begin() + 1, 7)` with the allocation failing throws with the contents
`{1, 7, 2}`, not with the vector as it was: 2 has been shifted, 3 is lost. -/
theorem emplace_alloc_failure_eval :
    (initializer_list_ctor [1, 2, 3] : Option (vector Nat)) = some ⟨some [1, 2, 3], 3, 3⟩ ∧
    emplace_alloc false (⟨some [1, 2, 3], 3, 3⟩ : vector Nat) 1 (argument.object 7)
      = result.threw ⟨some [1, 7, 2], 3, 3⟩ ∧
    emplace_alloc false (⟨some [1, 2, 3], 3, 3⟩ : vector Nat) 1 (argument.object 7)
      ≠ result.threw ⟨some [1, 2, 3], 3, 3⟩ := by
  decide

/-- C34: on a non-empty vector with `size <= capacity` whose buffer has `capacity`
cells, whatever its size, for every position and every argument that is an object
outside the buffer or a cell of the buffer, `emplace` returns; a full vector ends
with capacity `old size + 1`, and a vector with spare room keeps its capacity and
requests no allocation. The growth test comes after the shift: when the vector is
full and the allocation fails, the exception leaves the vector with its old size
and capacity and with the elements already shifted, the value `x` of the argument
at the position and the old last element gone (for the position `end()`, `x` in
place of the last element). -/
theorem emplace_capacity_spec [Inhabited T] [element_type T] (v : vector T) (p : Nat)
    (args : argument T) (hpos : 0 < v.m_size) (hsc : v.m_size ≤ v.m_capacity)
    (hbuf : (cells v).length = v.m_capacity)
    (hargs : ∀ i, args = argument.element i → i < (cells v).length) :
    (∃ w it, emplace v p args = some (w, it) ∧
      (v.m_size = v.m_capacity → w.m_capacity = v.m_size + 1) ∧
      (v.m_size < v.m_capacity → w.m_capacity = v.m_capacity ∧
        emplace_alloc false v p args = result.returned (w, it))) ∧
    (v.m_size = v.m_capacity → ∀ x, args = argument.object x →
      ∃ u, emplace_alloc false v p args = result.threw u ∧
        u.m_size = v.m_size ∧ u.m_capacity = v.m_capacity ∧
        (p < v.m_size →
          toList u = ((toList v).take p ++ x :: (toList v).drop p).take v.m_size) ∧
        (p = v.m_size → toList u = (toList v).take (v.m_size - 1) ++ [x])) := by
  have hne : v.m_size ≠ 0 := by omega
  refine ⟨?_, ?_⟩
  · by_cases hfull : v.m_size = v.m_capacity
    · obtain ⟨r, hr, _⟩ := emplace_returns v p args hpos hsc hbuf hargs
      refine ⟨_, _, hr, fun _ => ?_, fun h => ?_⟩
      · show (if v.m_size = v.m_capacity then v.m_size + 1 else v.m_capacity) = v.m_size + 1
        rw [if_pos hfull]
      · omega
    · obtain ⟨t, r0, hph, hl0⟩ := emplace_shift_phase_returns v p args hpos (by omega) hargs
      have hst : store (some r0) v.m_size t = some (some (r0.set v.m_size t)) :=
        store_some_of_lt _ _ _ (by omega)
      refine ⟨⟨some (r0.set v.m_size t), v.m_size + 1, v.m_capacity⟩, p, ?_,
        fun h => absurd h hfull, fun _ => ⟨rfl, ?_⟩⟩
      · rw [emplace_eq_phases v p args hne, hph]
        simp only [Option.some_bind, if_neg hfull, hst, Option.map_some', vector.begin,
          Nat.sub_zero]
      · unfold emplace_alloc
        rw [if_neg hne]
        simp only [hph, result.of_option, result.bind, if_neg hfull, hst, Option.map_some',
          vector.begin, Nat.sub_zero]
  · intro hfull x hx
    subst hx
    obtain ⟨r, hr, _, hrl, hrj⟩ := emplace_alloc_false_eq v p x hpos hfull hbuf
    refine ⟨_, hr, rfl, rfl, ?_, ?_⟩
    · intro hp
      have hmin : min (v.m_size - 1) p = p := by omega
      rw [hmin] at hrj
      apply List.ext_getElem?
      intro j
      have hm : min p (min v.m_size (cells v).length) = p := by omega
      simp only [toList, cells, Option.getD_some, List.getElem?_take, List.getElem?_append,
        List.length_take]
      simp only [cells] at hrj hm
      rw [hrj j, hm]
      by_cases hjp : j < p
      · split_ifs <;> first | rfl | omega
      · by_cases hje : j = p
        · subst hje
          simp [hp]
        · obtain ⟨k, rfl⟩ : ∃ k, j = p + (k + 1) := ⟨j - p - 1, by omega⟩
          have e1 : p + (k + 1) - p = k + 1 := by omega
          have e2 : p + (k + 1) - 1 = p + k := by omega
          rw [e1, e2, List.getElem?_cons_succ, List.getElem?_drop, List.getElem?_take]
          split_ifs <;> first | rfl | omega
    · intro hp
      subst hp
      have hmin : min (v.m_size - 1) v.m_size = v.m_size - 1 := by omega
      rw [hmin] at hrj
      apply List.ext_getElem?
      intro j
      have hm : min (v.m_size - 1) (min v.m_size (cells v).length) = v.m_size - 1 := by
        omega
      simp only [toList, cells, Option.getD_some, List.getElem?_take, List.getElem?_append,
        List.length_take]
      simp only [cells] at hrj hm
      rw [hrj j, hm]
      by_cases hjl : j < v.m_size - 1
      · split_ifs <;> first | rfl | omega
      · by_cases hje : j = v.m_size - 1
        · subst hje
          have h1 : v.m_size - 1 < v.m_size := by omega
          simp [h1]
        · have h1 : ¬ j < v.m_size := by omega
          have h2 : ([x] : List T)[j - (v.m_size - 1)]? = none :=
            List.getElem?_eq_none (by simp; omega)
          rw [h2]
          simp only [h1, hjl, if_false]

/-- Witness for C34: the full vector `{1, 2, 3}`, whose capacity grows to 4, and
which a failing allocation leaves as `{1, 7, 2}`. -/
theorem emplace_capacity_spec_witness :
    (0 < 3 ∧ 3 ≤ 3 ∧ (cells (⟨some [1, 2, 3], 3, 3⟩ : vector Nat)).length = 3) ∧
    (∃ w it, emplace (⟨some [1, 2, 3], 3, 3⟩ : vector Nat) 1 (argument.object 7)
        = some (w, it) ∧ w.m_capacity = 3 + 1) ∧
    (∃ u, emplace_alloc false (⟨some [1, 2, 3], 3, 3⟩ : vector Nat) 1 (argument.object 7)
        = result.threw u ∧ u.m_size = 3 ∧ u.m_capacity = 3 ∧
      toList u = ((toList (⟨some [1, 2, 3], 3, 3⟩ : vector Nat)).take 1 ++
        7 :: (toList (⟨some [1, 2, 3], 3, 3⟩ : vector Nat)).drop 1).take 3) := by
  have h := emplace_capacity_spec (⟨some [1, 2, 3], 3, 3⟩ : vector Nat) 1 (argument.object 7)
    (by decide) (by decide) (by decide) (fun i hi => argument.noConfusion hi)
  obtain ⟨⟨w, it, hw, hcap, _⟩, hfail⟩ := h
  obtain ⟨u, hu, hs, hc, hl, _⟩ := hfail rfl 7 rfl
  exact ⟨⟨by decide, by decide, by decide⟩, ⟨w, it, hw, hcap rfl⟩,
    ⟨u, hu, hs, hc, hl (by decide)⟩⟩

/-- C35, evaluated after a copy assignment from a source with spare capacity: `b`,
built from `{1, 2, 3}` and shortened by `pop_back()`, has size 2 and capacity 3;
after `a = b` on a default-constructed `a` the buffer of `a` has 2 cells, the size
of the source, while `capacity()` is 3; `a.push_back(4)` then does not reallocate
and writes cell 2, outside the buffer. -/
theorem copy_assign_capacity_eval :
    ((initializer_list_ctor [1, 2, 3] : Option (vector Nat)).bind fun b0 =>
        (pop_back b0).bind fun b =>
          (copy_assign default_ctor b).map fun a =>
            (b.m_size, b.m_capacity, (cells a).length, a.capacity,
              (expand_capacity_request a).isSome, (push_back a (argument.object 4)).isSome))
      = some (2, 3, 2, 3, false, false) := by
  decide

/-- C36, evaluated at the copy assignment: with `a` built from `{1, 2, 3}` and `b`
built from `{9}`, `a = b` calls `re_allocate(1)` while the size of `a` is still 3,
and `re_allocate(1)` on that state writes `new_data[1]` outside the new buffer. -/
theorem copy_assign_request_eval :
    ((initializer_list_ctor [1, 2, 3] : Option (vector Nat)).bind fun a =>
        (initializer_list_ctor [9] : Option (vector Nat)).bind fun b =>
          some (decide (a.m_size ≤ a.m_capacity), copy_assign_request a b, a.m_size,
            (re_allocate a 1).isSome))
      = some (true, some 1, 3, false) := by
  decide

/-- C38, evaluated on a full vector of `2 ^ 32` elements, all 1, built by
`vector(count, value)`: `emplace(begin(), 7)` followed by `erase(begin())` returns
with the size as before, and element 0, which was 1, is 0: `emplace` reallocates,
and the `int` counter of the fill loop in `re_allocate` starts at 0. -/
theorem emplace_erase_int_counter_eval :
    ∃ v w, (fill_ctor (2 ^ 32) 1 : Option (vector Nat)) = some v ∧
      v.subscript 0 = some 1 ∧
      ((emplace v (v.begin + 0) (argument.object 7)).bind
        fun r => (erase r.1 (r.1.begin + 0)).map Prod.fst) = some w ∧
      w.m_size = v.m_size ∧
      w.subscript 0 = some 0 := by
  obtain ⟨r, hr, hrl, hdef⟩ := emplace_overwrites
    (⟨some (List.replicate (2 ^ 32) 1), 2 ^ 32, 2 ^ 32⟩ : vector Nat) 0 7 0 rfl
    (by simp only [cells, Option.getD_some, List.length_replicate])
    (by show 2 ^ 32 = 2 ^ 32 + 0; omega) (by omega)
  have hrl' : r.length = 2 ^ 32 + 1 := hrl
  obtain ⟨r2, hr2, _, hrj2⟩ := erase_eq (⟨some r, 2 ^ 32 + 1, 2 ^ 32 + 1⟩ : vector Nat) 0
    (by show 0 < 2 ^ 32 + 1; omega)
    (by simp only [cells, Option.getD_some]; omega)
  simp only [cells, Option.getD_some] at hr2 hrj2
  refine ⟨⟨some (List.replicate (2 ^ 32) 1), 2 ^ 32, 2 ^ 32⟩,
    ⟨some r2, 2 ^ 32 + 1 - 1, 2 ^ 32 + 1⟩, fill_ctor_eq _ _, ?_, ?_, ?_, ?_⟩
  · simp only [subscript, load]
    rw [List.getElem?_replicate, if_pos (by omega)]
  · simp only [vector.begin, Nat.add_zero]
    rw [hr, Option.some_bind, hr2]
    rfl
  · show 2 ^ 32 + 1 - 1 = 2 ^ 32
    omega
  · simp only [subscript, load]
    rw [hrj2 0, if_pos ⟨le_refl _, by omega⟩]
    exact hdef 1 (by omega) (by omega)

/-- What `emplace` followed by `erase` does outside the defects of `emplace`: for an
object outside the buffer and `p < size()`, on a vector with `size <= capacity`
whose buffer has `capacity` cells and whose reallocation stays in the range of the
`int` counter, `emplace(begin() + p, x)` followed by `erase(begin() + p)` returns
with the size and the elements as they were at first, in the same order, and a
capacity not below the capacity at first. -/
theorem emplace_erase_spec [Inhabited T] [element_type T] (v : vector T) (p : Nat) (x : T)
    (hp : p < v.m_size) (hsc : v.m_size ≤ v.m_capacity)
    (hbuf : (cells v).length = v.m_capacity)
    (hint : v.m_size = v.m_capacity → v.m_size < 2 ^ 31) :
    ∃ w, ((emplace v (v.begin + p) (argument.object x)).bind
        fun r => (erase r.1 (r.1.begin + p)).map Prod.fst) = some w ∧
      w.m_size = v.m_size ∧
      (∀ i, i < v.m_size → w.subscript i = v.subscript i) ∧
      toList w = toList v ∧
      v.m_capacity ≤ w.m_capacity := by
  obtain ⟨r, hr, hrl, hrj⟩ := emplace_eq v p x hp hsc hbuf hint
  have hcap : v.m_size + 1 ≤ (if v.m_size = v.m_capacity then v.m_size + 1
      else v.m_capacity) := by
    split_ifs <;> omega
  obtain ⟨r2, hr2, _, hrj2⟩ := erase_eq
    (⟨some r, v.m_size + 1, if v.m_size = v.m_capacity then v.m_size + 1
      else v.m_capacity⟩ : vector T) p (by simp; omega)
    (by simp only [cells, Option.getD_some, hrl]; exact hcap)
  simp only [cells, Option.getD_some, Nat.add_sub_cancel] at hr2 hrj2
  have hcell : ∀ i, i < v.m_size → r2[i]? = (cells v)[i]? := by
    intro i hi
    rw [hrj2 i]
    by_cases hpi : p ≤ i
    · have h1 : p ≤ i ∧ i + 1 < v.m_size + 1 := ⟨hpi, by omega⟩
      rw [if_pos h1, hrj (i + 1)]
      have h2 : ¬ i + 1 < p := by omega
      have h3 : ¬ i + 1 = p := by omega
      have h4 : i + 1 ≤ v.m_size := by omega
      simp only [h2, h3, h4, if_false, if_true, Nat.add_sub_cancel]
    · have h1 : ¬ (p ≤ i ∧ i + 1 < v.m_size + 1) := fun h => hpi h.1
      rw [if_neg h1, hrj i]
      have h2 : i < p := by omega
      simp only [h2, if_true]
  refine ⟨⟨some r2, v.m_size, if v.m_size = v.m_capacity then v.m_size + 1
      else v.m_capacity⟩, ?_, rfl, ?_, ?_, ?_⟩
  · simp only [vector.begin, Nat.zero_add, hr, Option.some_bind, hr2, Option.map_some']
  · intro i hi
    simp only [subscript, load_eq_getElem?, Option.getD_some]
    exact hcell i hi
  · apply List.ext_getElem?
    intro j
    simp only [toList, List.getElem?_take]
    by_cases hj : j < v.m_size
    · simp only [hj, if_true]
      exact hcell j hj
    · simp [hj]
  · show v.m_capacity ≤ (if v.m_size = v.m_capacity then v.m_size + 1 else v.m_capacity)
    split_ifs <;> omega

/-- The full vector `{1, 2, 3}`, position 1. -/
theorem emplace_erase_spec_witness :
    (1 < 3 ∧ 3 ≤ 3 ∧ (cells (⟨some [1, 2, 3], 3, 3⟩ : vector Nat)).length = 3) ∧
    ∃ w, ((emplace (⟨some [1, 2, 3], 3, 3⟩ : vector Nat)
          ((⟨some [1, 2, 3], 3, 3⟩ : vector Nat).begin + 1) (argument.object 7)).bind
        fun r => (erase r.1 (r.1.begin + 1)).map Prod.fst) = some w ∧
      w.m_size = 3 ∧
      (∀ i, i < 3 → w.subscript i = (⟨some [1, 2, 3], 3, 3⟩ : vector Nat).subscript i) ∧
      toList w = toList (⟨some [1, 2, 3], 3, 3⟩ : vector Nat) ∧
      3 ≤ w.m_capacity :=
  ⟨⟨by decide, by decide, by decide⟩,
    emplace_erase_spec (⟨some [1, 2, 3], 3, 3⟩ : vector Nat) 1 7 (by decide) (by decide)
      (by decide) (fun _ => by decide)⟩

/-- C39: for vectors over a linearly ordered element type (the integers among
them) whose live elements lie in their buffers, `<`, `==` and `>` return and exactly
one of them is true; `A <= B` is true exactly when `A > B` is false, and `A >= B`
exactly when `A < B` is false. -/
theorem comparison_trichotomy [LinearOrder T] (A B : vector T)
    (hA : A.m_size ≤ (cells A).length) (hB : B.m_size ≤ (cells B).length) :
    ∃ less equal greater le ge,
      operator_lt A B = some less ∧ operator_eq A B = some equal ∧
      operator_gt A B = some greater ∧
      operator_le A B = some le ∧ operator_ge A B = some ge ∧
      ((less = true ∧ equal = false ∧ greater = false) ∨
        (less = false ∧ equal = true ∧ greater = false) ∨
        (less = false ∧ equal = false ∧ greater = true)) ∧
      (le = true ↔ greater = false) ∧
      (ge = true ↔ less = false) := by
  obtain ⟨less, hless, hlex⟩ := operator_lt_iff_lex A B hA hB
  obtain ⟨greater, hgreater, hlex2⟩ := operator_lt_iff_lex B A hB hA
  obtain ⟨equal, hequal, heq⟩ := operator_eq_iff A B hA hB
  have heq' : equal = true ↔ toList A = toList B := heq.trans (toList_eq_iff A B hA hB).symm
  obtain ⟨hle, hge⟩ := operator_le_ge_eq A B less greater equal hless hgreater hequal
  have hone : (less = true ∧ equal = false ∧ greater = false) ∨
      (less = false ∧ equal = true ∧ greater = false) ∨
      (less = false ∧ equal = false ∧ greater = true) := by
    rcases trichotomous_of (List.Lex (fun a b : T => a < b)) (toList A) (toList B) with
      h | h | h
    · have h1 : less = true := hlex.mpr h
      have h2 : equal = false := by
        cases he : equal with
        | false => rfl
        | true =>
          rw [heq'.mp he] at h
          exact absurd h (irrefl_of (List.Lex (fun a b : T => a < b)) _)
      have h3 : greater = false := by
        cases hg : greater with
        | false => rfl
        | true => exact absurd (hlex2.mp hg) (asymm_of (List.Lex (fun a b : T => a < b)) h)
      exact Or.inl ⟨h1, h2, h3⟩
    · have h2 : equal = true := heq'.mpr h
      have h1 : less = false := by
        cases hl : less with
        | false => rfl
        | true =>
          have := hlex.mp hl
          rw [h] at this
          exact absurd this (irrefl_of (List.Lex (fun a b : T => a < b)) _)
      have h3 : greater = false := by
        cases hg : greater with
        | false => rfl
        | true =>
          have := hlex2.mp hg
          rw [h] at this
          exact absurd this (irrefl_of (List.Lex (fun a b : T => a < b)) _)
      exact Or.inr (Or.inl ⟨h1, h2, h3⟩)
    · have h3 : greater = true := hlex2.mpr h
      have h2 : equal = false := by
        cases he : equal with
        | false => rfl
        | true =>
          rw [heq'.mp he] at h
          exact absurd h (irrefl_of (List.Lex (fun a b : T => a < b)) _)
      have h1 : less = false := by
        cases hl : less with
        | false => rfl
        | true => exact absurd (hlex.mp hl) (asymm_of (List.Lex (fun a b : T => a < b)) h)
      exact Or.inr (Or.inr ⟨h1, h2, h3⟩)
  refine ⟨less, equal, greater, less || equal, greater || equal, hless, hequal, hgreater,
    hle, hge, hone, ?_, ?_⟩
  · rcases hone with ⟨h1, h2, h3⟩ | ⟨h1, h2, h3⟩ | ⟨h1, h2, h3⟩ <;> simp [h1, h2, h3]
  · rcases hone with ⟨h1, h2, h3⟩ | ⟨h1, h2, h3⟩ | ⟨h1, h2, h3⟩ <;> simp [h1, h2, h3]

/-- Witness for C39: the integer vectors `{1, 2}` and `{1, 3}`. -/
theorem comparison_trichotomy_witness :
    (2 ≤ (cells (⟨some [1, 2], 2, 2⟩ : vector Int)).length ∧
      2 ≤ (cells (⟨some [1, 3], 2, 2⟩ : vector Int)).length) ∧
    ∃ less equal greater le ge,
      operator_lt (⟨some [1, 2], 2, 2⟩ : vector Int) ⟨some [1, 3], 2, 2⟩ = some less ∧
      operator_eq (⟨some [1, 2], 2, 2⟩ : vector Int) ⟨some [1, 3], 2, 2⟩ = some equal ∧
      operator_gt (⟨some [1, 2], 2, 2⟩ : vector Int) ⟨some [1, 3], 2, 2⟩ = some greater ∧
      operator_le (⟨some [1, 2], 2, 2⟩ : vector Int) ⟨some [1, 3], 2, 2⟩ = some le ∧
      operator_ge (⟨some [1, 2], 2, 2⟩ : vector Int) ⟨some [1, 3], 2, 2⟩ = some ge ∧
      ((less = true ∧ equal = false ∧ greater = false) ∨
        (less = false ∧ equal = true ∧ greater = false) ∨
        (less = false ∧ equal = false ∧ greater = true)) ∧
      (le = true ↔ greater = false) ∧
      (ge = true ↔ less = false) :=
  ⟨⟨by decide, by decide⟩,
    comparison_trichotomy (⟨some [1, 2], 2, 2⟩ : vector Int) ⟨some [1, 3], 2, 2⟩
      (by decide) (by decide)⟩

end vector

/-- C40: for ranges `a`, `b`, `c` over a linearly ordered element type (the integers
among them) that lie in their buffers, `lexicographical_compare` returns on each
pair; if it is true on `(a, b)` and on `(b, c)` it is true on `(a, c)`, and it is
never true on both `(a, b)` and `(b, a)`. -/
theorem lexicographical_compare_strict_order {T : Type} [LinearOrder T]
    (a b c : pointer T) (a_begin a_end b_begin b_end c_begin c_end : Nat)
    (ha1 : a_begin ≤ a_end) (ha2 : a_end ≤ (a.getD []).length)
    (hb1 : b_begin ≤ b_end) (hb2 : b_end ≤ (b.getD []).length)
    (hc1 : c_begin ≤ c_end) (hc2 : c_end ≤ (c.getD []).length) :
    (∃ r, lexicographical_compare a a_begin a_end b b_begin b_end = some r) ∧
    (lexicographical_compare a a_begin a_end b b_begin b_end = some true →
      lexicographical_compare b b_begin b_end c c_begin c_end = some true →
      lexicographical_compare a a_begin a_end c c_begin c_end = some true) ∧
    ¬ (lexicographical_compare a a_begin a_end b b_begin b_end = some true ∧
      lexicographical_compare b b_begin b_end a a_begin a_end = some true) := by
  obtain ⟨rab, hab, iab⟩ :=
    vector.lexicographical_compare_iff_lex a a_begin a_end b b_begin b_end ha1 ha2 hb1 hb2
  obtain ⟨rbc, hbc, ibc⟩ :=
    vector.lexicographical_compare_iff_lex b b_begin b_end c c_begin c_end hb1 hb2 hc1 hc2
  obtain ⟨rac, hac, iac⟩ :=
    vector.lexicographical_compare_iff_lex a a_begin a_end c c_begin c_end ha1 ha2 hc1 hc2
  obtain ⟨rba, hba, iba⟩ :=
    vector.lexicographical_compare_iff_lex b b_begin b_end a a_begin a_end hb1 hb2 ha1 ha2
  refine ⟨⟨rab, hab⟩, ?_, ?_⟩
  · intro h1 h2
    rw [hab] at h1
    rw [hbc] at h2
    have l1 := iab.mp (Option.some.inj h1)
    have l2 := ibc.mp (Option.some.inj h2)
    rw [hac, iac.mpr (trans_of (List.Lex (fun x y : T => x < y)) l1 l2)]
  · rintro ⟨h1, h2⟩
    rw [hab] at h1
    rw [hba] at h2
    have l1 := iab.mp (Option.some.inj h1)
    have l2 := iba.mp (Option.some.inj h2)
    exact asymm_of (List.Lex (fun x y : T => x < y)) l1 l2

/-- Witness for C40: the integer arrays `{1, 2}`, `{1, 3}` and `{2}`. -/
theorem lexicographical_compare_strict_order_witness :
    lexicographical_compare (some [1, 2] : pointer Int) 0 2 (some [2]) 0 1 = some true ∧
    ¬ (lexicographical_compare (some [1, 2] : pointer Int) 0 2 (some [1, 3]) 0 2 = some true ∧
      lexicographical_compare (some [1, 3] : pointer Int) 0 2 (some [1, 2]) 0 2 = some true) := by
  have h := lexicographical_compare_strict_order (some [1, 2] : pointer Int) (some [1, 3])
    (some [2]) 0 2 0 2 0 1 (by decide) (by decide) (by decide) (by decide) (by decide)
    (by decide)
  exact ⟨h.2.1 (by decide) (by decide), h.2.2⟩

namespace vector

variable {T : Type}

/-- C37, evaluated at two places where the invariant is lost. The vector built from
`{1, 2, 3}` has, after `erase(begin())`, the buffer `{2, 3, 3}` with size 2 and
capacity 3; the move constructor hands this buffer over, so the vector it builds
holds 3, not the default value, in the spare cell 2, and `resize(3)` on it gives
`{2, 3, 3}`. And on a full vector of `2 ^ 31` elements, which has the invariant,
`reserve(2 ^ 31 + 1)` returns with the spare cell `2 ^ 31` as `new T[count]` left
it: the `int` counter of the fill loop in `re_allocate` starts negative, so no spare
cell is assigned `value_type()`. -/
theorem buffer_invariant_eval :
    ((initializer_list_ctor [1, 2, 3] : Option (vector Nat)).bind fun b =>
        (erase b b.begin).bind fun r =>
          (resize (move_ctor r.1).1 3).map fun w =>
            ((move_ctor r.1).1.m_size, (move_ctor r.1).1.m_capacity,
              cells (move_ctor r.1).1, decide ((cells (move_ctor r.1).1)[2]? = some default),
              toList w))
      = some (2, 3, [2, 3, 3], false, [2, 3, 3]) ∧
    ∃ v w, (fill_ctor (2 ^ 31) 1 : Option (vector Nat)) = some v ∧
      buffer_invariant v ∧
      reserve v (2 ^ 31 + 1) = some w ∧
      w.m_size = 2 ^ 31 ∧ w.m_capacity = 2 ^ 31 + 1 ∧
      (cells w)[2 ^ 31]? = some (element_type.indeterminate (2 ^ 31 + 1) (2 ^ 31)) ∧
      (element_type.indeterminate (2 ^ 31 + 1) (2 ^ 31) : Nat) ≠ default := by
  refine ⟨by decide, ?_⟩
  obtain ⟨r, hr, _, hjunk⟩ := re_allocate_skips_fill
    (⟨some (List.replicate (2 ^ 31) 1), 2 ^ 31, 2 ^ 31⟩ : vector Nat) (2 ^ 31 + 1)
    (by simp only [cells, Option.getD_some, List.length_replicate]; exact le_refl _)
    (by show 2 ^ 31 ≤ 2 ^ 31 + 1; omega) (le_refl _) (by show 2 ^ 31 < 2 ^ 32; omega)
  refine ⟨⟨some (List.replicate (2 ^ 31) 1), 2 ^ 31, 2 ^ 31⟩,
    ⟨some r, 2 ^ 31, 2 ^ 31 + 1⟩, fill_ctor_eq _ _,
    buffer_invariant_of_tight _ _ (List.length_replicate _ _), ?_, rfl, rfl, ?_, ?_⟩
  · simp only [reserve]
    rw [if_pos (by show 2 ^ 31 + 1 > 2 ^ 31; omega)]
    exact hr
  · simp only [cells, Option.getD_some]
    exact hjunk (2 ^ 31) (le_refl _) (by show 2 ^ 31 < 2 ^ 31 + 1; omega)
  · show (3452816845 : Nat) ≠ 0
    omega

/-- What holds of the invariant outside the defects: every constructor that
allocates leaves the buffer invariant on the vector it builds (`size <= capacity`,
a buffer of `capacity` cells, the default value in every cell at an index in
`[size, capacity)`), and the move constructor hands over the buffer of its source
as it is, so that the new vector has the invariant exactly when the source had it;
for an object outside the buffer and capacities in the range of the `int` counter,
`push_back`, `emplace_back`, `emplace` at a position up to the end, `pop_back` on a
non-empty vector, `clear`, `resize`, `reserve` and `shrink_to_fit` return and
preserve it; and `resize` to a larger size within the capacity keeps the buffer
untouched and the new elements read the default value. -/
theorem buffer_invariant_spec [Inhabited T] [element_type T] (n : Nat) (x : T) (L : List T)
    (s v : vector T) (p : Nat)
    (hs : s.m_size ≤ (cells s).length) (hv : buffer_invariant v) (hp : p ≤ v.m_size)
    (hcap : 2 * v.m_capacity ≤ 2 ^ 31) (hn : n ≤ 2 ^ 31) :
    (buffer_invariant (default_ctor : vector T) ∧
      (∃ w : vector T, count_ctor n = some w ∧ buffer_invariant w) ∧
      (∃ w, fill_ctor n x = some w ∧ buffer_invariant w) ∧
      (∃ w, initializer_list_ctor L = some w ∧ buffer_invariant w) ∧
      (∃ w, copy_ctor s = some w ∧ buffer_invariant w) ∧
      (buffer_invariant (move_ctor s).1 ↔ buffer_invariant s) ∧
      buffer_invariant (move_ctor s).2) ∧
    ((∃ w, push_back v (argument.object x) = some w ∧ buffer_invariant w) ∧
      (∃ w, emplace_back v (argument.object x) = some w ∧ buffer_invariant w) ∧
      (∃ w it, emplace v (v.begin + p) (argument.object x) = some (w, it) ∧ buffer_invariant w) ∧
      (0 < v.m_size → ∃ w, pop_back v = some w ∧ buffer_invariant w) ∧
      (∃ w, clear v = some w ∧ buffer_invariant w) ∧
      (∃ w, resize v n = some w ∧ buffer_invariant w) ∧
      (∃ w, reserve v n = some w ∧ buffer_invariant w) ∧
      (∃ w, shrink_to_fit v = some w ∧ buffer_invariant w)) ∧
    (v.m_size < n → n ≤ v.m_capacity →
      ∃ w, resize v n = some w ∧ w.m_data = v.m_data ∧
        ∀ i, v.m_size ≤ i → i < n → w.subscript i = some default) := by
  have hnull : buffer_invariant (⟨none, 0, 0⟩ : vector T) :=
    ⟨le_refl _, rfl, fun j _ h2 => absurd h2 (Nat.not_lt_zero j)⟩
  have hsc0 : v.m_size ≤ v.m_capacity := hv.1
  have hpush : v.m_size = v.m_capacity → 2 * v.m_size ≤ 2 ^ 31 := fun h => by omega
  have hemp : v.m_size = v.m_capacity → v.m_size < 2 ^ 31 := fun h => by omega
  have hshr : v.m_size < v.m_capacity → v.m_size ≤ 2 ^ 31 := fun h => by omega
  refine ⟨⟨hnull, ⟨_, count_ctor_eq n, buffer_invariant_of_tight _ n (by simp)⟩,
    ⟨_, fill_ctor_eq n x, buffer_invariant_of_tight _ n (by simp)⟩,
    ⟨_, initializer_list_ctor_eq L, buffer_invariant_of_tight L _ rfl⟩,
    copy_ctor_invariant s hs, Iff.rfl, hnull⟩,
    ⟨push_back_invariant v x hv hpush, ?_, ?_, fun hpos => pop_back_invariant v hpos hv,
      clear_invariant v hv, resize_invariant v n hv (fun _ => hn),
      reserve_invariant v n hv (fun _ => hn), shrink_to_fit_invariant v hv hshr⟩, ?_⟩
  · have hsame : emplace_back v (argument.object x) = push_back v (argument.object x) := by
      simp only [emplace_back, push_back]
    rw [hsame]
    exact push_back_invariant v x hv hpush
  · simp only [vector.begin, Nat.zero_add]
    exact emplace_invariant v p x hp hv hemp
  · intro h1 h2
    obtain ⟨hsc, hbuf, hsp⟩ := hv
    refine ⟨⟨v.m_data, n, v.m_capacity⟩, ?_, rfl, ?_⟩
    · rw [resize_grow_eq v n h1 (by omega) (fun _ => hn), if_neg (by omega)]
    · intro i hi1 hi2
      simp only [subscript, load_eq_getElem?]
      exact hsp i hi1 (by omega)

/-- The vector `{1, 2}` with capacity 3 and a default spare cell, position 1, and as
source of the copy the buffer `{1, 3, 3}` with size 2. -/
theorem buffer_invariant_spec_witness :
    (2 ≤ (cells (⟨some [1, 3, 3], 2, 3⟩ : vector Nat)).length ∧
      buffer_invariant (⟨some [1, 2, 0], 2, 3⟩ : vector Nat) ∧ 1 ≤ 2) ∧
    (∃ w, copy_ctor (⟨some [1, 3, 3], 2, 3⟩ : vector Nat) = some w ∧ buffer_invariant w) ∧
    (∃ w it, emplace (⟨some [1, 2, 0], 2, 3⟩ : vector Nat)
        ((⟨some [1, 2, 0], 2, 3⟩ : vector Nat).begin + 1) (argument.object 7) = some (w, it) ∧
      buffer_invariant w) ∧
    (∃ w, pop_back (⟨some [1, 2, 0], 2, 3⟩ : vector Nat) = some w ∧ buffer_invariant w) ∧
    (∃ w, resize (⟨some [1, 2, 0], 2, 3⟩ : vector Nat) 3 = some w ∧
      w.m_data = some [1, 2, 0] ∧
      ∀ i, 2 ≤ i → i < 3 → w.subscript i = some default) := by
  have hv : buffer_invariant (⟨some [1, 2, 0], 2, 3⟩ : vector Nat) := by
    refine ⟨by decide, by decide, ?_⟩
    intro j h1 h2
    have h1' : 2 ≤ j := h1
    have h2' : j < 3 := h2
    have hj : j = 2 := by omega
    subst hj
    rfl
  have h := buffer_invariant_spec 3 7 [4, 5] (⟨some [1, 3, 3], 2, 3⟩ : vector Nat)
    (⟨some [1, 2, 0], 2, 3⟩ : vector Nat) 1 (by decide) hv (by decide) (by decide)
    (by decide)
  exact ⟨⟨by decide, hv, by decide⟩, h.1.2.2.2.2.1, h.2.1.2.2.1, h.2.1.2.2.2.1 (by decide),
    h.2.2 (by decide) (by decide)⟩

end vector

end open_stl
